import Mathlib

/-!
Shallow embedding of `src/rushhour/game.py` (Rush Hour solver).

Conventions from the source:
- the board is a 6 x 6 grid, the top left corner is (0, 0);
- horizontal movements towards the right are positive, vertical movements
  downwards are positive;
- zero represents an empty cell, nonzero cells hold the `CarName` value of
  the occupying car.

The board tensor is embedded as a flat row-major `List Nat` of length 36
(which is exactly `Game.tensor_to_tuple` of the tensor, so snapshot keys
coincide with boards).  The `_cars` dict is embedded as an insertion-ordered
association list (Python dicts preserve insertion order, and updating an
existing key keeps its position).  `raise` is embedded with `Except`, the
error carrying the state at the moment of the raise.
-/

namespace RushHour

def boardSize : Nat := 6

/-- `Orientation` from the source: `H = 0`, `V = 1`. -/
inductive Orientation where
  | H : Orientation
  | V : Orientation
deriving DecidableEq, Repr

/-- `CarName` values: X = 1, A = 2, B = 3, C = 4, D = 5, E = 6, F = 7, G = 8,
H = 9, I = 10, J = 11, K = 12, O = 13, P = 14, Q = 15, R = 16.  We embed a
car name as its integer value. -/
def carNameOfChar (c : Char) : Option Nat :=
  if c = 'X' then some 1
  else if c = 'A' then some 2
  else if c = 'B' then some 3
  else if c = 'C' then some 4
  else if c = 'D' then some 5
  else if c = 'E' then some 6
  else if c = 'F' then some 7
  else if c = 'G' then some 8
  else if c = 'H' then some 9
  else if c = 'I' then some 10
  else if c = 'J' then some 11
  else if c = 'K' then some 12
  else if c = 'O' then some 13
  else if c = 'P' then some 14
  else if c = 'Q' then some 15
  else if c = 'R' then some 16
  else none

/-- Display name of a car (inverse of `carNameOfChar`), used by the solvers
to format moves (`car.name.name` in the source). -/
def carNameStr (n : Nat) : String :=
  if n = 1 then "X"
  else if n = 2 then "A"
  else if n = 3 then "B"
  else if n = 4 then "C"
  else if n = 5 then "D"
  else if n = 6 then "E"
  else if n = 7 then "F"
  else if n = 8 then "G"
  else if n = 9 then "H"
  else if n = 10 then "I"
  else if n = 11 then "J"
  else if n = 12 then "K"
  else if n = 13 then "O"
  else if n = 14 then "P"
  else if n = 15 then "Q"
  else if n = 16 then "R"
  else ""

/-- `Car` from the source: name (as its `CarName` integer value), orientation
and start position `(row, col)`.  `size` and `end` are derived.  Coordinates
are integers because `move_by` can produce out-of-board positions. -/
structure Car where
  name : Nat
  orientation : Orientation
  start : Int × Int
deriving DecidableEq, Repr

/-- `Car._size`: 2 if `name == X or name < O` (i.e. value < 13), else 3. -/
def Car.size (c : Car) : Nat :=
  if c.name = 1 ∨ c.name < 13 then 2 else 3

/-- `Car.move_by`: shift `start` along the orientation axis. -/
def Car.move_by (c : Car) (inc : Int) : Car :=
  match c.orientation with
  | .H => { c with start := (c.start.1, c.start.2 + inc) }
  | .V => { c with start := (c.start.1 + inc, c.start.2) }

/-- `Car.end`: the last occupied cell. -/
def Car.endPos (c : Car) : Int × Int :=
  match c.orientation with
  | .H => (c.start.1, c.start.2 + (c.size : Int) - 1)
  | .V => (c.start.1 + (c.size : Int) - 1, c.start.2)

/-- `Car.in_board`. -/
def Car.in_board (c : Car) : Prop :=
  0 ≤ c.start.1 ∧ 0 ≤ c.start.2 ∧ c.endPos.1 < (boardSize : Int) ∧ c.endPos.2 < (boardSize : Int)

instance (c : Car) : Decidable c.in_board := by
  unfold Car.in_board; infer_instance

/-- The cells occupied by a car (the source's `indices` slice, listed
explicitly): `size` consecutive cells from `start` along the orientation. -/
def Car.cells (c : Car) : List (Int × Int) :=
  (List.range c.size).map fun (i : Nat) =>
    match c.orientation with
    | .H => (c.start.1, c.start.2 + (i : Int))
    | .V => (c.start.1 + (i : Int), c.start.2)

/-- `Car.from_string`: `<CarName><Orientation><x><y>`; any second character
other than `H` yields `V` (as in the source); the two coordinates must be
single decimal digits; extra characters are ignored.  `none` corresponds to
the uncaught `KeyError`/`ValueError` a malformed string raises. -/
def parseCarStr (s : String) : Option Car :=
  match s.toList with
  | c0 :: c1 :: c2 :: c3 :: _ =>
    match carNameOfChar c0 with
    | none => none
    | some nm =>
      if c2.isDigit ∧ c3.isDigit then
        some { name := nm
               orientation := if c1 = 'H' then .H else .V
               start := ((c2.toNat - 48 : Nat), (c3.toNat - 48 : Nat)) }
      else none
  | _ => none

/-! ### The board -/

abbrev Board := List Nat

def emptyBoard : Board := List.replicate (boardSize * boardSize) 0

/-- Row-major index of a position (only used on in-board positions). -/
def cellIdx (p : Int × Int) : Nat :=
  p.1.toNat * boardSize + p.2.toNat

def getCell (b : Board) (p : Int × Int) : Nat :=
  b.getD (cellIdx p) 0

def setCell (b : Board) (p : Int × Int) (v : Nat) : Board :=
  b.set (cellIdx p) v

/-- Write value `v` at every cell of `ps` (the slice assignments
`board[indices] = 0` and `board[indices] = car.value`). -/
def setCells (b : Board) (ps : List (Int × Int)) (v : Nat) : Board :=
  ps.foldl (fun bb p => setCell bb p v) b

/-- Row `r` of the board (`self.board[r]`). -/
def boardRow (b : Board) (r : Nat) : List Nat :=
  (b.drop (r * boardSize)).take boardSize

/-- Column `c` of the board (`self.board[:, c]`). -/
def boardCol (b : Board) (c : Nat) : List Nat :=
  (List.range boardSize).map fun r => b.getD (r * boardSize + c) 0

/-! ### The car map (`self._cars`, an insertion-ordered dict) -/

abbrev CarsMap := List (Nat × Car)

def carsGet (m : CarsMap) (k : Nat) : Option Car :=
  (m.find? (fun e => e.1 == k)).map (·.2)

/-- Python dict update: replace in place if the key is present, else append. -/
def carsSet : CarsMap → Nat → Car → CarsMap
  | [], k, c => [(k, c)]
  | e :: rest, k, c => if e.1 = k then (k, c) :: rest else e :: carsSet rest k c

def carsContains (m : CarsMap) (k : Nat) : Bool :=
  (carsGet m k).isSome

/-! ### The game -/

structure Game where
  board : Board
  cars : CarsMap
deriving DecidableEq, Repr

/-- `Game._can_place_car`. -/
def can_place_car (g : Game) (car : Car) : Prop :=
  car.in_board ∧ ∀ p ∈ car.cells, getCell g.board p = 0

instance (g : Game) (car : Car) : Decidable (can_place_car g car) := by
  unfold can_place_car; infer_instance

/-- `Game._place_car` together with the dict insertion of `add_car`. -/
def place_car (g : Game) (car : Car) : Game :=
  { board := setCells g.board car.cells car.name
    cars := carsSet g.cars car.name car }

/-- `Game.add_car`: raises unless the car can be placed. -/
def add_car (g : Game) (car : Car) : Except (String × Game) Game :=
  if can_place_car g car then .ok (place_car g car)
  else .error ("Cannot place car", g)

/-- `Game._can_move_car`. -/
def can_move_car (g : Game) (car : Car) (inc : Int) : Prop :=
  (car.move_by inc).in_board ∧
    ∀ p ∈ (car.move_by inc).cells,
      getCell g.board p = 0 ∨ getCell g.board p = (car.move_by inc).name

instance (g : Game) (car : Car) (inc : Int) : Decidable (can_move_car g car inc) := by
  unfold can_move_car; infer_instance

/-- `Game._move_car`: checks are performed before any mutation, so the error
value carries the untouched state. -/
def move_car (g : Game) (car : Car) (inc : Int) : Except (String × Game) Game :=
  let c := car.move_by inc
  if ¬ c.in_board then .error ("moved out of bounds", g)
  else if ∀ p ∈ c.cells, getCell g.board p = 0 ∨ getCell g.board p = c.name then
    .ok { board := setCells (setCells g.board car.cells 0) c.cells c.name
          cars := carsSet g.cars c.name c }
  else .error ("overlaps with another car or is out of bounds", g)

/-! ### Move parsing and replay -/

/-- `int(s)` restricted to an optional sign followed by decimal digits. -/
def digitsToNat : List Char → Option Nat
  | [] => none
  | l => if l.all Char.isDigit then some (l.foldl (fun a c => a * 10 + (c.toNat - 48)) 0) else none

def parseInt (l : List Char) : Option Int :=
  match l with
  | '+' :: rest => (digitsToNat rest).map (Int.ofNat)
  | '-' :: rest => (digitsToNat rest).map (fun n => -(n : Int))
  | _ => (digitsToNat l).map (Int.ofNat)

/-- Parsing of one move string `<CarName><inc>`: `move[0]` must be a valid
`CarName` member and `int(move[1:])` must parse, else the `ValueError`
"Invalid move" is raised. -/
def parseMove (s : String) : Option (Nat × Int) :=
  match s.toList with
  | [] => none
  | c :: rest =>
    match carNameOfChar c, parseInt rest with
    | some nm, some i => some (nm, i)
    | _, _ => none

/-- `Game.move_sequence`: parse each move; a move whose car name is a valid
`CarName` but absent from `_cars` is ignored; otherwise `_move_car`. -/
def move_sequence (g : Game) : List String → Except (String × Game) Game
  | [] => .ok g
  | m :: rest =>
    match parseMove m with
    | none => .error ("Invalid move", g)
    | some (nm, inc) =>
      match carsGet g.cars nm with
      | none => move_sequence g rest
      | some car =>
        match move_car g car inc with
        | .ok g1 => move_sequence g1 rest
        | .error e => .error e

/-! ### Solution test -/

/-- `Game._obstacles_before_exit`: the number of nonzero cells in the X car's
row strictly beyond its end.  (The source would raise if X were absent; X is
always present in a constructed game, we return 0 in that dead branch.) -/
def obstacles_before_exit (g : Game) : Nat :=
  match carsGet g.cars 1 with
  | some xcar =>
    (((boardRow g.board xcar.endPos.1.toNat).drop (xcar.endPos.2 + 1).toNat).filter
      (fun v => v ≠ 0)).length
  | none => 0

/-- `Game.is_solution`. -/
def is_solution (g : Game) : Prop :=
  obstacles_before_exit g = 0

instance (g : Game) : Decidable (is_solution g) := by
  unfold is_solution; infer_instance

/-- `Game.heuristic`. -/
def heuristic (g : Game) : Nat :=
  obstacles_before_exit g

/-! ### Construction (`Game.__init__`) -/

/-- The per-car loop of `Game.__init__`: parse, check the X placement rule,
and `add_car`. -/
def buildGame (g : Game) : List String → Except String Game
  | [] => .ok g
  | s :: rest =>
    match parseCarStr s with
    | none => .error "unparsable car string"
    | some car =>
      if car.name = 1 ∧ (car.orientation ≠ .H ∨ car.start.1 ≠ 2) then
        .error "The X car must be horizontally in row 2"
      else
        match add_car g car with
        | .error _ => .error "Cannot place car"
        | .ok g1 => buildGame g1 rest

/-- `Game.__init__` on an initial state list. -/
def gameFromStrings (l : List String) : Except String Game :=
  match buildGame { board := emptyBoard, cars := [] } l with
  | .error e => .error e
  | .ok g =>
    if carsContains g.cars 1 then .ok g
    else .error "The X car must be present in the initial state"

/-! ### Move enumeration -/

/-- `Game._count_zeros`: the number of leading zeros of `t` from `position`
(0 if `position` is past the end or `t[position]` is nonzero). -/
def count_zeros (t : List Nat) (position : Nat) : Nat :=
  ((t.drop position).takeWhile (fun v => v == 0)).length

/-- `Game._get_car_moves` (the source fetches the car from `_cars`; we pass
it directly): positive and negative slide distances. -/
def get_car_moves (g : Game) (car : Car) : Nat × Nat :=
  match car.orientation with
  | .H =>
    let row := boardRow g.board car.start.1.toNat
    (count_zeros row (car.endPos.2 + 1).toNat,
     count_zeros row.reverse (boardSize - car.start.2.toNat))
  | .V =>
    let col := boardCol g.board car.start.2.toNat
    (count_zeros col (car.endPos.1 + 1).toNat,
     count_zeros col.reverse (boardSize - car.start.1.toNat))

/-- `Game._get_possible_moves`: cars (in dict order) with at least one
nonzero direction. -/
def get_possible_moves (g : Game) : List (Nat × Nat × Nat) :=
  g.cars.filterMap fun e =>
    let pn := get_car_moves g e.2
    if pn.1 > 0 ∨ pn.2 > 0 then some (e.1, pn.1, pn.2) else none

/-- The increments the solvers try for a car with `(pos, neg)` possible
moves: `[1..pos] ++ [-1..-neg]`, in this order. -/
def incList (pos neg : Nat) : List Int :=
  ((List.range pos).map fun (i : Nat) => ((i : Int) + 1)) ++
    ((List.range neg).map fun (i : Nat) => -((i : Int) + 1))

/-- `f"{car.name.name}+{inc}"` / `f"{car.name.name}{inc}"`. -/
def fmtMove (nm : Nat) (inc : Int) : String :=
  if inc > 0 then carNameStr nm ++ "+" ++ toString inc
  else carNameStr nm ++ toString inc

/-! ### BFS (`Game.bfs`)

A queue entry is `(tensor_to_tuple(board), moves_seq, cars.copy())`; in this
embedding `tensor_to_tuple` of the flat board is the board itself.  The
Python `while` loop is embedded with explicit fuel (`outOfFuel` when it runs
out); the loop body is otherwise a direct transcription. -/

structure QEntry where
  key : Board
  moves : List String
  cars : CarsMap
deriving DecidableEq, Repr

inductive SearchOut where
  | found (moves : List String) (nodes : Nat) (g : Game)
  | exhausted (nodes : Nat) (g : Game)
  | outOfFuel
deriving DecidableEq, Repr

/-- The inner `for inc in moves` loop of `bfs`: move, snapshot, backtrack
with the updated car from the map. -/
def expandIncs (nm : Nat) (car : Car) (seq : List String) :
    Game → List Int → Except (String × Game) (List QEntry × Game)
  | g, [] => .ok ([], g)
  | g, inc :: rest =>
    match move_car g car inc with
    | .error e => .error e
    | .ok g1 =>
      match carsGet g1.cars nm with
      | none => .error ("KeyError", g1)
      | some moved =>
        match move_car g1 moved (-inc) with
        | .error e => .error e
        | .ok g2 =>
          match expandIncs nm car seq g2 rest with
          | .error e => .error e
          | .ok (es, g3) => .ok (⟨g1.board, seq ++ [fmtMove nm inc], g1.cars⟩ :: es, g3)

/-- The `for car_name in possible_moves` loop of `bfs`. -/
def expandCars (seq : List String) :
    Game → List (Nat × Nat × Nat) → Except (String × Game) (List QEntry × Game)
  | g, [] => .ok ([], g)
  | g, (nm, p, n) :: rest =>
    match carsGet g.cars nm with
    | none => .error ("KeyError", g)
    | some car =>
      match expandIncs nm car seq g (incList p n) with
      | .error e => .error e
      | .ok (es1, g1) =>
        match expandCars seq g1 rest with
        | .error e => .error e
        | .ok (es2, g2) => .ok (es1 ++ es2, g2)

def bfsLoop : Nat → List Board → List QEntry → Nat → Game → Except (String × Game) SearchOut
  | 0, _, _, _, _ => .ok .outOfFuel
  | fuel + 1, visited, queue, nodes, g =>
    match g, queue with
    | g, [] => .ok (.exhausted nodes g)
    | _, e :: rest =>
      let g1 : Game := ⟨e.key, e.cars⟩
      if is_solution g1 then .ok (.found e.moves (nodes + 1) g1)
      else if e.key ∈ visited then bfsLoop fuel visited rest (nodes + 1) g1
      else
        match expandCars e.moves g1 (get_possible_moves g1) with
        | .error err => .error err
        | .ok (es, g2) => bfsLoop fuel (e.key :: visited) (rest ++ es) (nodes + 1) g2

/-- `Game.bfs` with explicit fuel. -/
def bfs (fuel : Nat) (g : Game) : Except (String × Game) SearchOut :=
  bfsLoop fuel [] [⟨g.board, [], g.cars⟩] 0 g

/-! ### A* (`Game.a_star`)

A heap entry is the tuple `(f_score, cost, board_tuple, moves_seq, cars)`;
`heapq` is embedded as a list kept sorted by the lexicographic order on
`(f, cost, board_tuple, moves_seq)` (the `cars` component is never compared
on the runs we reason about: two entries never tie on all four preceding
components), with insertion after equal elements. -/

structure AEntry where
  fsc : Nat
  cost : Nat
  key : Board
  moves : List String
  cars : CarsMap
deriving DecidableEq, Repr

/-- Lexicographic strict order on lists given a strict order on elements. -/
def listLtBy {α : Type} (lt : α → α → Bool) (eqb : α → α → Bool) :
    List α → List α → Bool
  | [], [] => false
  | [], _ :: _ => true
  | _ :: _, [] => false
  | a :: as, b :: bs => if lt a b then true else if eqb a b then listLtBy lt eqb as bs else false

/-- Python tuple comparison on the first four components of a heap entry. -/
def entryLt (a b : AEntry) : Bool :=
  if a.fsc ≠ b.fsc then a.fsc < b.fsc
  else if a.cost ≠ b.cost then a.cost < b.cost
  else if a.key ≠ b.key then listLtBy (fun x y => x < y) (fun x y => x == y) a.key b.key
  else listLtBy (fun x y => decide (x < y)) (fun x y => x == y) a.moves b.moves

/-- `heapq.heappush`: insert keeping the list sorted, after equal entries. -/
def heapPush : List AEntry → AEntry → List AEntry
  | [], e => [e]
  | x :: rest, e => if entryLt e x then e :: x :: rest else x :: heapPush rest e

/-- `g_costs` dict. -/
def costsGet (m : List (Board × Nat)) (k : Board) : Option Nat :=
  (m.find? (fun e => e.1 == k)).map (·.2)

def costsSet : List (Board × Nat) → Board → Nat → List (Board × Nat)
  | [], k, v => [(k, v)]
  | e :: rest, k, v => if e.1 = k then (k, v) :: rest else e :: costsSet rest k v

/-- `cost > g_costs.get(board_tuple, float(inf))`. -/
def staleB (gcosts : List (Board × Nat)) (k : Board) (c : Nat) : Bool :=
  match costsGet gcosts k with
  | some best => c > best
  | none => false

/-- `new_cost < g_costs.get(new_board_tuple, float(inf))`. -/
def improvesB (gcosts : List (Board × Nat)) (k : Board) (c : Nat) : Bool :=
  match costsGet gcosts k with
  | some best => c < best
  | none => true

/-- The inner `for inc in moves` loop of `a_star`. -/
def aStarExpandIncs (nm : Nat) (car : Car) (seq : List String) (cost : Nat) :
    List (Board × Nat) → List AEntry → Game → List Int →
    Except (String × Game) (List (Board × Nat) × List AEntry × Game)
  | gcosts, heap, g, [] => .ok (gcosts, heap, g)
  | gcosts, heap, g, inc :: rest =>
    match move_car g car inc with
    | .error e => .error e
    | .ok g1 =>
      let newCost := cost + 1
      let acc :=
        if improvesB gcosts g1.board newCost then
          (costsSet gcosts g1.board newCost,
           heapPush heap ⟨newCost + heuristic g1, newCost, g1.board, seq ++ [fmtMove nm inc], g1.cars⟩)
        else (gcosts, heap)
      match carsGet g1.cars nm with
      | none => .error ("KeyError", g1)
      | some moved =>
        match move_car g1 moved (-inc) with
        | .error e => .error e
        | .ok g2 => aStarExpandIncs nm car seq cost acc.1 acc.2 g2 rest

/-- The `for car_name in possible_moves` loop of `a_star`. -/
def aStarExpandCars (seq : List String) (cost : Nat) :
    List (Board × Nat) → List AEntry → Game → List (Nat × Nat × Nat) →
    Except (String × Game) (List (Board × Nat) × List AEntry × Game)
  | gcosts, heap, g, [] => .ok (gcosts, heap, g)
  | gcosts, heap, g, (nm, p, n) :: rest =>
    match carsGet g.cars nm with
    | none => .error ("KeyError", g)
    | some car =>
      match aStarExpandIncs nm car seq cost gcosts heap g (incList p n) with
      | .error e => .error e
      | .ok (gc1, h1, g1) => aStarExpandCars seq cost gc1 h1 g1 rest

def aStarLoop : Nat → List (Board × Nat) → List AEntry → Nat → Game →
    Except (String × Game) SearchOut
  | 0, _, _, _, _ => .ok .outOfFuel
  | fuel + 1, gcosts, heap, nodes, g =>
    match g, heap with
    | g, [] => .ok (.exhausted nodes g)
    | _, e :: rest =>
      if staleB gcosts e.key e.cost then
        aStarLoop fuel gcosts rest (nodes + 1) g
      else
        let g1 : Game := ⟨e.key, e.cars⟩
        if is_solution g1 then .ok (.found e.moves (nodes + 1) g1)
        else
          match aStarExpandCars e.moves e.cost gcosts rest g1 (get_possible_moves g1) with
          | .error err => .error err
          | .ok (gc2, h2, g2) => aStarLoop fuel gc2 h2 (nodes + 1) g2

/-- `Game.a_star` with explicit fuel. -/
def a_star (fuel : Nat) (g : Game) : Except (String × Game) SearchOut :=
  aStarLoop fuel [(g.board, 0)] [⟨heuristic g, 0, g.board, [], g.cars⟩] 0 g

/-- `Game.solve`. -/
def solve (fuel : Nat) (g : Game) (solver : String) : Except (String × Game) SearchOut :=
  if solver = "a_star" then a_star fuel g
  else if solver = "bfs" then bfs fuel g
  else .error ("Unknown solver", g)

/-! ### Specification-side notions used by the theorems -/

/-- A position that lies on the 6 x 6 board. -/
def inBoardPos (p : Int × Int) : Prop :=
  0 ≤ p.1 ∧ p.1 < (boardSize : Int) ∧ 0 ≤ p.2 ∧ p.2 < (boardSize : Int)

instance (p : Int × Int) : Decidable (inBoardPos p) := by
  unfold inBoardPos; infer_instance

/-- The position of a flat board index. -/
def posOfIdx (i : Nat) : Int × Int :=
  ((i / boardSize : Nat), (i % boardSize : Nat))

/-- The mutual-consistency invariant of the grid and the car map: every car
of the map is in the board with all of its cells marked with its key (its
key is its name, a valid `CarName` value); every nonzero board cell is
covered by the mapped car of that name; keys are unique. -/
def Consistent (g : Game) : Prop :=
  g.board.length = 36 ∧
  (∀ e ∈ g.cars, e.2.name = e.1 ∧ 1 ≤ e.1 ∧ e.1 ≤ 16 ∧ e.2.in_board ∧
    ∀ p ∈ e.2.cells, getCell g.board p = e.1) ∧
  (∀ i, i < 36 → g.board.getD i 0 ≠ 0 →
    ∃ e ∈ g.cars, e.1 = g.board.getD i 0 ∧ posOfIdx i ∈ e.2.cells) ∧
  (g.cars.map Prod.fst).Nodup

instance (g : Game) : Decidable (Consistent g) := by
  unfold Consistent; infer_instance

/-- The spec's condition for a sequence of placements to be valid: each car
in the board and not overlapping any cell already occupied. -/
def placementsOK : List (Int × Int) → List Car → Prop
  | _, [] => True
  | occ, c :: rest => (c.in_board ∧ ∀ p ∈ c.cells, p ∉ occ) ∧ placementsOK (occ ++ c.cells) rest

instance (occ : List (Int × Int)) (l : List Car) : Decidable (placementsOK occ l) := by
  induction l generalizing occ with
  | nil => unfold placementsOK; infer_instance
  | cons c rest ih =>
    unfold placementsOK
    have := ih (occ ++ c.cells)
    infer_instance

/-- One edge of the search graph: a move of the kind the solvers enumerate
(a car of the state and one of its possible increments), applied with
`_move_car`. -/
def EnumStep (g : Game) (mv : Nat × Int) (g2 : Game) : Prop :=
  ∃ p n car, (mv.1, p, n) ∈ get_possible_moves g ∧ mv.2 ∈ incList p n ∧
    carsGet g.cars mv.1 = some car ∧ move_car g car mv.2 = .ok g2

/-- A path in the search graph. -/
def EnumPath : Game → List (Nat × Int) → Game → Prop
  | g, [], g2 => g2 = g
  | g, mv :: rest, g2 => ∃ g1, EnumStep g mv g1 ∧ EnumPath g1 rest g2

/-- The initial state can reach a solved state in exactly `k` single-car
slide moves, each enumerated increment counting as one move. -/
def SolvableIn (g : Game) (k : Nat) : Prop :=
  ∃ mvs g2, List.length mvs = k ∧ EnumPath g mvs g2 ∧ is_solution g2

def Solvable (g : Game) : Prop :=
  ∃ k, SolvableIn g k

/-- Specification-side reading of the move enumerator: `cnt` is the number
of contiguous empty cells scanned from offset 1 past `base` in direction
`dir` (`1` or `-1`) along one line of the board, stopping at the first
occupied cell or at the board edge. -/
def contiguousEmpty (cell : Int → Nat) (base dir : Int) (cnt : Nat) : Prop :=
  (∀ j : Nat, 1 ≤ j → j ≤ cnt →
    0 ≤ base + dir * j ∧ base + dir * j < 6 ∧ cell (base + dir * j) = 0) ∧
  (0 ≤ base + dir * (cnt + 1) → base + dir * (cnt + 1) < 6 →
    cell (base + dir * (cnt + 1)) ≠ 0)

/-- The game built from the single car string "XH23", a concrete fixture
(X horizontal at row 2, columns 3 and 4). -/
def gameXH23 : Game :=
  { board := [0, 0, 0, 0, 0, 0,
              0, 0, 0, 0, 0, 0,
              0, 0, 0, 1, 1, 0,
              0, 0, 0, 0, 0, 0,
              0, 0, 0, 0, 0, 0,
              0, 0, 0, 0, 0, 0]
    cars := [(1, { name := 1, orientation := .H, start := (2, 3) })] }

/-- Parse every car string of a configuration (the parses `Game.__init__`
performs along its loop, collected up front). -/
def parseAll : List String → Option (List Car)
  | [] => some []
  | s :: rest =>
    match parseCarStr s, parseAll rest with
    | some c, some cs => some (c :: cs)
    | _, _ => none

/-- The game built from `["XH23", "AH00", "AH40"]`, a configuration in which
two car strings carry the same identity A: construction succeeds, the map
entry for A is overwritten by the second placement, and the board keeps the
marks of both placements. -/
def gameDupA : Game :=
  { board := [2, 2, 0, 0, 0, 0,
              0, 0, 0, 0, 0, 0,
              0, 0, 0, 1, 1, 0,
              0, 0, 0, 0, 0, 0,
              2, 2, 0, 0, 0, 0,
              0, 0, 0, 0, 0, 0]
    cars := [(1, { name := 1, orientation := .H, start := (2, 3) }),
             (2, { name := 2, orientation := .H, start := (4, 0) })] }

/-- The game built from `["XH20", "AV14"]`: X at row 2 columns 0-1, the
vertical car A at rows 1-2 of column 4, one cell in X's way.  Solvable in
one move (`A+2` or `A-1`). -/
def gameXA : Game :=
  { board := [0, 0, 0, 0, 0, 0,
              0, 0, 0, 0, 2, 0,
              1, 1, 0, 0, 2, 0,
              0, 0, 0, 0, 0, 0,
              0, 0, 0, 0, 0, 0,
              0, 0, 0, 0, 0, 0]
    cars := [(1, { name := 1, orientation := .H, start := (2, 0) }),
             (2, { name := 2, orientation := .V, start := (1, 4) })] }

/-- The invariant carried by every BFS queue entry: the snapshot state is
consistent, replaying the recorded move strings from the initial state
reproduces it exactly, and it is reachable by an enumerated path of the
same length. -/
def QInv (g0 : Game) (e : QEntry) : Prop :=
  Consistent (Game.mk e.key e.cars) ∧
  move_sequence g0 e.moves = .ok (Game.mk e.key e.cars) ∧
  ∃ mvs, mvs.length = e.moves.length ∧ EnumPath g0 mvs (Game.mk e.key e.cars)

/-- The invariant carried by every A* heap entry: the BFS entry invariant
together with the bookkeeping of the two priority fields (`cost` is the
number of recorded moves and `fsc` is `cost` plus the heuristic of the
snapshot state). -/
def AInv (g0 : Game) (e : AEntry) : Prop :=
  Consistent (Game.mk e.key e.cars) ∧
  move_sequence g0 e.moves = .ok (Game.mk e.key e.cars) ∧
  (∃ mvs, mvs.length = e.moves.length ∧ EnumPath g0 mvs (Game.mk e.key e.cars)) ∧
  e.cost = e.moves.length ∧
  e.fsc = e.cost + heuristic (Game.mk e.key e.cars)

/-- The state in which `bfs` leaves `gameXA`: A slid down two cells
(`"A+2"`), clearing X's row. -/
def gameXAdone : Game :=
  { board := [0, 0, 0, 0, 0, 0,
              0, 0, 0, 0, 0, 0,
              1, 1, 0, 0, 0, 0,
              0, 0, 0, 0, 2, 0,
              0, 0, 0, 0, 2, 0,
              0, 0, 0, 0, 0, 0]
    cars := [(1, { name := 1, orientation := .H, start := (2, 0) }),
             (2, { name := 2, orientation := .V, start := (3, 4) })] }

/-- `d` is the least number of enumerated moves reaching a state whose board
is `b` from `g0`. -/
def DistB (g0 : Game) (b : Board) (d : Nat) : Prop :=
  (∃ s mvs, mvs.length = d ∧ EnumPath g0 mvs s ∧ s.board = b) ∧
  (∀ j s mvs, mvs.length = j → EnumPath g0 mvs s → s.board = b → d ≤ j)

/-- Base-17 encoding of a board, used to bound the visited list. -/
def encB (b : Board) : Nat :=
  b.foldr (fun d acc => d + 17 * acc) 0

/-- The full loop invariant of `bfs`: every queue entry satisfies the entry
invariant; queue entries are sorted by recorded length with spread at most
one; visited boards are non-solutions, reachable, and closed (every
successor of a consistent state over a visited board is visited or queued at
depth at most one past the board's distance); every reachable state is
covered by the visited set or by a queue entry continuing to its board;
visited is duplicate-free and holds valid 6 x 6 boards. -/
def BfsInv (g0 : Game) (visited : List Board) (queue : List QEntry) : Prop :=
  (∀ e ∈ queue, QInv g0 e) ∧
  List.Pairwise (fun a b => a.moves.length ≤ b.moves.length) queue ∧
  (∀ e ∈ queue, ∀ e2 ∈ queue, e.moves.length ≤ e2.moves.length + 1) ∧
  (∀ b ∈ visited, ∀ s, Consistent s → s.board = b → ¬ is_solution s) ∧
  (∀ b ∈ visited, ∃ s mvs, EnumPath g0 mvs s ∧ s.board = b) ∧
  (∀ b ∈ visited, ∀ d, DistB g0 b d →
    ∀ s, Consistent s → s.board = b → ∀ mv s1, EnumStep s mv s1 →
      s1.board ∈ visited ∨ ∃ e ∈ queue, e.key = s1.board ∧ e.moves.length ≤ d + 1) ∧
  (∀ s mvs, EnumPath g0 mvs s → s.board ∈ visited ∨
    ∃ e ∈ queue, ∃ tl s2, EnumPath (Game.mk e.key e.cars) tl s2 ∧ s2.board = s.board ∧
      e.moves.length + tl.length ≤ mvs.length) ∧
  visited.Nodup ∧
  (∀ b ∈ visited, b.length = 36 ∧ ∀ i, i < 36 → b.getD i 0 < 17)

/-- The target car is present and horizontal (true in every constructed
game and preserved by moves). -/
def XH (g : Game) : Prop :=
  ∃ xcar, carsGet g.cars 1 = some xcar ∧ xcar.orientation = .H

/-- A permanent blockade: a horizontal non-target car of the map sits in the
target car's exit row strictly beyond the target car's end.  Such a car can
never leave the window the solution test scans, so the state is unsolvable. -/
def Pers (g : Game) : Prop :=
  ∃ xcar, carsGet g.cars 1 = some xcar ∧ xcar.orientation = .H ∧
    ∃ nm car, carsGet g.cars nm = some car ∧ nm ≠ 1 ∧ car.orientation = .H ∧
      car.start.1 = xcar.endPos.1 ∧ xcar.endPos.2 < car.start.2

/-- A board key of `g_costs` is "closed" at recorded cost `c`: no state over
it is a solution, and every enumerated successor of any consistent state
over it already has a recorded cost at most `c + 1`. -/
def ClosedOK (gcosts : List (Board × Nat)) (b : Board) (c : Nat) : Prop :=
  (∀ s, Consistent s → s.board = b → ¬ is_solution s) ∧
  (∀ s, Consistent s → s.board = b → ∀ mv s1, EnumStep s mv s1 →
    ∃ c1, costsGet gcosts s1.board = some c1 ∧ c1 ≤ c + 1)

/-- The A* loop invariant, with the closure clause weakened at one
exceptional board (the board of the entry being expanded). -/
def AStarLocal (g0 : Game) (bexc : Board) (gcosts : List (Board × Nat))
    (heap : List AEntry) : Prop :=
  (∀ x ∈ heap, AInv g0 x) ∧
  List.Pairwise (fun a b => a.fsc ≤ b.fsc) heap ∧
  (∀ x ∈ heap, ∃ cx, costsGet gcosts x.key = some cx ∧ cx ≤ x.cost) ∧
  costsGet gcosts g0.board = some 0 ∧
  (∀ b c, costsGet gcosts b = some c → b ≠ bexc →
    (∃ x ∈ heap, x.key = b ∧ x.cost = c) ∨ ClosedOK gcosts b c)

/-- The full A* loop invariant. -/
def AStarInv (g0 : Game) (gcosts : List (Board × Nat)) (heap : List AEntry) : Prop :=
  (∀ x ∈ heap, AInv g0 x) ∧
  List.Pairwise (fun a b => a.fsc ≤ b.fsc) heap ∧
  (∀ x ∈ heap, ∃ cx, costsGet gcosts x.key = some cx ∧ cx ≤ x.cost) ∧
  costsGet gcosts g0.board = some 0 ∧
  (∀ b c, costsGet gcosts b = some c →
    (∃ x ∈ heap, x.key = b ∧ x.cost = c) ∨ ClosedOK gcosts b c)

/-- The state in which `a_star` leaves `gameXA`: A slid down three cells
(`"A+3"`). -/
def gameXAdone3 : Game :=
  { board := [0, 0, 0, 0, 0, 0,
              0, 0, 0, 0, 0, 0,
              1, 1, 0, 0, 0, 0,
              0, 0, 0, 0, 0, 0,
              0, 0, 0, 0, 2, 0,
              0, 0, 0, 0, 2, 0]
    cars := [(1, { name := 1, orientation := .H, start := (2, 0) }),
             (2, { name := 2, orientation := .V, start := (4, 4) })] }

/-! ## Theorems -/

/-- C6: `_move_car` raises exactly when `_can_move_car` is false, and the
error carries the state unchanged (the checks precede every mutation). -/
theorem move_car_error_iff (g : Game) (car : Car) (inc : Int) :
    ((∃ e, move_car g car inc = .error e) ↔ ¬ can_move_car g car inc) ∧
    (∀ msg g1, move_car g car inc = .error (msg, g1) → g1 = g) := by
  unfold move_car can_move_car
  by_cases h1 : (car.move_by inc).in_board
  · by_cases h2 : ∀ p ∈ (car.move_by inc).cells,
        getCell g.board p = 0 ∨ getCell g.board p = (car.move_by inc).name
    · rw [if_neg (not_not.mpr h1), if_pos h2]
      refine ⟨⟨fun ⟨e, he⟩ => absurd he (by simp), fun hcon => absurd ⟨h1, h2⟩ hcon⟩, ?_⟩
      intro msg g1 heq
      exact absurd heq (by simp)
    · rw [if_neg (not_not.mpr h1), if_neg h2]
      refine ⟨⟨fun _ hcon => h2 hcon.2, fun _ => ⟨_, rfl⟩⟩, ?_⟩
      intro msg g1 heq
      injection heq with h
      exact (congrArg Prod.snd h).symm
  · rw [if_pos h1]
    refine ⟨⟨fun _ hcon => h1 hcon.1, fun _ => ⟨_, rfl⟩⟩, ?_⟩
    intro msg g1 heq
    injection heq with h
    exact (congrArg Prod.snd h).symm

/-- Witness for C6 at a concrete input: moving X right by 2 from "XH23"
leaves the board, so `_can_move_car` is false and `_move_car` raises. -/
theorem move_car_error_iff_witness :
    ¬ can_move_car gameXH23 { name := 1, orientation := .H, start := (2, 3) } 2 ∧
      ∃ e, move_car gameXH23 { name := 1, orientation := .H, start := (2, 3) } 2 = .error e :=
  ⟨by decide,
   (move_car_error_iff gameXH23 { name := 1, orientation := .H, start := (2, 3) } 2).1.mpr
     (by decide)⟩

/-- C3, counterexample: replaying the sequence consisting of "Z+1" on the
valid state built from "XH23" does not succeed: "Z" is not a `CarName`
member, so the parse raises the "Invalid move" `ValueError` instead of
silently skipping the move. -/
theorem move_sequence_Z_raises :
    gameFromStrings ["XH23"] = .ok gameXH23 ∧ Consistent gameXH23 ∧
      move_sequence gameXH23 ["Z+1"] = .error ("Invalid move", gameXH23) :=
  ⟨rfl, by decide, rfl⟩

/-- C3, amended: a move whose first character is a valid `CarName` that is
absent from the state's car map is silently skipped: no error, and the board
and car map are left unchanged. -/
theorem move_sequence_skips_absent_car (g : Game) (m : String) (nm : Nat) (inc : Int)
    (rest : List String) (hp : parseMove m = some (nm, inc))
    (habs : carsGet g.cars nm = none) :
    move_sequence g (m :: rest) = move_sequence g rest ∧
      move_sequence g [m] = .ok g := by
  constructor
  · show (match parseMove m with
      | none => Except.error ("Invalid move", g)
      | some (nm, inc) =>
        match carsGet g.cars nm with
        | none => move_sequence g rest
        | some car =>
          match move_car g car inc with
          | .ok g1 => move_sequence g1 rest
          | .error e => Except.error e) = move_sequence g rest
    rw [hp]
    simp only [habs]
  · show (match parseMove m with
      | none => Except.error ("Invalid move", g)
      | some (nm, inc) =>
        match carsGet g.cars nm with
        | none => move_sequence g ([] : List String)
        | some car =>
          match move_car g car inc with
          | .ok g1 => move_sequence g1 ([] : List String)
          | .error e => Except.error e) = .ok g
    rw [hp]
    simp only [habs]
    rfl

/-- Witness for C3 (amended) at a concrete input: "R+1" names the valid car
R absent from the "XH23" game, so it is skipped. -/
theorem move_sequence_skips_absent_car_witness :
    move_sequence gameXH23 ["R+1", "X+1"] = move_sequence gameXH23 ["X+1"] ∧
      move_sequence gameXH23 ["R+1"] = .ok gameXH23 :=
  move_sequence_skips_absent_car gameXH23 "R+1" 16 1 ["X+1"] (by decide) (by decide)

/-- C9: solving the same initial configuration twice with the same algorithm
yields identical results (move sequence, node count and final state): the
whole engine is a pure function of the constructed state. -/
theorem solve_rerun_deterministic (l : List String) (alg : String) (fuel : Nat)
    (g1 g2 : Game) (h1 : gameFromStrings l = .ok g1) (h2 : gameFromStrings l = .ok g2) :
    solve fuel g1 alg = solve fuel g2 alg := by
  rw [h1] at h2
  injection h2 with h
  rw [h]

/-- Witness for C9 at a concrete input. -/
theorem solve_rerun_deterministic_witness :
    solve 5 gameXH23 "bfs" = solve 5 gameXH23 "bfs" :=
  solve_rerun_deterministic ["XH23"] "bfs" 5 gameXH23 gameXH23 rfl rfl

/-! ### Characterization of `_count_zeros` and the move enumerator (C7) -/

theorem takeWhile_boundary (p : Nat → Bool) (l : List Nat)
    (h : (l.takeWhile p).length < l.length) :
    p (l.getD (l.takeWhile p).length 0) = false := by
  induction l with
  | nil => simp at h
  | cons a t ih =>
    by_cases hpa : p a = true
    · rw [List.takeWhile_cons_of_pos hpa] at h ⊢
      simp only [List.length_cons, List.getD_cons_succ]
      exact ih (by simpa using h)
    · have hpa' : p a = false := by simpa using hpa
      rw [List.takeWhile_cons_of_neg (by simp [hpa'])] at h ⊢
      simpa using hpa'

theorem takeWhile_getD_sat (p : Nat → Bool) (l : List Nat) (j : Nat)
    (hj : j < (l.takeWhile p).length) :
    p (l.getD j 0) = true := by
  induction l generalizing j with
  | nil => simp at hj
  | cons a t ih =>
    by_cases hpa : p a = true
    · rw [List.takeWhile_cons_of_pos hpa] at hj
      match j with
      | 0 => simpa using hpa
      | j + 1 =>
        simp only [List.getD_cons_succ]
        exact ih j (by simpa using hj)
    · rw [List.takeWhile_cons_of_neg (by simpa using hpa)] at hj
      simp at hj

theorem getD_drop (t : List Nat) (pos j : Nat) :
    (t.drop pos).getD j 0 = t.getD (pos + j) 0 := by
  rw [List.getD_eq_getElem?_getD, List.getD_eq_getElem?_getD, List.getElem?_drop]

theorem count_zeros_le (t : List Nat) (pos : Nat) :
    count_zeros t pos ≤ t.length - pos := by
  unfold count_zeros
  have h := (List.takeWhile_prefix (l := t.drop pos) (fun v => v == 0)).length_le
  simpa using h

theorem count_zeros_zero (t : List Nat) (pos j : Nat) (hj : j < count_zeros t pos) :
    pos + j < t.length ∧ t.getD (pos + j) 0 = 0 := by
  have hle := count_zeros_le t pos
  have hlen : pos + j < t.length := by omega
  refine ⟨hlen, ?_⟩
  have h2 := takeWhile_getD_sat (fun v => v == 0) (t.drop pos) j hj
  rw [getD_drop] at h2
  simpa using h2

theorem count_zeros_stop (t : List Nat) (pos : Nat)
    (h : pos + count_zeros t pos < t.length) :
    t.getD (pos + count_zeros t pos) 0 ≠ 0 := by
  have hlt : ((t.drop pos).takeWhile (fun v => v == 0)).length < (t.drop pos).length := by
    have he : count_zeros t pos = ((t.drop pos).takeWhile (fun v => v == 0)).length := rfl
    simp only [List.length_drop]
    omega
  have hb := takeWhile_boundary (fun v => v == 0) (t.drop pos) hlt
  rw [show ((t.drop pos).takeWhile (fun v => v == 0)).length = count_zeros t pos from rfl,
    getD_drop] at hb
  intro hz
  rw [hz] at hb
  simp at hb

theorem boardRow_length (b : Board) (hlen : b.length = 36) (r : Nat) (hr : r < 6) :
    (boardRow b r).length = 6 := by
  unfold boardRow boardSize
  simp [hlen]
  omega

theorem boardRow_getD (b : Board) (hlen : b.length = 36) (r : Nat) (hr : r < 6)
    (j : Nat) (hj : j < 6) : (boardRow b r).getD j 0 = b.getD (r * 6 + j) 0 := by
  have h6 : (boardRow b r).length = 6 := boardRow_length b hlen r hr
  rw [List.getD_eq_getElem _ _ (by omega), List.getD_eq_getElem _ _ (by rw [hlen]; omega)]
  unfold boardRow boardSize
  rw [List.getElem_take, List.getElem_drop]

theorem boardCol_length (b : Board) (c : Nat) : (boardCol b c).length = 6 := by
  unfold boardCol boardSize
  simp

theorem boardCol_getD (b : Board) (c j : Nat) (hj : j < 6) :
    (boardCol b c).getD j 0 = b.getD (j * 6 + c) 0 := by
  rw [List.getD_eq_getElem _ _ (by rw [boardCol_length]; omega)]
  unfold boardCol boardSize
  simp [hj]

theorem getD_reverse (l : List Nat) (i : Nat) (hi : i < l.length) :
    l.reverse.getD i 0 = l.getD (l.length - 1 - i) 0 := by
  rw [List.getD_eq_getElem _ _ (by simpa using hi), List.getD_eq_getElem _ _ (by omega)]
  rw [List.getElem_reverse]

theorem count_zeros_fwd_spec (l : List Nat) (hl : l.length = 6) (e : Nat) :
    (∀ j, 1 ≤ j → j ≤ count_zeros l (e + 1) → e + j < 6 ∧ l.getD (e + j) 0 = 0) ∧
    (e + count_zeros l (e + 1) + 1 < 6 →
      l.getD (e + count_zeros l (e + 1) + 1) 0 ≠ 0) := by
  constructor
  · intro j h1 h2
    have hz := count_zeros_zero l (e + 1) (j - 1) (by omega)
    rw [hl] at hz
    rw [show e + 1 + (j - 1) = e + j from by omega] at hz
    exact ⟨hz.1, hz.2⟩
  · intro hb
    have := count_zeros_stop l (e + 1) (by rw [hl]; omega)
    rw [show e + 1 + count_zeros l (e + 1) = e + count_zeros l (e + 1) + 1 from by omega] at this
    exact this

theorem count_zeros_bwd_spec (l : List Nat) (hl : l.length = 6) (s : Nat) (hs : s ≤ 6) :
    (∀ j, 1 ≤ j → j ≤ count_zeros l.reverse (6 - s) → j ≤ s ∧ l.getD (s - j) 0 = 0) ∧
    (count_zeros l.reverse (6 - s) + 1 ≤ s →
      l.getD (s - (count_zeros l.reverse (6 - s) + 1)) 0 ≠ 0) := by
  have hrl : l.reverse.length = 6 := by simpa using hl
  constructor
  · intro j h1 h2
    have hz := count_zeros_zero l.reverse (6 - s) (j - 1) (by omega)
    rw [hrl] at hz
    have hjs : j ≤ s := by omega
    refine ⟨hjs, ?_⟩
    have h3 := hz.2
    rw [getD_reverse l _ (by omega)] at h3
    rw [show l.length - 1 - (6 - s + (j - 1)) = s - j from by rw [hl]; omega] at h3
    exact h3
  · intro hb
    have h4 := count_zeros_stop l.reverse (6 - s) (by rw [hrl]; omega)
    rw [getD_reverse l _ (by omega)] at h4
    rw [show l.length - 1 - (6 - s + count_zeros l.reverse (6 - s))
        = s - (count_zeros l.reverse (6 - s) + 1) from by rw [hl]; omega] at h4
    exact h4

theorem car_size_pos (c : Car) : 1 ≤ c.size ∧ c.size ≤ 3 := by
  unfold Car.size
  split <;> omega

theorem contiguous_fwd_of_line (cell : Int → Nat) (line : List Nat) (hl : line.length = 6)
    (hline : ∀ kn : Nat, kn < 6 → line.getD kn 0 = cell (kn : Int))
    (base : Int) (e : Nat) (he : base = (e : Int)) :
    contiguousEmpty cell base 1 (count_zeros line (e + 1)) := by
  obtain ⟨hfwd, hstop⟩ := count_zeros_fwd_spec line hl e
  constructor
  · intro j h1 h2
    obtain ⟨hj6, hz⟩ := hfwd j h1 h2
    refine ⟨by omega, by omega, ?_⟩
    rw [show base + 1 * (j : Int) = ((e + j : Nat) : Int) from by push_cast; omega,
      ← hline (e + j) hj6]
    exact hz
  · intro hge hlt
    have h6 : e + count_zeros line (e + 1) + 1 < 6 := by omega
    have hs := hstop h6
    rw [show base + 1 * ((count_zeros line (e + 1) : Int) + 1)
        = ((e + count_zeros line (e + 1) + 1 : Nat) : Int) from by push_cast; omega,
      ← hline _ h6]
    exact hs

theorem contiguous_bwd_of_line (cell : Int → Nat) (line : List Nat) (hl : line.length = 6)
    (hline : ∀ kn : Nat, kn < 6 → line.getD kn 0 = cell (kn : Int))
    (base : Int) (hb6 : base < 6) (s : Nat) (hs : base = (s : Int)) :
    contiguousEmpty cell base (-1) (count_zeros line.reverse (6 - s)) := by
  have hs6 : s ≤ 6 := by omega
  obtain ⟨hbwd, hstop⟩ := count_zeros_bwd_spec line hl s hs6
  constructor
  · intro j h1 h2
    obtain ⟨hjs, hz⟩ := hbwd j h1 h2
    refine ⟨by omega, by omega, ?_⟩
    rw [show base + (-1) * (j : Int) = ((s - j : Nat) : Int) from by omega,
      ← hline (s - j) (by omega)]
    exact hz
  · intro hge hlt
    have hc : count_zeros line.reverse (6 - s) + 1 ≤ s := by omega
    have hz := hstop hc
    rw [show base + (-1) * ((count_zeros line.reverse (6 - s) : Int) + 1)
        = ((s - (count_zeros line.reverse (6 - s) + 1) : Nat) : Int) from by omega,
      ← hline _ (by omega)]
    exact hz

/-- C7: for every in-board car, `_get_car_moves` returns the pair whose
first component counts the contiguous empty cells of the car's own row
(horizontal) or column (vertical) starting immediately past its end cell and
stopping at the first occupied cell or the board edge, and whose second
component likewise counts the contiguous empty cells immediately before its
start cell; and `_get_possible_moves` maps exactly the cars whose pair has a
positive component to their pair, omitting every car with pair `(0, 0)`. -/
theorem get_car_moves_spec (g : Game) (hlen : g.board.length = 36) :
    (∀ car : Car, car.in_board →
      (car.orientation = .H →
        contiguousEmpty (fun k => getCell g.board (car.start.1, k)) car.endPos.2 1
          (get_car_moves g car).1 ∧
        contiguousEmpty (fun k => getCell g.board (car.start.1, k)) car.start.2 (-1)
          (get_car_moves g car).2) ∧
      (car.orientation = .V →
        contiguousEmpty (fun k => getCell g.board (k, car.start.2)) car.endPos.1 1
          (get_car_moves g car).1 ∧
        contiguousEmpty (fun k => getCell g.board (k, car.start.2)) car.start.1 (-1)
          (get_car_moves g car).2)) ∧
    (∀ nm p n, (nm, p, n) ∈ get_possible_moves g ↔
      ∃ car, (nm, car) ∈ g.cars ∧ get_car_moves g car = (p, n) ∧ (0 < p ∨ 0 < n)) := by
  constructor
  · rintro ⟨nm, orient, st⟩ hib
    have hsz := car_size_pos ⟨nm, orient, st⟩
    obtain ⟨hs1, hs3⟩ := hsz
    have hb6 : ((boardSize : Nat) : Int) = 6 := by norm_num [boardSize]
    cases orient with
    | H =>
      refine ⟨fun _ => ?_, fun hcon => Orientation.noConfusion hcon⟩
      unfold Car.in_board at hib
      dsimp only [Car.endPos] at hib
      rw [hb6] at hib
      obtain ⟨hx0, hy0, he1, he2⟩ := hib
      have hr : st.1.toNat < 6 := by omega
      have hrow6 := boardRow_length g.board hlen st.1.toNat hr
      have hline : ∀ kn : Nat, kn < 6 →
          (boardRow g.board st.1.toNat).getD kn 0 = getCell g.board (st.1, (kn : Int)) := by
        intro kn hkn
        rw [boardRow_getD g.board hlen st.1.toNat hr kn hkn]
        unfold getCell cellIdx boardSize
        simp
      dsimp only [get_car_moves, Car.endPos]
      simp only [boardSize]
      constructor
      · have h := contiguous_fwd_of_line
          (fun k => getCell g.board (st.1, k)) (boardRow g.board st.1.toNat) hrow6 hline
          (st.2 + ((Car.size ⟨nm, .H, st⟩ : Nat) : Int) - 1)
          (st.2 + ((Car.size ⟨nm, .H, st⟩ : Nat) : Int) - 1).toNat
          (by omega)
        rw [show (st.2 + ((Car.size ⟨nm, .H, st⟩ : Nat) : Int) - 1 + 1).toNat
            = (st.2 + ((Car.size ⟨nm, .H, st⟩ : Nat) : Int) - 1).toNat + 1 from by omega]
        exact h
      · exact contiguous_bwd_of_line
          (fun k => getCell g.board (st.1, k)) (boardRow g.board st.1.toNat) hrow6 hline
          st.2 (by omega) st.2.toNat (by omega)
    | V =>
      refine ⟨fun hcon => Orientation.noConfusion hcon, fun _ => ?_⟩
      unfold Car.in_board at hib
      dsimp only [Car.endPos] at hib
      rw [hb6] at hib
      obtain ⟨hx0, hy0, he1, he2⟩ := hib
      have hc6 : st.2.toNat < 6 := by omega
      have hcol6 := boardCol_length g.board st.2.toNat
      have hline : ∀ kn : Nat, kn < 6 →
          (boardCol g.board st.2.toNat).getD kn 0 = getCell g.board ((kn : Int), st.2) := by
        intro kn hkn
        rw [boardCol_getD g.board st.2.toNat kn hkn]
        unfold getCell cellIdx boardSize
        simp
      dsimp only [get_car_moves, Car.endPos]
      simp only [boardSize]
      constructor
      · have h := contiguous_fwd_of_line
          (fun k => getCell g.board (k, st.2)) (boardCol g.board st.2.toNat) hcol6 hline
          (st.1 + ((Car.size ⟨nm, .V, st⟩ : Nat) : Int) - 1)
          (st.1 + ((Car.size ⟨nm, .V, st⟩ : Nat) : Int) - 1).toNat
          (by omega)
        rw [show (st.1 + ((Car.size ⟨nm, .V, st⟩ : Nat) : Int) - 1 + 1).toNat
            = (st.1 + ((Car.size ⟨nm, .V, st⟩ : Nat) : Int) - 1).toNat + 1 from by omega]
        exact h
      · exact contiguous_bwd_of_line
          (fun k => getCell g.board (k, st.2)) (boardCol g.board st.2.toNat) hcol6 hline
          st.1 (by omega) st.1.toNat (by omega)
  · intro nm p n
    unfold get_possible_moves
    rw [List.mem_filterMap]
    constructor
    · rintro ⟨e, hmem, he⟩
      simp only at he
      split at he
      case isTrue hc =>
        simp only [Option.some.injEq, Prod.mk.injEq] at he
        obtain ⟨h1, h2, h3⟩ := he
        refine ⟨e.2, by simpa [← h1] using hmem, by rw [← h2, ← h3], ?_⟩
        rw [← h2, ← h3]
        exact hc
      case isFalse hc =>
        exact absurd he (by simp)
    · rintro ⟨car, hmem, hpn, hpos⟩
      refine ⟨(nm, car), hmem, ?_⟩
      simp only [hpn]
      simp [hpos]
/-! ### Board update and car map lemmas -/

theorem length_setCell (b : Board) (p : Int × Int) (v : Nat) :
    (setCell b p v).length = b.length := by
  unfold setCell
  simp

theorem length_setCells (b : Board) (ps : List (Int × Int)) (v : Nat) :
    (setCells b ps v).length = b.length := by
  induction ps generalizing b with
  | nil => rfl
  | cons p ps ih =>
    show (setCells (setCell b p v) ps v).length = b.length
    rw [ih, length_setCell]

theorem getD_setCell_self (b : Board) (p : Int × Int) (v : Nat) (h : cellIdx p < b.length) :
    (setCell b p v).getD (cellIdx p) 0 = v := by
  unfold setCell
  rw [List.getD_eq_getElem _ _ (by simpa using h)]
  simp [List.getElem_set]

theorem getD_setCell_other (b : Board) (p : Int × Int) (v : Nat) (i : Nat) (h : i ≠ cellIdx p) :
    (setCell b p v).getD i 0 = b.getD i 0 := by
  unfold setCell
  simp [List.getD_eq_getElem?_getD, List.getElem?_set_ne (Ne.symm h)]

theorem getD_setCells_not_mem (b : Board) (ps : List (Int × Int)) (v : Nat) (i : Nat)
    (h : i ∉ ps.map cellIdx) :
    (setCells b ps v).getD i 0 = b.getD i 0 := by
  induction ps generalizing b with
  | nil => rfl
  | cons p ps ih =>
    simp only [List.map_cons, List.mem_cons] at h
    push_neg at h
    show (setCells (setCell b p v) ps v).getD i 0 = b.getD i 0
    rw [ih _ h.2, getD_setCell_other b p v i h.1]

theorem getD_setCells_mem (b : Board) (ps : List (Int × Int)) (v : Nat) (i : Nat)
    (hmem : i ∈ ps.map cellIdx) (hlt : i < b.length) :
    (setCells b ps v).getD i 0 = v := by
  induction ps generalizing b with
  | nil => simp at hmem
  | cons p ps ih =>
    show (setCells (setCell b p v) ps v).getD i 0 = v
    by_cases h2 : i ∈ ps.map cellIdx
    · exact ih (setCell b p v) h2 (by rw [length_setCell]; exact hlt)
    · simp only [List.map_cons, List.mem_cons] at hmem
      rcases hmem with h1 | h1
      · rw [getD_setCells_not_mem _ _ _ _ h2, h1, getD_setCell_self b p v (h1 ▸ hlt)]
      · exact absurd h1 h2

theorem boardSize_int : ((boardSize : Nat) : Int) = 6 := by
  norm_num [boardSize]

theorem inBoardPos_cellIdx_lt (p : Int × Int) (h : inBoardPos p) : cellIdx p < 36 := by
  unfold inBoardPos at h
  rw [boardSize_int] at h
  unfold cellIdx boardSize
  omega

theorem posOfIdx_cellIdx (p : Int × Int) (h : inBoardPos p) : posOfIdx (cellIdx p) = p := by
  unfold inBoardPos at h
  rw [boardSize_int] at h
  unfold posOfIdx cellIdx boardSize
  rw [Prod.ext_iff]
  constructor
  · show ((((p.1.toNat * 6 + p.2.toNat) / 6 : Nat) : Int)) = p.1
    omega
  · show ((((p.1.toNat * 6 + p.2.toNat) % 6 : Nat) : Int)) = p.2
    omega

theorem cellIdx_inj (p q : Int × Int) (hp : inBoardPos p) (hq : inBoardPos q)
    (h : cellIdx p = cellIdx q) : p = q := by
  rw [← posOfIdx_cellIdx p hp, ← posOfIdx_cellIdx q hq, h]

theorem cells_in_board (c : Car) (h : c.in_board) : ∀ p ∈ c.cells, inBoardPos p := by
  obtain ⟨hsz1, hsz3⟩ := car_size_pos c
  obtain ⟨nm, orient, st⟩ := c
  intro p hp
  unfold Car.in_board at h
  rw [boardSize_int] at h
  obtain ⟨h1, h2, h3, h4⟩ := h
  unfold inBoardPos
  rw [boardSize_int]
  cases orient with
  | H =>
    unfold Car.cells at hp
    obtain ⟨i, hi, hpe⟩ := List.mem_map.mp hp
    rw [List.mem_range] at hi
    subst hpe
    dsimp only [Car.endPos] at h1 h2 h3 h4 ⊢
    refine ⟨?_, ?_, ?_, ?_⟩ <;> omega
  | V =>
    unfold Car.cells at hp
    obtain ⟨i, hi, hpe⟩ := List.mem_map.mp hp
    rw [List.mem_range] at hi
    subst hpe
    dsimp only [Car.endPos] at h1 h2 h3 h4 ⊢
    refine ⟨?_, ?_, ?_, ?_⟩ <;> omega

theorem board_ext (b1 b2 : Board) (hl : b1.length = b2.length)
    (h : ∀ i, i < b1.length → b1.getD i 0 = b2.getD i 0) : b1 = b2 := by
  apply List.ext_getElem hl
  intro i h1 h2
  have hh := h i h1
  rwa [List.getD_eq_getElem _ _ h1, List.getD_eq_getElem _ _ h2] at hh

theorem carsGet_carsSet_self (m : CarsMap) (k : Nat) (c : Car) :
    carsGet (carsSet m k c) k = some c := by
  induction m with
  | nil => simp [carsSet, carsGet, List.find?]
  | cons e rest ih =>
    by_cases h : e.1 = k
    · simp [carsSet, h, carsGet, List.find?]
    · unfold carsSet
      rw [if_neg h]
      unfold carsGet
      rw [List.find?_cons_of_neg _ (by simpa using h)]
      exact ih

theorem carsGet_carsSet_other (m : CarsMap) (k k' : Nat) (c : Car) (h : k' ≠ k) :
    carsGet (carsSet m k c) k' = carsGet m k' := by
  have hkk : (k == k') = false := by simpa using Ne.symm h
  induction m with
  | nil => simp [carsSet, carsGet, List.find?, hkk]
  | cons e rest ih =>
    by_cases he : e.1 = k
    · unfold carsSet
      rw [if_pos he]
      unfold carsGet
      rw [List.find?_cons_of_neg _ (by simpa using Ne.symm h),
        List.find?_cons_of_neg _ (by simp [he]; exact Ne.symm h)]
    · unfold carsSet
      rw [if_neg he]
      by_cases he2 : e.1 = k'
      · unfold carsGet
        rw [List.find?_cons_of_pos _ (by simpa using he2),
          List.find?_cons_of_pos _ (by simpa using he2)]
      · unfold carsGet
        rw [List.find?_cons_of_neg _ (by simpa using he2),
          List.find?_cons_of_neg _ (by simpa using he2)]
        exact ih

theorem carsSet_carsSet (m : CarsMap) (k : Nat) (a b : Car) :
    carsSet (carsSet m k a) k b = carsSet m k b := by
  induction m with
  | nil => simp [carsSet]
  | cons e rest ih =>
    by_cases h : e.1 = k
    · simp [carsSet, h]
    · simp only [carsSet, if_neg h]
      rw [ih]

theorem carsSet_eq_self (m : CarsMap) (k : Nat) (c : Car) (h : carsGet m k = some c) :
    carsSet m k c = m := by
  induction m with
  | nil => simp [carsGet, List.find?] at h
  | cons e rest ih =>
    by_cases he : e.1 = k
    · unfold carsGet at h
      rw [List.find?_cons_of_pos _ (by simpa using he)] at h
      simp only [Option.map_some', Option.some.injEq] at h
      unfold carsSet
      rw [if_pos he]
      rw [show ((k, c) : Nat × Car) = e from by rw [Prod.ext_iff]; exact ⟨he.symm, h.symm⟩]
    · unfold carsGet at h
      rw [List.find?_cons_of_neg _ (by simpa using he)] at h
      unfold carsSet
      rw [if_neg he, ih h]

theorem carsGet_mem (m : CarsMap) (k : Nat) (c : Car) (h : carsGet m k = some c) :
    (k, c) ∈ m := by
  induction m with
  | nil => simp [carsGet, List.find?] at h
  | cons e rest ih =>
    by_cases he : e.1 = k
    · unfold carsGet at h
      rw [List.find?_cons_of_pos _ (by simpa using he)] at h
      simp only [Option.map_some', Option.some.injEq] at h
      exact List.mem_cons.mpr (Or.inl (by rw [Prod.ext_iff]; exact ⟨he.symm, h.symm⟩))
  -- orientation of h handled below
    · unfold carsGet at h
      rw [List.find?_cons_of_neg _ (by simpa using he)] at h
      exact List.mem_cons_of_mem _ (ih h)

theorem entry_unique (m : CarsMap) (hnd : (m.map Prod.fst).Nodup) (k : Nat) (a b : Car)
    (ha : (k, a) ∈ m) (hb : (k, b) ∈ m) : a = b := by
  induction m with
  | nil => simp at ha
  | cons e rest ih =>
    simp only [List.map_cons, List.nodup_cons] at hnd
    rcases List.mem_cons.mp ha with ha1 | ha1 <;> rcases List.mem_cons.mp hb with hb1 | hb1
    · rw [← ha1] at hb1
      exact (Prod.ext_iff.mp hb1.symm).2
    · exfalso
      apply hnd.1
      rw [show e.1 = k from (Prod.ext_iff.mp ha1.symm).1]
      exact List.mem_map.mpr ⟨(k, b), hb1, rfl⟩
    · exfalso
      apply hnd.1
      rw [show e.1 = k from (Prod.ext_iff.mp hb1.symm).1]
      exact List.mem_map.mpr ⟨(k, a), ha1, rfl⟩
    · exact ih hnd.2 ha1 hb1

theorem move_by_name (c : Car) (inc : Int) : (c.move_by inc).name = c.name := by
  obtain ⟨nm, orient, st⟩ := c
  cases orient <;> rfl

theorem move_by_orient (c : Car) (inc : Int) : (c.move_by inc).orientation = c.orientation := by
  obtain ⟨nm, orient, st⟩ := c
  cases orient <;> rfl

theorem move_by_size (c : Car) (inc : Int) : (c.move_by inc).size = c.size := by
  unfold Car.size
  rw [move_by_name]

theorem move_by_cancel (c : Car) (inc : Int) : (c.move_by inc).move_by (-inc) = c := by
  obtain ⟨nm, orient, st⟩ := c
  cases orient <;> simp [Car.move_by]

theorem move_car_ok_of_can (g : Game) (car : Car) (inc : Int)
    (h : can_move_car g car inc) :
    move_car g car inc =
      .ok { board := setCells (setCells g.board car.cells 0) (car.move_by inc).cells
              (car.move_by inc).name
            cars := carsSet g.cars (car.move_by inc).name (car.move_by inc) } := by
  unfold move_car
  rw [if_neg (not_not.mpr h.1), if_pos h.2]

/-- C5: in a consistent state, applying a legal increment with `_move_car`
and then applying the negated increment to the moved car restores exactly
the prior state: the final board and car map equal the original ones. -/
theorem move_car_roundtrip (g : Game) (car : Car) (inc : Int)
    (hc : Consistent g) (hmem : carsGet g.cars car.name = some car)
    (hlegal : can_move_car g car inc) :
    ∃ g1, move_car g car inc = .ok g1 ∧
      move_car g1 (car.move_by inc) (-inc) = .ok g := by
  obtain ⟨hlen, hcars, hcover, hnd⟩ := hc
  have hentry := carsGet_mem _ _ _ hmem
  obtain ⟨hname, hk1, hk16, hib, hmarks⟩ := hcars _ hentry
  obtain ⟨hcib, hcc⟩ := hlegal
  have h1 := move_car_ok_of_can g car inc ⟨hcib, hcc⟩
  refine ⟨_, h1, ?_⟩
  have hAin : ∀ p ∈ car.cells, inBoardPos p := cells_in_board car hib
  have hCin : ∀ p ∈ (car.move_by inc).cells, inBoardPos p :=
    cells_in_board (car.move_by inc) hcib
  have hCnotA : ∀ p ∈ (car.move_by inc).cells, p ∉ car.cells → getCell g.board p = 0 := by
    intro p hpC hpA
    rcases hcc p hpC with hz | hv
    · exact hz
    · exfalso
      have hnz : g.board.getD (cellIdx p) 0 ≠ 0 := by
        rw [show g.board.getD (cellIdx p) 0 = getCell g.board p from rfl, hv, move_by_name]
        omega
      obtain ⟨e, hemem, hekey, hecell⟩ :=
        hcover (cellIdx p) (inBoardPos_cellIdx_lt p (hCin p hpC)) hnz
      have hkcar : e.1 = car.name := by
        rw [hekey, show g.board.getD (cellIdx p) 0 = getCell g.board p from rfl, hv,
          move_by_name]
      have hecar : e.2 = car := by
        apply entry_unique g.cars hnd car.name e.2 car ?_ hentry
        rw [← hkcar]
        simpa using hemem
      apply hpA
      have hpc : posOfIdx (cellIdx p) ∈ e.2.cells := hecell
      rwa [posOfIdx_cellIdx p (hCin p hpC), hecar] at hpc
  have hcancel : (car.move_by inc).move_by (-inc) = car := move_by_cancel car inc
  have hleg2 : can_move_car
      { board := setCells (setCells g.board car.cells 0) (car.move_by inc).cells
          (car.move_by inc).name
        cars := carsSet g.cars (car.move_by inc).name (car.move_by inc) }
      (car.move_by inc) (-inc) := by
    unfold can_move_car
    rw [hcancel]
    refine ⟨hib, ?_⟩
    intro p hpA
    by_cases hmemC : cellIdx p ∈ (car.move_by inc).cells.map cellIdx
    · right
      show (setCells (setCells g.board car.cells 0) (car.move_by inc).cells
        (car.move_by inc).name).getD (cellIdx p) 0 = car.name
      rw [getD_setCells_mem _ _ _ _ hmemC
        (by rw [length_setCells, hlen]; exact inBoardPos_cellIdx_lt p (hAin p hpA)),
        move_by_name]
    · left
      show (setCells (setCells g.board car.cells 0) (car.move_by inc).cells
        (car.move_by inc).name).getD (cellIdx p) 0 = 0
      rw [getD_setCells_not_mem _ _ _ _ hmemC,
        getD_setCells_mem _ _ _ _ (List.mem_map.mpr ⟨p, hpA, rfl⟩)
          (by rw [hlen]; exact inBoardPos_cellIdx_lt p (hAin p hpA))]
  have h2 := move_car_ok_of_can _ (car.move_by inc) (-inc) hleg2
  rw [h2]
  refine congrArg Except.ok ?_
  rw [show g = ({ board := g.board, cars := g.cars } : Game) from rfl]
  rw [hcancel]
  dsimp only
  congr 1
  · apply board_ext
    · rw [length_setCells, length_setCells, length_setCells, length_setCells]
    · intro i hi36
      rw [length_setCells, length_setCells, length_setCells, length_setCells, hlen] at hi36
      by_cases hA : i ∈ car.cells.map cellIdx
      · rw [getD_setCells_mem _ _ _ _ hA
          (by rw [length_setCells, length_setCells, length_setCells, hlen]; exact hi36)]
        obtain ⟨p, hpA, hpi⟩ := List.mem_map.mp hA
        subst hpi
        exact (hmarks p hpA).symm
      · rw [getD_setCells_not_mem _ _ _ _ hA]
        by_cases hC : i ∈ (car.move_by inc).cells.map cellIdx
        · rw [getD_setCells_mem _ _ _ _ hC
            (by rw [length_setCells, length_setCells, hlen]; exact hi36)]
          obtain ⟨q, hqC, hqi⟩ := List.mem_map.mp hC
          subst hqi
          have hqA : q ∉ car.cells := by
            intro hq
            exact hA (List.mem_map.mpr ⟨q, hq, rfl⟩)
          exact (hCnotA q hqC hqA).symm
        · rw [getD_setCells_not_mem _ _ _ _ hC, getD_setCells_not_mem _ _ _ _ hC,
            getD_setCells_not_mem _ _ _ _ hA]
  · rw [move_by_name, carsSet_carsSet, carsSet_eq_self g.cars car.name car hmem]

/-- Witness for C5 at a concrete input: moving X of the "XH23" game right by
1 and then left by 1 restores the state. -/
theorem move_car_roundtrip_witness :
    ∃ g1, move_car gameXH23 { name := 1, orientation := .H, start := (2, 3) } 1 = .ok g1 ∧
      move_car g1 ({ name := 1, orientation := .H, start := (2, 3) : Car }.move_by 1) (-1)
        = .ok gameXH23 :=
  move_car_roundtrip gameXH23 { name := 1, orientation := .H, start := (2, 3) } 1
    (by decide) (by decide) (by decide)

/-- Witness for C7 at a concrete input: the scan past the end of the X car
of the "XH23" game. -/
theorem get_car_moves_spec_witness :
    contiguousEmpty (fun k => getCell gameXH23.board ((2 : Int), k))
      (Car.endPos { name := 1, orientation := .H, start := (2, 3) }).2 1
      (get_car_moves gameXH23 { name := 1, orientation := .H, start := (2, 3) }).1 :=
  (((get_car_moves_spec gameXH23 rfl).1 { name := 1, orientation := .H, start := (2, 3) }
    (by decide)).1 rfl).1

/-! ### Construction characterization (C4) -/

theorem carNameOfChar_range (ch : Char) (n : Nat) (h : carNameOfChar ch = some n) :
    1 ≤ n ∧ n ≤ 16 := by
  unfold carNameOfChar at h
  by_cases h0 : ch = 'X'
  · rw [if_pos h0] at h
    injection h with h
    omega
  · rw [if_neg h0] at h
    by_cases h1 : ch = 'A'
    · rw [if_pos h1] at h
      injection h with h
      omega
    · rw [if_neg h1] at h
      by_cases h2 : ch = 'B'
      · rw [if_pos h2] at h
        injection h with h
        omega
      · rw [if_neg h2] at h
        by_cases h3 : ch = 'C'
        · rw [if_pos h3] at h
          injection h with h
          omega
        · rw [if_neg h3] at h
          by_cases h4 : ch = 'D'
          · rw [if_pos h4] at h
            injection h with h
            omega
          · rw [if_neg h4] at h
            by_cases h5 : ch = 'E'
            · rw [if_pos h5] at h
              injection h with h
              omega
            · rw [if_neg h5] at h
              by_cases h6 : ch = 'F'
              · rw [if_pos h6] at h
                injection h with h
                omega
              · rw [if_neg h6] at h
                by_cases h7 : ch = 'G'
                · rw [if_pos h7] at h
                  injection h with h
                  omega
                · rw [if_neg h7] at h
                  by_cases h8 : ch = 'H'
                  · rw [if_pos h8] at h
                    injection h with h
                    omega
                  · rw [if_neg h8] at h
                    by_cases h9 : ch = 'I'
                    · rw [if_pos h9] at h
                      injection h with h
                      omega
                    · rw [if_neg h9] at h
                      by_cases h10 : ch = 'J'
                      · rw [if_pos h10] at h
                        injection h with h
                        omega
                      · rw [if_neg h10] at h
                        by_cases h11 : ch = 'K'
                        · rw [if_pos h11] at h
                          injection h with h
                          omega
                        · rw [if_neg h11] at h
                          by_cases h12 : ch = 'O'
                          · rw [if_pos h12] at h
                            injection h with h
                            omega
                          · rw [if_neg h12] at h
                            by_cases h13 : ch = 'P'
                            · rw [if_pos h13] at h
                              injection h with h
                              omega
                            · rw [if_neg h13] at h
                              by_cases h14 : ch = 'Q'
                              · rw [if_pos h14] at h
                                injection h with h
                                omega
                              · rw [if_neg h14] at h
                                by_cases h15 : ch = 'R'
                                · rw [if_pos h15] at h
                                  injection h with h
                                  omega
                                · rw [if_neg h15] at h
                                  exact absurd h (by simp)

theorem parseCarStr_name (s : String) (c : Car) (h : parseCarStr s = some c) :
    1 ≤ c.name ∧ c.name ≤ 16 := by
  unfold parseCarStr at h
  split at h
  · split at h
    · exact absurd h (by simp)
    · rename_i nm hnm
      split_ifs at h <;> injection h with h <;> subst h <;>
        exact carNameOfChar_range _ _ hnm
  · exact absurd h (by simp)

theorem carsContains_carsSet (m : CarsMap) (k j : Nat) (c : Car) :
    carsContains (carsSet m k c) j = true ↔ (j = k ∨ carsContains m j = true) := by
  unfold carsContains
  by_cases h : j = k
  · subst h
    rw [carsGet_carsSet_self]
    simp
  · rw [carsGet_carsSet_other _ _ _ _ h]
    simp [h]

theorem getCell_empty (p : Int × Int) : getCell emptyBoard p = 0 := by
  unfold getCell emptyBoard
  rcases Nat.lt_or_ge (cellIdx p) (boardSize * boardSize) with h | h
  · rw [List.getD_eq_getElem _ _ (by simpa using h)]
    simp
  · rw [List.getD_eq_default _ _ (by simpa using h)]

theorem place_preserves_occ (b : Board) (occ : List (Int × Int)) (c : Car)
    (hlen : b.length = 36)
    (hocc : ∀ p, inBoardPos p → (getCell b p ≠ 0 ↔ p ∈ occ))
    (hcib : c.in_board) (hname : 1 ≤ c.name) :
    ∀ p, inBoardPos p → (getCell (setCells b c.cells c.name) p ≠ 0 ↔ p ∈ occ ++ c.cells) := by
  intro p hp
  by_cases hm : p ∈ c.cells
  · rw [show getCell (setCells b c.cells c.name) p
        = (setCells b c.cells c.name).getD (cellIdx p) 0 from rfl]
    rw [getD_setCells_mem _ _ _ _ (List.mem_map.mpr ⟨p, hm, rfl⟩)
      (by rw [hlen]; exact inBoardPos_cellIdx_lt p hp)]
    simp [hm]
    omega
  · have hnotidx : cellIdx p ∉ c.cells.map cellIdx := by
      intro hin
      obtain ⟨q, hq, hqi⟩ := List.mem_map.mp hin
      have hqp := cellIdx_inj q p (cells_in_board c hcib q hq) hp hqi
      exact hm (hqp ▸ hq)
    rw [show getCell (setCells b c.cells c.name) p
        = (setCells b c.cells c.name).getD (cellIdx p) 0 from rfl]
    rw [getD_setCells_not_mem _ _ _ _ hnotidx]
    rw [show b.getD (cellIdx p) 0 = getCell b p from rfl]
    rw [List.mem_append]
    constructor
    · intro hnz
      exact Or.inl ((hocc p hp).mp hnz)
    · rintro (hin | hin)
      · exact (hocc p hp).mpr hin
      · exact absurd hin hm

theorem can_place_iff_occ (g : Game) (occ : List (Int × Int)) (c : Car)
    (hocc : ∀ p, inBoardPos p → (getCell g.board p ≠ 0 ↔ p ∈ occ)) :
    can_place_car g c ↔ (c.in_board ∧ ∀ p ∈ c.cells, p ∉ occ) := by
  unfold can_place_car
  constructor
  · rintro ⟨hib, hz⟩
    refine ⟨hib, fun p hp hin => ?_⟩
    have := (hocc p (cells_in_board c hib p hp)).mpr hin
    exact this (hz p hp)
  · rintro ⟨hib, hno⟩
    refine ⟨hib, fun p hp => ?_⟩
    by_contra hnz
    exact hno p hp ((hocc p (cells_in_board c hib p hp)).mp hnz)

theorem buildGame_ok_iff (l : List String) (cars : List Car) (g0 : Game)
    (occ : List (Int × Int))
    (hp : parseAll l = some cars)
    (hlen : g0.board.length = 36)
    (hocc : ∀ p, inBoardPos p → (getCell g0.board p ≠ 0 ↔ p ∈ occ)) :
    (∃ g, buildGame g0 l = .ok g) ↔
      ((∀ c ∈ cars, c.name = 1 → c.orientation = .H ∧ c.start.1 = 2) ∧
        placementsOK occ cars) := by
  induction l generalizing cars g0 occ with
  | nil =>
    unfold parseAll at hp
    injection hp with hp
    subst hp
    simp [buildGame, placementsOK]
  | cons s rest ih =>
    unfold parseAll at hp
    cases hps : parseCarStr s with
    | none =>
      rw [hps] at hp
      exact absurd hp (by simp)
    | some c =>
      rw [hps] at hp
      cases hpr : parseAll rest with
      | none =>
        rw [hpr] at hp
        exact absurd hp (by simp)
      | some cs =>
        rw [hpr] at hp
        injection hp with hp
        subst hp
        show (∃ g, buildGame g0 (s :: rest) = .ok g) ↔ _
        unfold buildGame
        rw [hps]
        dsimp only
        by_cases hx : c.name = 1 ∧ (c.orientation ≠ .H ∨ c.start.1 ≠ 2)
        · rw [if_pos hx]
          constructor
          · rintro ⟨g, hg⟩
            exact absurd hg (by simp)
          · rintro ⟨hxo, _⟩
            obtain ⟨ho, hr⟩ := hxo c (List.mem_cons_self ..) hx.1
            rcases hx.2 with hh | hh
            · exact absurd ho hh
            · exact absurd hr hh
        · rw [if_neg hx]
          unfold add_car
          by_cases hcp : can_place_car g0 c
          · rw [if_pos hcp]
            have hcnm := parseCarStr_name s c hps
            have hib : c.in_board := hcp.1
            have ihh := ih cs (place_car g0 c) (occ ++ c.cells) hpr
              (by unfold place_car; dsimp; rw [length_setCells]; exact hlen)
              (by unfold place_car; dsimp
                  exact place_preserves_occ g0.board occ c hlen hocc hib hcnm.1)
            rw [ihh]
            rw [show placementsOK occ (c :: cs)
                = ((c.in_board ∧ ∀ p ∈ c.cells, p ∉ occ) ∧ placementsOK (occ ++ c.cells) cs)
                from rfl]
            have hplc := (can_place_iff_occ g0 occ c hocc).mp hcp
            constructor
            · rintro ⟨ha, hb⟩
              refine ⟨?_, ⟨hplc.1, hplc.2⟩, hb⟩
              intro d hd h1
              rcases List.mem_cons.mp hd with rfl | hd2
              · constructor
                · by_contra hne
                  exact hx ⟨h1, Or.inl hne⟩
                · by_contra hne
                  exact hx ⟨h1, Or.inr hne⟩
              · exact ha d hd2 h1
            · rintro ⟨ha, _, hcx⟩
              exact ⟨fun d hd h1 => ha d (List.mem_cons_of_mem _ hd) h1, hcx⟩
          · rw [if_neg hcp]
            constructor
            · rintro ⟨g, hg⟩
              exact absurd hg (by simp)
            · rintro ⟨hxo, hpl⟩
              rw [show placementsOK occ (c :: cs)
                  = ((c.in_board ∧ ∀ p ∈ c.cells, p ∉ occ) ∧ placementsOK (occ ++ c.cells) cs)
                  from rfl] at hpl
              exact absurd ((can_place_iff_occ g0 occ c hocc).mpr ⟨hpl.1.1, hpl.1.2⟩) hcp

theorem buildGame_keys (l : List String) (cars : List Car) (g0 g : Game)
    (hp : parseAll l = some cars) (hb : buildGame g0 l = .ok g) (j : Nat) :
    carsContains g.cars j = true ↔
      (carsContains g0.cars j = true ∨ ∃ c ∈ cars, c.name = j) := by
  induction l generalizing cars g0 with
  | nil =>
    unfold parseAll at hp
    injection hp with hp
    subst hp
    unfold buildGame at hb
    injection hb with hb
    subst hb
    simp
  | cons s rest ih =>
    unfold parseAll at hp
    cases hps : parseCarStr s with
    | none =>
      rw [hps] at hp
      exact absurd hp (by simp)
    | some c =>
      rw [hps] at hp
      cases hpr : parseAll rest with
      | none =>
        rw [hpr] at hp
        exact absurd hp (by simp)
      | some cs =>
        rw [hpr] at hp
        injection hp with hp
        subst hp
        unfold buildGame at hb
        rw [hps] at hb
        dsimp only at hb
        split_ifs at hb with hx
        unfold add_car at hb
        split_ifs at hb with hcp
        rw [ih cs (place_car g0 c) hpr hb]
        unfold place_car
        dsimp only
        rw [carsContains_carsSet]
        constructor
        · rintro ((h | h) | h)
          · exact Or.inr ⟨c, List.mem_cons_self .., h.symm⟩
          · exact Or.inl h
          · obtain ⟨d, hd, hdn⟩ := h
            exact Or.inr ⟨d, List.mem_cons_of_mem _ hd, hdn⟩
        · rintro (h | h)
          · exact Or.inl (Or.inr h)
          · obtain ⟨d, hd, hdn⟩ := h
            rcases List.mem_cons.mp hd with rfl | hd2
            · exact Or.inl (Or.inl hdn.symm)
            · exact Or.inr ⟨d, hd2, hdn⟩

/-- C4, amended: construction from an ordered list of parseable car strings
fails exactly when the target car X is absent, or some X entry is not
horizontal or not anchored in row 2, or some car placement is out of bounds
or overlaps a previously placed car (including an earlier car of the same
identity).  A duplicated identity whose placement is in bounds and does not
overlap does not by itself make construction fail. -/
theorem gameFromStrings_ok_iff (l : List String) (cars : List Car)
    (hp : parseAll l = some cars) :
    (∃ g, gameFromStrings l = .ok g) ↔
      ((∃ c ∈ cars, c.name = 1) ∧
       (∀ c ∈ cars, c.name = 1 → c.orientation = .H ∧ c.start.1 = 2) ∧
       placementsOK [] cars) := by
  have hlen0 : (({ board := emptyBoard, cars := [] } : Game)).board.length = 36 := by
    unfold emptyBoard boardSize
    simp
  have hocc0 : ∀ p, inBoardPos p →
      (getCell (({ board := emptyBoard, cars := [] } : Game)).board p ≠ 0 ↔
        p ∈ ([] : List (Int × Int))) := by
    intro p hp2
    dsimp only
    rw [getCell_empty]
    simp
  have hbo := buildGame_ok_iff l cars { board := emptyBoard, cars := [] } [] hp hlen0 hocc0
  unfold gameFromStrings
  cases hb : buildGame { board := emptyBoard, cars := [] } l with
  | error e =>
    dsimp only
    constructor
    · rintro ⟨g, hg⟩
      exact absurd hg (by simp)
    · rintro ⟨_, hxo, hpl⟩
      obtain ⟨g, hg⟩ := hbo.mpr ⟨hxo, hpl⟩
      rw [hb] at hg
      exact absurd hg (by simp)
  | ok g =>
    have hkeys := buildGame_keys l cars { board := emptyBoard, cars := [] } g hp hb 1
    dsimp only
    by_cases hcont : carsContains g.cars 1
    · rw [if_pos hcont]
      constructor
      · intro _
        refine ⟨?_, (hbo.mp ⟨g, hb⟩).1, (hbo.mp ⟨g, hb⟩).2⟩
        rcases hkeys.mp hcont with h | h
        · exact absurd h (by decide)
        · obtain ⟨d, hd, hdn⟩ := h
          exact ⟨d, hd, hdn⟩
      · intro _
        exact ⟨g, rfl⟩
    · rw [if_neg hcont]
      constructor
      · rintro ⟨g2, hg⟩
        exact absurd hg (by simp)
      · rintro ⟨⟨d, hd, hdn⟩, _, _⟩
        exact absurd (hkeys.mpr (Or.inr ⟨d, hd, hdn⟩)) hcont

/-- C4, counterexample: the configuration `["XH23", "AH00", "AH40"]` carries
the identity A twice, yet construction succeeds (the claim requires it to
fail on a duplicate identity): the second A placement overwrites the map
entry while both placements remain on the board. -/
theorem duplicate_identity_constructs :
    gameFromStrings ["XH23", "AH00", "AH40"] = .ok gameDupA ∧
      carsGet gameDupA.cars 2 = some { name := 2, orientation := .H, start := (4, 0) } ∧
      getCell gameDupA.board (0, 0) = 2 :=
  ⟨rfl, rfl, rfl⟩

/-- Witness for C4 (amended) at a concrete input. -/
theorem gameFromStrings_ok_iff_witness :
    (∃ g, gameFromStrings ["XH23", "XH20"] = .ok g) ↔
      ((∃ c ∈ [({ name := 1, orientation := .H, start := (2, 3) } : Car),
               { name := 1, orientation := .H, start := (2, 0) }], c.name = 1) ∧
       (∀ c ∈ [({ name := 1, orientation := .H, start := (2, 3) } : Car),
               { name := 1, orientation := .H, start := (2, 0) }],
          c.name = 1 → c.orientation = .H ∧ c.start.1 = 2) ∧
       placementsOK [] [{ name := 1, orientation := .H, start := (2, 3) },
                        { name := 1, orientation := .H, start := (2, 0) }]) :=
  gameFromStrings_ok_iff ["XH23", "XH20"] _ rfl

/-! ### Preservation of the consistency invariant -/

theorem cellIdx_posOfIdx (i : Nat) (h : i < 36) : cellIdx (posOfIdx i) = i := by
  unfold cellIdx posOfIdx boardSize
  omega

theorem mem_carsSet_self (m : CarsMap) (k : Nat) (c : Car) : (k, c) ∈ carsSet m k c := by
  induction m with
  | nil => simp [carsSet]
  | cons e rest ih =>
    unfold carsSet
    by_cases h : e.1 = k
    · rw [if_pos h]
      exact List.mem_cons_self ..
    · rw [if_neg h]
      exact List.mem_cons_of_mem _ ih

theorem mem_carsSet_of_ne (m : CarsMap) (k : Nat) (c : Car) (e : Nat × Car)
    (he : e ∈ m) (hne : e.1 ≠ k) : e ∈ carsSet m k c := by
  induction m with
  | nil => simp at he
  | cons f rest ih =>
    unfold carsSet
    rcases List.mem_cons.mp he with rfl | he2
    · rw [if_neg hne]
      exact List.mem_cons_self ..
    · by_cases hf : f.1 = k
      · rw [if_pos hf]
        exact List.mem_cons_of_mem _ he2
      · rw [if_neg hf]
        exact List.mem_cons_of_mem _ (ih he2)

theorem mem_of_mem_carsSet (m : CarsMap) (k : Nat) (c : Car) (e : Nat × Car)
    (he : e ∈ carsSet m k c) : e = (k, c) ∨ (e ∈ m ∧ e.1 ≠ k ∨ e ∈ m ∧ e.1 = k) := by
  induction m with
  | nil =>
    unfold carsSet at he
    rcases List.mem_cons.mp he with h | h
    · exact Or.inl h
    · simp at h
  | cons f rest ih =>
    unfold carsSet at he
    by_cases hf : f.1 = k
    · rw [if_pos hf] at he
      rcases List.mem_cons.mp he with h | h
      · exact Or.inl h
      · exact Or.inr (Or.elim (em (e.1 = k))
          (fun hk => Or.inr ⟨List.mem_cons_of_mem _ h, hk⟩)
          (fun hk => Or.inl ⟨List.mem_cons_of_mem _ h, hk⟩))
    · rw [if_neg hf] at he
      rcases List.mem_cons.mp he with h | h
      · subst h
        exact Or.inr (Or.inl ⟨List.mem_cons_self .., hf⟩)
      · rcases ih h with h2 | (h2 | h2)
        · exact Or.inl h2
        · exact Or.inr (Or.inl ⟨List.mem_cons_of_mem _ h2.1, h2.2⟩)
        · exact Or.inr (Or.inr ⟨List.mem_cons_of_mem _ h2.1, h2.2⟩)

theorem carsSet_keys_of_mem (m : CarsMap) (k : Nat) (c : Car)
    (h : carsGet m k = some c) (b : Car) :
    (carsSet m k b).map Prod.fst = m.map Prod.fst := by
  induction m with
  | nil => simp [carsGet, List.find?] at h
  | cons e rest ih =>
    unfold carsSet
    by_cases he : e.1 = k
    · rw [if_pos he]
      simp [he]
    · rw [if_neg he]
      unfold carsGet at h
      rw [List.find?_cons_of_neg _ (by simpa using he)] at h
      simp only [List.map_cons]
      rw [ih h]

theorem carsGet_of_mem_nodup (m : CarsMap) (k : Nat) (c : Car)
    (hnd : (m.map Prod.fst).Nodup) (h : (k, c) ∈ m) : carsGet m k = some c := by
  induction m with
  | nil => simp at h
  | cons e rest ih =>
    simp only [List.map_cons, List.nodup_cons] at hnd
    rcases List.mem_cons.mp h with h1 | h1
    · unfold carsGet
      rw [List.find?_cons_of_pos _ (by rw [← h1]; simp)]
      rw [← h1]
      rfl
    · have hne : e.1 ≠ k := by
        intro hk
        exact hnd.1 (hk ▸ List.mem_map.mpr ⟨(k, c), h1, rfl⟩)
      unfold carsGet
      rw [List.find?_cons_of_neg _ (by simpa using hne)]
      exact ih hnd.2 h1

theorem move_car_ok_inv (g : Game) (car : Car) (inc : Int) (g2 : Game)
    (h : move_car g car inc = .ok g2) :
    can_move_car g car inc ∧
      g2 = { board := setCells (setCells g.board car.cells 0) (car.move_by inc).cells
               (car.move_by inc).name
             cars := carsSet g.cars (car.move_by inc).name (car.move_by inc) } := by
  unfold move_car at h
  dsimp only at h
  split_ifs at h with h1 h2
  · injection h with h
    exact ⟨⟨h1, h2⟩, h.symm⟩

theorem mem_of_mem_carsSet_nodup (m : CarsMap) (hnd : (m.map Prod.fst).Nodup)
    (k : Nat) (c : Car) (e : Nat × Car) (he : e ∈ carsSet m k c) :
    e = (k, c) ∨ (e ∈ m ∧ e.1 ≠ k) := by
  induction m with
  | nil =>
    unfold carsSet at he
    rcases List.mem_cons.mp he with h | h
    · exact Or.inl h
    · simp at h
  | cons f rest ih =>
    simp only [List.map_cons, List.nodup_cons] at hnd
    unfold carsSet at he
    by_cases hf : f.1 = k
    · rw [if_pos hf] at he
      rcases List.mem_cons.mp he with h | h
      · exact Or.inl h
      · refine Or.inr ⟨List.mem_cons_of_mem _ h, ?_⟩
        intro hk
        exact hnd.1 (hf ▸ hk ▸ List.mem_map.mpr ⟨e, h, rfl⟩)
    · rw [if_neg hf] at he
      rcases List.mem_cons.mp he with h | h
      · exact Or.inr ⟨h ▸ List.mem_cons_self .., h ▸ hf⟩
      · rcases ih hnd.2 h with h2 | h2
        · exact Or.inl h2
        · exact Or.inr ⟨List.mem_cons_of_mem _ h2.1, h2.2⟩

theorem posOfIdx_in_board (i : Nat) (h : i < 36) : inBoardPos (posOfIdx i) := by
  unfold inBoardPos posOfIdx boardSize
  refine ⟨?_, ?_, ?_, ?_⟩ <;> omega

theorem getD_as_getCell (b : Board) (i : Nat) (h : i < 36) :
    b.getD i 0 = getCell b (posOfIdx i) := by
  unfold getCell
  rw [cellIdx_posOfIdx i h]

theorem consistent_move (g : Game) (car : Car) (inc : Int) (g2 : Game)
    (hc : Consistent g) (hmem : carsGet g.cars car.name = some car)
    (hmove : move_car g car inc = .ok g2) : Consistent g2 := by
  obtain ⟨hcm, hg2⟩ := move_car_ok_inv g car inc g2 hmove
  subst hg2
  obtain ⟨hlen, hcars, hcover, hnd⟩ := hc
  obtain ⟨hcib, hcc⟩ := hcm
  have hentry := carsGet_mem _ _ _ hmem
  obtain ⟨hname, hk1, hk16, hib, hmarks⟩ := hcars _ hentry
  have hAin := cells_in_board car hib
  have hCin := cells_in_board _ hcib
  have hnm : (car.move_by inc).name = car.name := move_by_name car inc
  have hlen2 : (setCells (setCells g.board car.cells 0) (car.move_by inc).cells
      (car.move_by inc).name).length = 36 := by
    rw [length_setCells, length_setCells, hlen]
  have hval : ∀ p, inBoardPos p →
      getCell (setCells (setCells g.board car.cells 0) (car.move_by inc).cells
        (car.move_by inc).name) p
      = if p ∈ (car.move_by inc).cells then (car.move_by inc).name
        else if p ∈ car.cells then 0 else getCell g.board p := by
    intro p hp
    have hiltA : cellIdx p < (setCells g.board car.cells 0).length := by
      rw [length_setCells, hlen]
      exact inBoardPos_cellIdx_lt p hp
    by_cases h1 : p ∈ (car.move_by inc).cells
    · rw [if_pos h1]
      exact getD_setCells_mem _ _ _ _ (List.mem_map.mpr ⟨p, h1, rfl⟩) hiltA
    · have h1i : cellIdx p ∉ ((car.move_by inc).cells).map cellIdx := by
        intro hin
        obtain ⟨q, hq, hqi⟩ := List.mem_map.mp hin
        exact h1 ((cellIdx_inj q p (hCin q hq) hp hqi) ▸ hq)
      rw [if_neg h1]
      rw [show getCell (setCells (setCells g.board car.cells 0) (car.move_by inc).cells
          (car.move_by inc).name) p
          = (setCells (setCells g.board car.cells 0) (car.move_by inc).cells
            (car.move_by inc).name).getD (cellIdx p) 0 from rfl]
      rw [getD_setCells_not_mem _ _ _ _ h1i]
      by_cases h2 : p ∈ car.cells
      · rw [if_pos h2]
        exact getD_setCells_mem _ _ _ _ (List.mem_map.mpr ⟨p, h2, rfl⟩)
          (by rw [hlen]; exact inBoardPos_cellIdx_lt p hp)
      · have h2i : cellIdx p ∉ (car.cells).map cellIdx := by
          intro hin
          obtain ⟨q, hq, hqi⟩ := List.mem_map.mp hin
          exact h2 ((cellIdx_inj q p (hAin q hq) hp hqi) ▸ hq)
        rw [if_neg h2]
        exact getD_setCells_not_mem _ _ _ _ h2i
  refine ⟨hlen2, ?_, ?_, ?_⟩
  · intro e he
    rcases mem_of_mem_carsSet_nodup g.cars hnd _ _ e he with rfl | ⟨hem, hene⟩
    · refine ⟨rfl, ?_, ?_, hcib, ?_⟩
      · rw [hnm]
        exact hk1
      · rw [hnm]
        exact hk16
      · intro p hp
        rw [hval p (hCin p hp), if_pos hp]
    · obtain ⟨hename, hek1, hek16, heib, hemarks⟩ := hcars e hem
      rw [hnm] at hene
      refine ⟨hename, hek1, hek16, heib, ?_⟩
      intro p hp
      have hpin := cells_in_board e.2 heib p hp
      rw [hval p hpin]
      have hpnotC : p ∉ (car.move_by inc).cells := by
        intro hin
        rcases hcc p hin with hz | hv
        · rw [hemarks p hp] at hz
          omega
        · rw [hemarks p hp, hnm] at hv
          exact hene hv
      have hpnotA : p ∉ car.cells := by
        intro hin
        have hmk := hmarks p hin
        rw [hemarks p hp] at hmk
        exact hene hmk
      rw [if_neg hpnotC, if_neg hpnotA]
      exact hemarks p hp
  · intro i hi hnz
    have hpin := posOfIdx_in_board i hi
    rw [getD_as_getCell _ i hi] at hnz
    rw [hval (posOfIdx i) hpin] at hnz
    rw [getD_as_getCell _ i hi, hval (posOfIdx i) hpin]
    by_cases h1 : posOfIdx i ∈ (car.move_by inc).cells
    · rw [if_pos h1] at hnz ⊢
      exact ⟨((car.move_by inc).name, car.move_by inc), mem_carsSet_self .., rfl, h1⟩
    · rw [if_neg h1] at hnz ⊢
      by_cases h2 : posOfIdx i ∈ car.cells
      · rw [if_pos h2] at hnz
        exact absurd rfl hnz
      · rw [if_neg h2] at hnz ⊢
        obtain ⟨e, hem, hekey, hecell⟩ := hcover i hi (by
          rw [getD_as_getCell _ i hi]
          exact hnz)
        have hene : e.1 ≠ (car.move_by inc).name := by
          rw [hnm]
          intro hk
          have hecar : e.2 = car :=
            entry_unique g.cars hnd car.name e.2 car (by rw [← hk]; simpa using hem) hentry
          rw [hecar] at hecell
          exact h2 hecell
        refine ⟨e, mem_carsSet_of_ne _ _ _ e hem hene, ?_, hecell⟩
        rw [hekey, getD_as_getCell _ i hi]
  · rw [carsSet_keys_of_mem g.cars (car.move_by inc).name car (by rw [hnm]; exact hmem)]
    exact hnd

theorem carsGet_none_iff (m : CarsMap) (k : Nat) :
    carsGet m k = none ↔ k ∉ m.map Prod.fst := by
  induction m with
  | nil => simp [carsGet, List.find?]
  | cons e rest ih =>
    by_cases he : e.1 = k
    · unfold carsGet
      rw [List.find?_cons_of_pos _ (by simpa using he)]
      simp [he]
    · unfold carsGet
      rw [List.find?_cons_of_neg _ (by simpa using he)]
      simp only [List.map_cons, List.mem_cons]
      constructor
      · intro h hc
        rcases hc with h1 | h1
        · exact he h1.symm
        · exact (ih.mp h) h1
      · intro h
        exact ih.mpr (fun hc => h (Or.inr hc))

theorem carsSet_append_of_none (m : CarsMap) (k : Nat) (c : Car)
    (h : carsGet m k = none) : carsSet m k c = m ++ [(k, c)] := by
  induction m with
  | nil => rfl
  | cons e rest ih =>
    unfold carsGet at h
    by_cases he : e.1 = k
    · rw [List.find?_cons_of_pos _ (by simpa using he)] at h
      simp at h
    · rw [List.find?_cons_of_neg _ (by simpa using he)] at h
      unfold carsSet
      rw [if_neg he, ih h]
      rfl

theorem consistent_place (g : Game) (c : Car) (hc : Consistent g)
    (hnew : carsGet g.cars c.name = none) (hcp : can_place_car g c)
    (hn1 : 1 ≤ c.name) (hn16 : c.name ≤ 16) :
    Consistent (place_car g c) := by
  obtain ⟨hlen, hcars, hcover, hnd⟩ := hc
  obtain ⟨hib, hz⟩ := hcp
  have hCin := cells_in_board c hib
  unfold place_car
  rw [carsSet_append_of_none g.cars c.name c hnew]
  have hval : ∀ p, inBoardPos p →
      getCell (setCells g.board c.cells c.name) p
      = if p ∈ c.cells then c.name else getCell g.board p := by
    intro p hp
    by_cases h1 : p ∈ c.cells
    · rw [if_pos h1]
      exact getD_setCells_mem _ _ _ _ (List.mem_map.mpr ⟨p, h1, rfl⟩)
        (by rw [hlen]; exact inBoardPos_cellIdx_lt p hp)
    · rw [if_neg h1]
      refine getD_setCells_not_mem _ _ _ _ ?_
      intro hin
      obtain ⟨q, hq, hqi⟩ := List.mem_map.mp hin
      exact h1 ((cellIdx_inj q p (hCin q hq) hp hqi) ▸ hq)
  unfold Consistent
  dsimp only
  refine ⟨by rw [length_setCells, hlen], ?_, ?_, ?_⟩
  · intro e he
    rcases List.mem_append.mp he with hem | hem
    · obtain ⟨hename, hek1, hek16, heib, hemarks⟩ := hcars e hem
      refine ⟨hename, hek1, hek16, heib, ?_⟩
      intro p hp
      rw [hval p (cells_in_board e.2 heib p hp)]
      have hnc : p ∉ c.cells := by
        intro hin
        have h0 := hz p hin
        have hm := hemarks p hp
        rw [hm] at h0
        omega
      rw [if_neg hnc]
      exact hemarks p hp
    · rw [List.mem_singleton] at hem
      subst hem
      refine ⟨rfl, hn1, hn16, hib, ?_⟩
      intro p hp
      rw [hval p (hCin p hp), if_pos hp]
  · intro i hi hnz
    have hpin := posOfIdx_in_board i hi
    rw [getD_as_getCell _ i hi] at hnz
    rw [hval (posOfIdx i) hpin] at hnz
    rw [getD_as_getCell _ i hi, hval (posOfIdx i) hpin]
    by_cases h1 : posOfIdx i ∈ c.cells
    · rw [if_pos h1] at hnz ⊢
      exact ⟨(c.name, c), List.mem_append.mpr (Or.inr (List.mem_singleton.mpr rfl)), rfl, h1⟩
    · rw [if_neg h1] at hnz ⊢
      obtain ⟨e, hem, hekey, hecell⟩ := hcover i hi (by rw [getD_as_getCell _ i hi]; exact hnz)
      refine ⟨e, List.mem_append.mpr (Or.inl hem), ?_, hecell⟩
      rw [hekey, getD_as_getCell _ i hi]
  · rw [List.map_append]
    rw [List.nodup_append]
    refine ⟨hnd, by simp, ?_⟩
    intro a ha hb
    simp only [List.map_cons, List.map_nil, List.mem_singleton] at hb
    subst hb
    exact (carsGet_none_iff g.cars c.name).mp hnew ha

theorem buildGame_consistent (l : List String) (cars : List Car) (g0 g : Game)
    (hp : parseAll l = some cars) (hb : buildGame g0 l = .ok g)
    (hc0 : Consistent g0)
    (hfresh : ∀ c ∈ cars, carsGet g0.cars c.name = none)
    (hnd : (cars.map Car.name).Nodup) :
    Consistent g := by
  induction l generalizing cars g0 with
  | nil =>
    unfold parseAll at hp
    injection hp with hp
    subst hp
    unfold buildGame at hb
    injection hb with hb
    subst hb
    exact hc0
  | cons s rest ih =>
    unfold parseAll at hp
    cases hps : parseCarStr s with
    | none =>
      rw [hps] at hp
      exact absurd hp (by simp)
    | some c =>
      rw [hps] at hp
      cases hpr : parseAll rest with
      | none =>
        rw [hpr] at hp
        exact absurd hp (by simp)
      | some cs =>
        rw [hpr] at hp
        injection hp with hp
        subst hp
        unfold buildGame at hb
        rw [hps] at hb
        dsimp only at hb
        split_ifs at hb with hx
        unfold add_car at hb
        split_ifs at hb with hcp
        simp only [List.map_cons, List.nodup_cons] at hnd
        have hnb := parseCarStr_name s c hps
        have hc1 : Consistent (place_car g0 c) :=
          consistent_place g0 c hc0 (hfresh c (List.mem_cons_self ..)) hcp hnb.1 hnb.2
        refine ih cs (place_car g0 c) hpr hb hc1 ?_ hnd.2
        intro d hd
        unfold place_car
        dsimp only
        rw [carsGet_carsSet_other _ _ _ _ ?_]
        · exact hfresh d (List.mem_cons_of_mem _ hd)
        · intro hdn
          exact hnd.1 (hdn ▸ List.mem_map.mpr ⟨d, hd, rfl⟩)

theorem gameFromStrings_consistent (l : List String) (cars : List Car) (g : Game)
    (hp : parseAll l = some cars) (hnd : (cars.map Car.name).Nodup)
    (hok : gameFromStrings l = .ok g) : Consistent g := by
  unfold gameFromStrings at hok
  cases hb : buildGame { board := emptyBoard, cars := [] } l with
  | error e =>
    rw [hb] at hok
    exact absurd hok (by simp)
  | ok g2 =>
    rw [hb] at hok
    dsimp only at hok
    split_ifs at hok
    injection hok with hok
    subst hok
    refine buildGame_consistent l cars _ g2 hp hb (by decide) ?_ hnd
    intro c hc
    rfl

theorem consistent_move_sequence (g g2 : Game) (ms : List String)
    (hc : Consistent g) (h : move_sequence g ms = .ok g2) : Consistent g2 := by
  induction ms generalizing g with
  | nil =>
    unfold move_sequence at h
    injection h with h
    subst h
    exact hc
  | cons m rest ih =>
    unfold move_sequence at h
    cases hpm : parseMove m with
    | none =>
      rw [hpm] at h
      exact absurd h (by simp)
    | some mi =>
      rw [hpm] at h
      obtain ⟨nm, inc⟩ := mi
      dsimp only at h
      cases hcg : carsGet g.cars nm with
      | none =>
        rw [hcg] at h
        exact ih g hc h
      | some car =>
        rw [hcg] at h
        dsimp only at h
        cases hmv : move_car g car inc with
        | error e =>
          rw [hmv] at h
          exact absurd h (by simp)
        | ok g1 =>
          rw [hmv] at h
          have hname : car.name = nm := by
            obtain ⟨_, hcars, _, _⟩ := hc
            exact (hcars _ (carsGet_mem _ _ _ hcg)).1
          have hc1 : Consistent g1 :=
            consistent_move g car inc g1 hc (by rw [hname]; exact hcg) hmv
          exact ih g1 hc1 h

theorem mem_incList (p n : Nat) (inc : Int) :
    inc ∈ incList p n ↔ ((1 ≤ inc ∧ inc ≤ (p : Int)) ∨ (-(n : Int) ≤ inc ∧ inc ≤ -1)) := by
  unfold incList
  rw [List.mem_append]
  constructor
  · rintro (h | h) <;>
      (obtain ⟨i, hi, rfl⟩ := List.mem_map.mp h; rw [List.mem_range] at hi)
    · left
      constructor <;> omega
    · right
      constructor <;> omega
  · rintro (⟨h1, h2⟩ | ⟨h1, h2⟩)
    · left
      refine List.mem_map.mpr ⟨(inc - 1).toNat, ?_, by omega⟩
      rw [List.mem_range]
      omega
    · right
      refine List.mem_map.mpr ⟨(-inc - 1).toNat, ?_, by omega⟩
      rw [List.mem_range]
      omega

theorem slide_legal_1d (cell : Int → Nat) (s : Int) (sz : Nat) (nmv : Nat) (p n : Nat)
    (inc : Int)
    (hs0 : 0 ≤ s) (hend : s + sz - 1 < 6) (hsz : 1 ≤ sz)
    (hfwd : contiguousEmpty cell (s + sz - 1) 1 p)
    (hbwd : contiguousEmpty cell s (-1) n)
    (hmk : ∀ i : Nat, i < sz → cell (s + i) = nmv)
    (hrange : (1 ≤ inc ∧ inc ≤ (p : Int)) ∨ (-(n : Int) ≤ inc ∧ inc ≤ -1)) :
    (0 ≤ s + inc ∧ s + inc + sz - 1 < 6) ∧
    (∀ i : Nat, i < sz → cell (s + inc + i) = 0 ∨ cell (s + inc + i) = nmv) := by
  obtain ⟨hf1, hf2⟩ := hfwd
  obtain ⟨hb1, hb2⟩ := hbwd
  rcases hrange with ⟨h1, h2⟩ | ⟨h1, h2⟩
  · have hinb := hf1 inc.toNat (by omega) (by omega)
    constructor
    · have hx := hinb.2.1
      constructor <;> omega
    · intro i hi
      by_cases hsp : (s + inc + i) ≤ s + sz - 1
      · right
        have hm := hmk (inc + i).toNat (by omega)
        rw [show s + inc + (i : Int) = s + (((inc + (i : Int)).toNat : Int)) from by omega]
        exact hm
      · left
        have hj := hf1 (inc + i - sz + 1).toNat (by omega) (by omega)
        rw [show s + inc + (i : Int)
            = (s + sz - 1) + 1 * (((inc + (i : Int) - sz + 1).toNat : Int)) from by omega]
        exact hj.2.2
  · have hinb := hb1 (-inc).toNat (by omega) (by omega)
    constructor
    · have hx := hinb.1
      constructor <;> omega
    · intro i hi
      by_cases hsp : s ≤ s + inc + i
      · right
        have hm := hmk (inc + i).toNat (by omega)
        rw [show s + inc + (i : Int) = s + (((inc + (i : Int)).toNat : Int)) from by omega]
        exact hm
      · left
        have hj := hb1 (-(inc + i)).toNat (by omega) (by omega)
        rw [show s + inc + (i : Int)
            = s + (-1) * (((-(inc + (i : Int))).toNat : Int)) from by omega]
        exact hj.2.2

theorem enum_move_legal (g : Game) (hcons : Consistent g) (nm p n : Nat) (inc : Int)
    (hmem : (nm, p, n) ∈ get_possible_moves g) (hinc : inc ∈ incList p n) :
    ∃ car, carsGet g.cars nm = some car ∧ can_move_car g car inc := by
  obtain ⟨hlen, hcars, hcover, hnd⟩ := hcons
  obtain ⟨car, hcm, hgcm, hpos⟩ := ((get_car_moves_spec g hlen).2 nm p n).mp hmem
  obtain ⟨hname, hk1, hk16, hib, hmarks⟩ := hcars _ hcm
  refine ⟨car, carsGet_of_mem_nodup g.cars nm car hnd hcm, ?_⟩
  have hchar := (get_car_moves_spec g hlen).1 car hib
  rw [mem_incList] at hinc
  obtain ⟨hsz1, hsz3⟩ := car_size_pos car
  obtain ⟨nm2, orient, st⟩ := car
  have hname2 : nm2 = nm := hname
  unfold Car.in_board at hib
  rw [boardSize_int] at hib
  obtain ⟨hx0, hy0, he1, he2⟩ := hib
  cases orient with
  | H =>
    obtain ⟨hfwd, hbwd⟩ := hchar.1 rfl
    dsimp only [Car.endPos] at hfwd he1 he2
    rw [hgcm] at hfwd hbwd
    dsimp only at hfwd hbwd he1 he2 hx0 hy0
    have hmk : ∀ i : Nat, i < Car.size ⟨nm2, .H, st⟩ →
        getCell g.board (st.1, st.2 + (i : Int)) = nm := by
      intro i hi
      have hq : (st.1, st.2 + (i : Int)) ∈ Car.cells ⟨nm2, .H, st⟩ :=
        List.mem_map.mpr ⟨i, List.mem_range.mpr hi, rfl⟩
      exact hmarks _ hq
    have h1d := slide_legal_1d (fun k => getCell g.board (st.1, k)) st.2
      (Car.size ⟨nm2, .H, st⟩) nm p n inc hy0 he2 hsz1 hfwd hbwd hmk hinc
    obtain ⟨⟨hm0, hm6⟩, hcellsv⟩ := h1d
    constructor
    · unfold Car.move_by
      dsimp only
      unfold Car.in_board
      rw [boardSize_int]
      dsimp only [Car.endPos]
      refine ⟨hx0, hm0, he1, ?_⟩
      dsimp only [Car.size] at hm6 ⊢
      omega
    · intro q hq
      unfold Car.move_by at hq ⊢
      dsimp only at hq ⊢
      unfold Car.cells at hq
      obtain ⟨i, hi, rfl⟩ := List.mem_map.mp hq
      rw [List.mem_range] at hi
      dsimp only at hi ⊢
      have hv := hcellsv i (by dsimp only [Car.size] at hi ⊢; exact hi)
      rw [show st.2 + inc + (i : Int) = (st.2 + inc) + (i : Int) from by omega] at hv
      dsimp only at hv ⊢
      rcases hv with hv | hv
      · exact Or.inl hv
      · right
        rw [hname2]
        exact hv
  | V =>
    obtain ⟨hfwd, hbwd⟩ := hchar.2 rfl
    dsimp only [Car.endPos] at hfwd he1 he2
    rw [hgcm] at hfwd hbwd
    dsimp only at hfwd hbwd he1 he2 hx0 hy0
    have hmk : ∀ i : Nat, i < Car.size ⟨nm2, .V, st⟩ →
        getCell g.board (st.1 + (i : Int), st.2) = nm := by
      intro i hi
      have hq : (st.1 + (i : Int), st.2) ∈ Car.cells ⟨nm2, .V, st⟩ :=
        List.mem_map.mpr ⟨i, List.mem_range.mpr hi, rfl⟩
      exact hmarks _ hq
    have h1d := slide_legal_1d (fun k => getCell g.board (k, st.2)) st.1
      (Car.size ⟨nm2, .V, st⟩) nm p n inc hx0 he1 hsz1 hfwd hbwd hmk hinc
    obtain ⟨⟨hm0, hm6⟩, hcellsv⟩ := h1d
    constructor
    · unfold Car.move_by
      dsimp only
      unfold Car.in_board
      rw [boardSize_int]
      dsimp only [Car.endPos]
      refine ⟨hm0, hy0, ?_, he2⟩
      dsimp only [Car.size] at hm6 ⊢
      omega
    · intro q hq
      unfold Car.move_by at hq ⊢
      dsimp only at hq ⊢
      unfold Car.cells at hq
      obtain ⟨i, hi, rfl⟩ := List.mem_map.mp hq
      rw [List.mem_range] at hi
      dsimp only at hi ⊢
      have hv := hcellsv i (by dsimp only [Car.size] at hi ⊢; exact hi)
      rw [show st.1 + inc + (i : Int) = (st.1 + inc) + (i : Int) from by omega] at hv
      dsimp only at hv ⊢
      rcases hv with hv | hv
      · exact Or.inl hv
      · right
        rw [hname2]
        exact hv

theorem EnumStep_det (g : Game) (mv : Nat × Int) (g1 g2 : Game)
    (h1 : EnumStep g mv g1) (h2 : EnumStep g mv g2) : g1 = g2 := by
  obtain ⟨p1, n1, c1, _, _, hg1, hm1⟩ := h1
  obtain ⟨p2, n2, c2, _, _, hg2, hm2⟩ := h2
  rw [hg1] at hg2
  injection hg2 with h
  subst h
  rw [hm1] at hm2
  exact Except.ok.inj hm2

theorem expandIncs_spec (g : Game) (nm : Nat) (car : Car) (seq : List String)
    (incs : List Int) (hc : Consistent g) (hmem : carsGet g.cars nm = some car)
    (hleg : ∀ inc ∈ incs, can_move_car g car inc) :
    ∃ es, expandIncs nm car seq g incs = .ok (es, g) ∧
      (∀ e ∈ es, ∃ inc ∈ incs, ∃ g1, move_car g car inc = .ok g1 ∧
        e = ⟨g1.board, seq ++ [fmtMove nm inc], g1.cars⟩) ∧
      (∀ inc ∈ incs, ∃ e ∈ es, ∃ g1, move_car g car inc = .ok g1 ∧
        e = ⟨g1.board, seq ++ [fmtMove nm inc], g1.cars⟩) := by
  have hname : car.name = nm := by
    obtain ⟨_, hcars, _, _⟩ := hc
    exact (hcars _ (carsGet_mem _ _ _ hmem)).1
  induction incs with
  | nil => exact ⟨[], rfl, by simp, by simp⟩
  | cons inc rest ih =>
    obtain ⟨es, hrun, hsound, hcompl⟩ := ih (fun i hi => hleg i (List.mem_cons_of_mem _ hi))
    have hleg0 := hleg inc (List.mem_cons_self ..)
    obtain ⟨g1, hmv, hback⟩ := move_car_roundtrip g car inc hc (hname ▸ hmem) hleg0
    have hget1 : carsGet g1.cars nm = some (car.move_by inc) := by
      obtain ⟨hcm1, hg1eq⟩ := move_car_ok_inv g car inc g1 hmv
      rw [hg1eq]
      dsimp only
      rw [show (car.move_by inc).name = nm from by rw [move_by_name]; exact hname]
      exact carsGet_carsSet_self _ _ _
    refine ⟨⟨g1.board, seq ++ [fmtMove nm inc], g1.cars⟩ :: es, ?_, ?_, ?_⟩
    · unfold expandIncs
      rw [hmv]
      dsimp only
      rw [hget1]
      dsimp only
      rw [hback]
      dsimp only
      rw [hrun]
    · intro e he
      rcases List.mem_cons.mp he with rfl | he2
      · exact ⟨inc, List.mem_cons_self .., g1, hmv, rfl⟩
      · obtain ⟨i2, hi2, g2, h1, h2⟩ := hsound e he2
        exact ⟨i2, List.mem_cons_of_mem _ hi2, g2, h1, h2⟩
    · intro i2 hi2
      rcases List.mem_cons.mp hi2 with rfl | hi3
      · exact ⟨_, List.mem_cons_self .., g1, hmv, rfl⟩
      · obtain ⟨e, he, g2, h1, h2⟩ := hcompl i2 hi3
        exact ⟨e, List.mem_cons_of_mem _ he, g2, h1, h2⟩

theorem expandCars_spec (g : Game) (seq : List String) (pm : List (Nat × Nat × Nat))
    (hc : Consistent g) (hpm : ∀ x ∈ pm, x ∈ get_possible_moves g) :
    ∃ es, expandCars seq g pm = .ok (es, g) ∧
      (∀ e ∈ es, ∃ mv g1, EnumStep g mv g1 ∧
        e.key = g1.board ∧ e.cars = g1.cars ∧ e.moves = seq ++ [fmtMove mv.1 mv.2]) ∧
      (∀ x ∈ pm, ∀ inc ∈ incList x.2.1 x.2.2, ∃ e ∈ es, ∃ g1,
        EnumStep g (x.1, inc) g1 ∧
        e.key = g1.board ∧ e.cars = g1.cars ∧ e.moves = seq ++ [fmtMove x.1 inc]) := by
  induction pm with
  | nil => exact ⟨[], rfl, by simp, by simp⟩
  | cons x pm2 ih =>
    obtain ⟨nm, p, n⟩ := x
    have hxmem := hpm _ (List.mem_cons_self ..)
    obtain ⟨hlen, hcars2, hcover2, hnd2⟩ := hc
    obtain ⟨car, hcarm, hgcm, hpos⟩ := ((get_car_moves_spec g hlen).2 nm p n).mp hxmem
    have hget : carsGet g.cars nm = some car := carsGet_of_mem_nodup g.cars nm car hnd2 hcarm
    have hleg : ∀ inc ∈ incList p n, can_move_car g car inc := by
      intro inc hinc
      obtain ⟨car2, hget2, hcm2⟩ :=
        enum_move_legal g ⟨hlen, hcars2, hcover2, hnd2⟩ nm p n inc hxmem hinc
      rw [hget] at hget2
      injection hget2 with h
      subst h
      exact hcm2
    obtain ⟨es1, hrun1, hsound1, hcompl1⟩ :=
      expandIncs_spec g nm car seq (incList p n) ⟨hlen, hcars2, hcover2, hnd2⟩ hget hleg
    obtain ⟨es2, hrun2, hsound2, hcompl2⟩ := ih (fun y hy => hpm y (List.mem_cons_of_mem _ hy))
    refine ⟨es1 ++ es2, ?_, ?_, ?_⟩
    · unfold expandCars
      rw [hget]
      dsimp only
      rw [hrun1]
      dsimp only
      rw [hrun2]
    · intro e he
      rcases List.mem_append.mp he with he1 | he2
      · obtain ⟨inc, hinc, g1, hmv, heq⟩ := hsound1 e he1
        refine ⟨(nm, inc), g1, ⟨p, n, car, hxmem, hinc, hget, hmv⟩, ?_, ?_, ?_⟩ <;>
          (rw [heq])
      · obtain ⟨mv, g1, hstep, h1, h2, h3⟩ := hsound2 e he2
        exact ⟨mv, g1, hstep, h1, h2, h3⟩
    · intro y hy inc hinc
      rcases List.mem_cons.mp hy with rfl | hy2
      · obtain ⟨e, he, g1, hmv, heq⟩ := hcompl1 inc hinc
        refine ⟨e, List.mem_append.mpr (Or.inl he), g1,
          ⟨p, n, car, hxmem, hinc, hget, hmv⟩, ?_, ?_, ?_⟩ <;> (rw [heq])
      · obtain ⟨e, he, g1, hstep, h1, h2, h3⟩ := hcompl2 y hy2 inc hinc
        exact ⟨e, List.mem_append.mpr (Or.inr he), g1, hstep, h1, h2, h3⟩

theorem expand_spec (g : Game) (seq : List String) (hc : Consistent g) :
    ∃ es, expandCars seq g (get_possible_moves g) = .ok (es, g) ∧
      (∀ e ∈ es, ∃ mv g1, EnumStep g mv g1 ∧
        e.key = g1.board ∧ e.cars = g1.cars ∧ e.moves = seq ++ [fmtMove mv.1 mv.2]) ∧
      (∀ mv g1, EnumStep g mv g1 → ∃ e ∈ es,
        e.key = g1.board ∧ e.cars = g1.cars ∧ e.moves = seq ++ [fmtMove mv.1 mv.2]) := by
  obtain ⟨es, hrun, hsound, hcompl⟩ := expandCars_spec g seq (get_possible_moves g) hc
    (fun x hx => hx)
  refine ⟨es, hrun, hsound, ?_⟩
  intro mv g1 hstep
  obtain ⟨p, n, car, hxm, hinc, hget, hmv⟩ := hstep
  obtain ⟨e, he, g2, hstep2, h1, h2, h3⟩ := hcompl (mv.1, p, n) hxm mv.2 hinc
  have hg12 : g2 = g1 :=
    EnumStep_det g (mv.1, mv.2) g2 g1 hstep2 ⟨p, n, car, hxm, hinc, hget, hmv⟩
  subst hg12
  exact ⟨e, he, h1, h2, h3⟩

theorem count_zeros_le6 (t : List Nat) (pos : Nat) (h : t.length ≤ 6) :
    count_zeros t pos ≤ 6 :=
  le_trans (count_zeros_le t pos) (by omega)

theorem boardRow_len_le (b : Board) (r : Nat) : (boardRow b r).length ≤ 6 := by
  unfold boardRow boardSize
  rw [List.length_take]
  omega

theorem get_car_moves_le (g : Game) (car : Car) :
    (get_car_moves g car).1 ≤ 6 ∧ (get_car_moves g car).2 ≤ 6 := by
  obtain ⟨nm, orient, st⟩ := car
  cases orient with
  | H =>
    dsimp only [get_car_moves]
    refine ⟨count_zeros_le6 _ _ (boardRow_len_le _ _), count_zeros_le6 _ _ ?_⟩
    rw [List.length_reverse]
    exact boardRow_len_le _ _
  | V =>
    dsimp only [get_car_moves]
    refine ⟨count_zeros_le6 _ _ (le_of_eq (boardCol_length _ _)),
      count_zeros_le6 _ _ ?_⟩
    rw [List.length_reverse]
    exact le_of_eq (boardCol_length _ _)

theorem mem_possible_moves (g : Game) (nm p n : Nat)
    (h : (nm, p, n) ∈ get_possible_moves g) :
    ∃ car, (nm, car) ∈ g.cars ∧ get_car_moves g car = (p, n) ∧ (0 < p ∨ 0 < n) := by
  unfold get_possible_moves at h
  obtain ⟨e, he, heq⟩ := List.mem_filterMap.mp h
  dsimp only at heq
  split_ifs at heq with hpos
  injection heq with heq
  refine ⟨e.2, ?_, ?_, ?_⟩
  · have h1 : e.1 = nm := congrArg Prod.fst heq
    rw [← h1]
    exact he
  · have h2 := congrArg Prod.snd heq
    dsimp only at h2
    exact h2
  · have h2 := congrArg Prod.snd heq
    dsimp only at h2
    have hp1 := congrArg Prod.fst h2
    have hp2 := congrArg Prod.snd h2
    dsimp only at hp1 hp2
    rw [hp1, hp2] at hpos
    exact hpos

theorem enum_inc_range (g : Game) (nm p n : Nat) (inc : Int)
    (hm : (nm, p, n) ∈ get_possible_moves g) (hi : inc ∈ incList p n) :
    inc ≠ 0 ∧ -6 ≤ inc ∧ inc ≤ 6 := by
  obtain ⟨car, _, hpn, _⟩ := mem_possible_moves g nm p n hm
  have hb := get_car_moves_le g car
  rw [hpn] at hb
  dsimp only at hb
  rw [mem_incList] at hi
  rcases hi with ⟨h1, h2⟩ | ⟨h1, h2⟩ <;> refine ⟨by omega, by omega, by omega⟩

theorem parseMove_fmtMove (nm : Nat) (inc : Int) (h1 : 1 ≤ nm) (h2 : nm ≤ 16)
    (h3 : inc ≠ 0) (h4 : -6 ≤ inc) (h5 : inc ≤ 6) :
    parseMove (fmtMove nm inc) = some (nm, inc) := by
  interval_cases nm <;> interval_cases inc <;>
    first
      | exact absurd rfl h3
      | rfl

theorem move_sequence_append (g g1 : Game) (s1 s2 : List String)
    (h : move_sequence g s1 = .ok g1) :
    move_sequence g (s1 ++ s2) = move_sequence g1 s2 := by
  induction s1 generalizing g with
  | nil =>
    unfold move_sequence at h
    injection h with h
    subst h
    rfl
  | cons m rest ih =>
    unfold move_sequence at h
    rw [List.cons_append]
    conv_lhs => unfold move_sequence
    cases hpm : parseMove m with
    | none =>
      rw [hpm] at h
      exact absurd h (by simp)
    | some mi =>
      rw [hpm] at h
      obtain ⟨nm, inc⟩ := mi
      dsimp only at h ⊢
      cases hcg : carsGet g.cars nm with
      | none =>
        rw [hcg] at h
        exact ih g h
      | some car =>
        rw [hcg] at h
        dsimp only at h ⊢
        cases hmv : move_car g car inc with
        | error e =>
          rw [hmv] at h
          exact absurd h (by simp)
        | ok g2 =>
          rw [hmv] at h
          exact ih g2 h

theorem EnumPath_snoc (g0 g1 g2 : Game) (ms : List (Nat × Int)) (mv : Nat × Int)
    (hp : EnumPath g0 ms g1) (hs : EnumStep g1 mv g2) :
    EnumPath g0 (ms ++ [mv]) g2 := by
  induction ms generalizing g0 with
  | nil =>
    unfold EnumPath at hp
    subst hp
    exact ⟨g2, hs, rfl⟩
  | cons m rest ih =>
    obtain ⟨gm, hstep, hrest⟩ := hp
    exact ⟨gm, hstep, ih gm hrest⟩

theorem step_replay (g g2 : Game) (nm : Nat) (inc : Int) (hc : Consistent g)
    (hs : EnumStep g (nm, inc) g2) :
    move_sequence g [fmtMove nm inc] = .ok g2 ∧ Consistent g2 := by
  obtain ⟨p, n, car, hpm, hinc, hget, hmv⟩ := hs
  have hrange : 1 ≤ nm ∧ nm ≤ 16 ∧ car.name = nm := by
    obtain ⟨_, hcars, _, _⟩ := hc
    have h := hcars _ (carsGet_mem _ _ _ hget)
    exact ⟨h.2.1, h.2.2.1, h.1⟩
  have hib := enum_inc_range g nm p n inc hpm hinc
  have hpf := parseMove_fmtMove nm inc hrange.1 hrange.2.1 hib.1 hib.2.1 hib.2.2
  constructor
  · unfold move_sequence
    rw [hpf]
    dsimp only
    rw [hget]
    dsimp only
    rw [hmv]
    rfl
  · exact consistent_move g car inc g2 hc (by rw [hrange.2.2]; exact hget) hmv

theorem QInv_root (g : Game) (hc : Consistent g) : QInv g ⟨g.board, [], g.cars⟩ := by
  refine ⟨hc, rfl, [], rfl, rfl⟩

theorem QInv_child (g0 : Game) (e : QEntry) (e2 : QEntry) (mv : Nat × Int) (g1 : Game)
    (hq : QInv g0 e) (hstep : EnumStep (Game.mk e.key e.cars) mv g1)
    (h1 : e2.key = g1.board) (h2 : e2.cars = g1.cars)
    (h3 : e2.moves = e.moves ++ [fmtMove mv.1 mv.2]) :
    QInv g0 e2 := by
  obtain ⟨hc, hrep, mvs, hlen, hpath⟩ := hq
  have hg1 : Game.mk e2.key e2.cars = g1 := by rw [h1, h2]
  have hsr := step_replay (Game.mk e.key e.cars) g1 mv.1 mv.2 hc hstep
  refine ⟨hg1 ▸ hsr.2, ?_, mvs ++ [mv], ?_, ?_⟩
  · rw [h3, hg1, move_sequence_append g0 (Game.mk e.key e.cars) e.moves _ hrep]
    exact hsr.1
  · rw [h3]
    simp [hlen]
  · rw [hg1]
    exact EnumPath_snoc g0 (Game.mk e.key e.cars) g1 mvs mv hpath hstep

theorem bfsLoop_found_sound (g0 : Game) (fuel : Nat) :
    ∀ visited queue nodes g mv n2 gf,
      (∀ e ∈ queue, QInv g0 e) →
      bfsLoop fuel visited queue nodes g = .ok (.found mv n2 gf) →
      Consistent gf ∧ move_sequence g0 mv = .ok gf ∧ is_solution gf ∧
        ∃ mvs, mvs.length = mv.length ∧ EnumPath g0 mvs gf := by
  induction fuel with
  | zero =>
    intro visited queue nodes g mv n2 gf _ h
    unfold bfsLoop at h
    injection h with h
    exact SearchOut.noConfusion h
  | succ fuel ih =>
    intro visited queue nodes g mv n2 gf hq h
    cases queue with
    | nil =>
      unfold bfsLoop at h
      injection h with h
      exact SearchOut.noConfusion h
    | cons e rest =>
      unfold bfsLoop at h
      dsimp only at h
      have hqe := hq e (List.mem_cons_self ..)
      split_ifs at h with hsol hvis
      · injection h with h
        injection h with ha hb hcq
        obtain ⟨hc, hrep, mvs, hlen, hpath⟩ := hqe
        subst ha
        subst hcq
        exact ⟨hc, hrep, hsol, mvs, hlen, hpath⟩
      · exact ih visited rest (nodes + 1) _ mv n2 gf
          (fun x hx => hq x (List.mem_cons_of_mem _ hx)) h
      · obtain ⟨es, hrun, hsound, _⟩ :=
          expand_spec (Game.mk e.key e.cars) e.moves hqe.1
        rw [hrun] at h
        dsimp only at h
        refine ih (e.key :: visited) (rest ++ es) (nodes + 1) _ mv n2 gf ?_ h
        intro x hx
        rcases List.mem_append.mp hx with hx1 | hx2
        · exact hq x (List.mem_cons_of_mem _ hx1)
        · obtain ⟨mv2, g1, hstep, h1, h2, h3⟩ := hsound x hx2
          exact QInv_child g0 e x mv2 g1 hqe hstep h1 h2 h3

theorem mem_heapPush (h : List AEntry) (e x : AEntry) :
    x ∈ heapPush h e ↔ x ∈ h ∨ x = e := by
  induction h with
  | nil => simp [heapPush]
  | cons a rest ih =>
    unfold heapPush
    split_ifs with hlt
    · constructor
      · intro hm
        rcases List.mem_cons.mp hm with rfl | hm2
        · exact Or.inr rfl
        · exact Or.inl hm2
      · rintro (hm | rfl)
        · exact List.mem_cons_of_mem _ hm
        · exact List.mem_cons_self ..
    · constructor
      · intro hm
        rcases List.mem_cons.mp hm with rfl | hm2
        · exact Or.inl (List.mem_cons_self ..)
        · rcases ih.mp hm2 with hm3 | rfl
          · exact Or.inl (List.mem_cons_of_mem _ hm3)
          · exact Or.inr rfl
      · rintro (hm | rfl)
        · rcases List.mem_cons.mp hm with rfl | hm2
          · exact List.mem_cons_self ..
          · exact List.mem_cons_of_mem _ (ih.mpr (Or.inl hm2))
        · exact List.mem_cons_of_mem _ (ih.mpr (Or.inr rfl))

theorem aStarExpandIncs_sound (g : Game) (nm : Nat) (car : Car) (seq : List String)
    (cost : Nat) (incs : List Int) (hc : Consistent g)
    (hmem : carsGet g.cars nm = some car)
    (hleg : ∀ inc ∈ incs, can_move_car g car inc) :
    ∀ gcosts heap, ∃ gc2 h2,
      aStarExpandIncs nm car seq cost gcosts heap g incs = .ok (gc2, h2, g) ∧
      ∀ x ∈ h2, x ∈ heap ∨ ∃ inc ∈ incs, ∃ g1, move_car g car inc = .ok g1 ∧
        x = ⟨cost + 1 + heuristic g1, cost + 1, g1.board,
             seq ++ [fmtMove nm inc], g1.cars⟩ := by
  have hname : car.name = nm := by
    obtain ⟨_, hcars, _, _⟩ := hc
    exact (hcars _ (carsGet_mem _ _ _ hmem)).1
  induction incs with
  | nil => exact fun gcosts heap => ⟨gcosts, heap, rfl, fun x hx => Or.inl hx⟩
  | cons inc rest ih =>
    intro gcosts heap
    have hleg0 := hleg inc (List.mem_cons_self ..)
    obtain ⟨g1, hmv, hback⟩ := move_car_roundtrip g car inc hc (hname ▸ hmem) hleg0
    have hget1 : carsGet g1.cars nm = some (car.move_by inc) := by
      obtain ⟨hcm1, hg1eq⟩ := move_car_ok_inv g car inc g1 hmv
      rw [hg1eq]
      dsimp only
      rw [show (car.move_by inc).name = nm from by rw [move_by_name]; exact hname]
      exact carsGet_carsSet_self _ _ _
    by_cases himp : improvesB gcosts g1.board (cost + 1) = true
    · obtain ⟨gc2, h2, hrun, hmm⟩ :=
        ih (fun i hi => hleg i (List.mem_cons_of_mem _ hi))
          (costsSet gcosts g1.board (cost + 1))
          (heapPush heap ⟨cost + 1 + heuristic g1, cost + 1, g1.board,
            seq ++ [fmtMove nm inc], g1.cars⟩)
      refine ⟨gc2, h2, ?_, ?_⟩
      · unfold aStarExpandIncs
        rw [hmv]
        dsimp only
        rw [if_pos himp, hget1]
        dsimp only
        rw [hback]
        dsimp only
        exact hrun
      · intro x hx
        rcases hmm x hx with hx1 | ⟨i2, hi2, g2, hm2, hx2⟩
        · rcases (mem_heapPush heap _ x).mp hx1 with hx3 | rfl
          · exact Or.inl hx3
          · exact Or.inr ⟨inc, List.mem_cons_self .., g1, hmv, rfl⟩
        · exact Or.inr ⟨i2, List.mem_cons_of_mem _ hi2, g2, hm2, hx2⟩
    · obtain ⟨gc2, h2, hrun, hmm⟩ :=
        ih (fun i hi => hleg i (List.mem_cons_of_mem _ hi)) gcosts heap
      refine ⟨gc2, h2, ?_, ?_⟩
      · unfold aStarExpandIncs
        rw [hmv]
        dsimp only
        rw [if_neg himp, hget1]
        dsimp only
        rw [hback]
        dsimp only
        exact hrun
      · intro x hx
        rcases hmm x hx with hx1 | ⟨i2, hi2, g2, hm2, hx2⟩
        · exact Or.inl hx1
        · exact Or.inr ⟨i2, List.mem_cons_of_mem _ hi2, g2, hm2, hx2⟩

theorem aStarExpandCars_sound (g : Game) (seq : List String) (cost : Nat)
    (pm : List (Nat × Nat × Nat)) (hc : Consistent g)
    (hpm : ∀ x ∈ pm, x ∈ get_possible_moves g) :
    ∀ gcosts heap, ∃ gc2 h2,
      aStarExpandCars seq cost gcosts heap g pm = .ok (gc2, h2, g) ∧
      ∀ x ∈ h2, x ∈ heap ∨ ∃ mv g1, EnumStep g mv g1 ∧
        x = ⟨cost + 1 + heuristic g1, cost + 1, g1.board,
             seq ++ [fmtMove mv.1 mv.2], g1.cars⟩ := by
  induction pm with
  | nil => exact fun gcosts heap => ⟨gcosts, heap, rfl, fun x hx => Or.inl hx⟩
  | cons pmx pm2 ih =>
    intro gcosts heap
    obtain ⟨nm, p, n⟩ := pmx
    have hxmem := hpm _ (List.mem_cons_self ..)
    obtain ⟨hlen, hcars2, hcover2, hnd2⟩ := hc
    obtain ⟨car, hcarm, hgcm, hpos⟩ := mem_possible_moves g nm p n hxmem
    have hget : carsGet g.cars nm = some car := carsGet_of_mem_nodup g.cars nm car hnd2 hcarm
    have hleg : ∀ inc ∈ incList p n, can_move_car g car inc := by
      intro inc hinc
      obtain ⟨car2, hget2, hcm2⟩ :=
        enum_move_legal g ⟨hlen, hcars2, hcover2, hnd2⟩ nm p n inc hxmem hinc
      rw [hget] at hget2
      injection hget2 with h
      subst h
      exact hcm2
    obtain ⟨gc1, h1, hrun1, hmm1⟩ :=
      aStarExpandIncs_sound g nm car seq cost (incList p n)
        ⟨hlen, hcars2, hcover2, hnd2⟩ hget hleg gcosts heap
    obtain ⟨gc2, h2, hrun2, hmm2⟩ := ih (fun y hy => hpm y (List.mem_cons_of_mem _ hy)) gc1 h1
    refine ⟨gc2, h2, ?_, ?_⟩
    · unfold aStarExpandCars
      rw [hget]
      dsimp only
      rw [hrun1]
      dsimp only
      exact hrun2
    · intro x hx
      rcases hmm2 x hx with hx1 | ⟨mv, g1, hstep, hx2⟩
      · rcases hmm1 x hx1 with hx3 | ⟨inc, hinc, g1, hm1, hx4⟩
        · exact Or.inl hx3
        · exact Or.inr ⟨(nm, inc), g1, ⟨p, n, car, hxmem, hinc, hget, hm1⟩, hx4⟩
      · exact Or.inr ⟨mv, g1, hstep, hx2⟩

theorem AInv_child (g0 : Game) (e : AEntry) (mv : Nat × Int) (g1 : Game)
    (hq : AInv g0 e) (hstep : EnumStep (Game.mk e.key e.cars) mv g1) :
    AInv g0 ⟨e.cost + 1 + heuristic g1, e.cost + 1, g1.board,
             e.moves ++ [fmtMove mv.1 mv.2], g1.cars⟩ := by
  obtain ⟨hc, hrep, ⟨mvs, hlen, hpath⟩, hcost, hfsc⟩ := hq
  have hsr := step_replay (Game.mk e.key e.cars) g1 mv.1 mv.2 hc hstep
  have hg1 : Game.mk g1.board g1.cars = g1 := rfl
  refine ⟨hg1 ▸ hsr.2, ?_, ⟨mvs ++ [mv], ?_, ?_⟩, ?_, ?_⟩
  · dsimp only
    rw [move_sequence_append g0 (Game.mk e.key e.cars) e.moves _ hrep, hg1]
    exact hsr.1
  · dsimp only
    simp [hlen]
  · dsimp only
    rw [hg1]
    exact EnumPath_snoc g0 (Game.mk e.key e.cars) g1 mvs mv hpath hstep
  · dsimp only
    simp [hcost]
  · rfl

theorem aStarLoop_found_sound (g0 : Game) (fuel : Nat) :
    ∀ gcosts heap nodes g mv n2 gf,
      (∀ e ∈ heap, AInv g0 e) →
      aStarLoop fuel gcosts heap nodes g = .ok (.found mv n2 gf) →
      Consistent gf ∧ move_sequence g0 mv = .ok gf ∧ is_solution gf ∧
        ∃ mvs, mvs.length = mv.length ∧ EnumPath g0 mvs gf := by
  induction fuel with
  | zero =>
    intro gcosts heap nodes g mv n2 gf _ h
    unfold aStarLoop at h
    injection h with h
    exact SearchOut.noConfusion h
  | succ fuel ih =>
    intro gcosts heap nodes g mv n2 gf hq h
    cases heap with
    | nil =>
      unfold aStarLoop at h
      injection h with h
      exact SearchOut.noConfusion h
    | cons e rest =>
      unfold aStarLoop at h
      dsimp only at h
      have hqe := hq e (List.mem_cons_self ..)
      split_ifs at h with hstale hsol
      · exact ih gcosts rest (nodes + 1) g mv n2 gf
          (fun x hx => hq x (List.mem_cons_of_mem _ hx)) h
      · injection h with h
        injection h with ha hb hcq
        obtain ⟨hc, hrep, ⟨mvs, hlen, hpath⟩, _, _⟩ := hqe
        subst ha
        subst hcq
        exact ⟨hc, hrep, hsol, mvs, hlen, hpath⟩
      · obtain ⟨gc2, h2, hrun, hmm⟩ :=
          aStarExpandCars_sound (Game.mk e.key e.cars) e.moves e.cost
            (get_possible_moves (Game.mk e.key e.cars)) hqe.1 (fun x hx => hx) gcosts rest
        rw [hrun] at h
        dsimp only at h
        refine ih gc2 h2 (nodes + 1) _ mv n2 gf ?_ h
        intro x hx
        rcases hmm x hx with hx1 | ⟨mv2, g1, hstep, hx2⟩
        · exact hq x (List.mem_cons_of_mem _ hx1)
        · rw [hx2]
          exact AInv_child g0 e mv2 g1 hqe hstep

theorem AInv_root (g : Game) (hc : Consistent g) :
    AInv g ⟨heuristic g, 0, g.board, [], g.cars⟩ := by
  refine ⟨hc, rfl, ⟨[], rfl, rfl⟩, rfl, by simp⟩

/-- C10: whenever `bfs` or `a_star` returns a move sequence, the state the
search leaves behind (carried in the `found` result) is exactly the state
obtained by replaying the returned sequence from the initial state, and
`is_solution` holds of it: the solvers end in the solved configuration, not
the initial one. -/
theorem solvers_end_solved (g : Game) (hc : Consistent g) (fuel : Nat)
    (mv : List String) (n : Nat) (gf : Game)
    (h : bfs fuel g = .ok (.found mv n gf) ∨ a_star fuel g = .ok (.found mv n gf)) :
    move_sequence g mv = .ok gf ∧ is_solution gf := by
  rcases h with h | h
  · have h2 : bfsLoop fuel [] [⟨g.board, [], g.cars⟩] 0 g = .ok (.found mv n gf) := h
    have hres := bfsLoop_found_sound g fuel [] [⟨g.board, [], g.cars⟩] 0 g mv n gf
      (fun e he => by
        rw [List.mem_singleton] at he
        subst he
        exact QInv_root g hc) h2
    exact ⟨hres.2.1, hres.2.2.1⟩
  · have h2 : aStarLoop fuel [(g.board, 0)] [⟨heuristic g, 0, g.board, [], g.cars⟩] 0 g
        = .ok (.found mv n gf) := h
    have hres := aStarLoop_found_sound g fuel [(g.board, 0)]
      [⟨heuristic g, 0, g.board, [], g.cars⟩] 0 g mv n gf
      (fun e he => by
        rw [List.mem_singleton] at he
        subst he
        exact AInv_root g hc) h2
    exact ⟨hres.2.1, hres.2.2.1⟩

theorem solvers_end_solved_witness :
    Consistent gameXA ∧
      (move_sequence gameXA ["A+2"] = .ok gameXAdone ∧ is_solution gameXAdone) :=
  ⟨by decide,
   solvers_end_solved gameXA (by decide) 20 ["A+2"] 5 gameXAdone (Or.inl (by rfl))⟩

/-- C8 counterexample: the configuration `["XH23", "AH00", "AH40"]` carries
the identity A twice; construction succeeds (so `gameDupA` is a state
reachable by the public operations — it is the state construction itself
produces), yet the consistency invariant fails: the cells `(0,0)` and
`(0,1)` hold the identity 2 while the mapped car 2 occupies `(4,0)` and
`(4,1)`. -/
theorem constructed_state_violates_invariant :
    gameFromStrings ["XH23", "AH00", "AH40"] = .ok gameDupA ∧ ¬ Consistent gameDupA := by
  constructor
  · rfl
  · decide

/-- C8 (amended): for an initial configuration whose car strings carry
pairwise distinct identities, the constructed state satisfies the mutual
consistency invariant of grid and car map, and the invariant is preserved by
every public operation: by `_move_car` on any car of the map, by
`move_sequence`, and by whole `bfs` and `a_star` runs (the state each solver
leaves behind on success satisfies it). -/
theorem consistency_invariant (l : List String) (cars : List Car) (g0 : Game)
    (hp : parseAll l = some cars) (hnd : (cars.map Car.name).Nodup)
    (hok : gameFromStrings l = .ok g0) :
    Consistent g0 ∧
    (∀ g car inc g2, Consistent g → carsGet g.cars car.name = some car →
      move_car g car inc = .ok g2 → Consistent g2) ∧
    (∀ g ms g2, Consistent g → move_sequence g ms = .ok g2 → Consistent g2) ∧
    (∀ fuel mv n gf, bfs fuel g0 = .ok (.found mv n gf) → Consistent gf) ∧
    (∀ fuel mv n gf, a_star fuel g0 = .ok (.found mv n gf) → Consistent gf) := by
  have hc0 := gameFromStrings_consistent l cars g0 hp hnd hok
  refine ⟨hc0,
    fun g car inc g2 hc hget hmv => consistent_move g car inc g2 hc hget hmv,
    fun g ms g2 hc h => consistent_move_sequence g g2 ms hc h, ?_, ?_⟩
  · intro fuel mv n gf h
    have h2 : bfsLoop fuel [] [⟨g0.board, [], g0.cars⟩] 0 g0 = .ok (.found mv n gf) := h
    exact (bfsLoop_found_sound g0 fuel [] [⟨g0.board, [], g0.cars⟩] 0 g0 mv n gf
      (fun e he => by
        rw [List.mem_singleton] at he
        subst he
        exact QInv_root g0 hc0) h2).1
  · intro fuel mv n gf h
    have h2 : aStarLoop fuel [(g0.board, 0)]
        [⟨heuristic g0, 0, g0.board, [], g0.cars⟩] 0 g0 = .ok (.found mv n gf) := h
    exact (aStarLoop_found_sound g0 fuel [(g0.board, 0)]
      [⟨heuristic g0, 0, g0.board, [], g0.cars⟩] 0 g0 mv n gf
      (fun e he => by
        rw [List.mem_singleton] at he
        subst he
        exact AInv_root g0 hc0) h2).1

theorem consistency_invariant_witness :
    parseAll ["XH23"] = some [{ name := 1, orientation := .H, start := (2, 3) }] ∧
      (([{ name := 1, orientation := .H, start := (2, 3) }] :
          List Car).map Car.name).Nodup ∧
      gameFromStrings ["XH23"] = .ok gameXH23 ∧ Consistent gameXH23 :=
  ⟨by decide, by decide, by rfl,
   (consistency_invariant ["XH23"] [{ name := 1, orientation := .H, start := (2, 3) }]
     gameXH23 (by decide) (by decide) (by rfl)).1⟩

theorem car_size_two (c : Car) : 2 ≤ c.size := by
  unfold Car.size
  split_ifs <;> omega

theorem mem_cells_H (nm : Nat) (st : Int × Int) (p : Int × Int) :
    p ∈ (Car.mk nm .H st).cells ↔
      ∃ i : Nat, i < (Car.mk nm .H st).size ∧ p = (st.1, st.2 + (i : Int)) := by
  unfold Car.cells
  rw [List.mem_map]
  constructor
  · rintro ⟨i, hi, rfl⟩
    exact ⟨i, List.mem_range.mp hi, rfl⟩
  · rintro ⟨i, hi, rfl⟩
    exact ⟨i, List.mem_range.mpr hi, rfl⟩

theorem mem_cells_V (nm : Nat) (st : Int × Int) (p : Int × Int) :
    p ∈ (Car.mk nm .V st).cells ↔
      ∃ i : Nat, i < (Car.mk nm .V st).size ∧ p = (st.1 + (i : Int), st.2) := by
  unfold Car.cells
  rw [List.mem_map]
  constructor
  · rintro ⟨i, hi, rfl⟩
    exact ⟨i, List.mem_range.mp hi, rfl⟩
  · rintro ⟨i, hi, rfl⟩
    exact ⟨i, List.mem_range.mpr hi, rfl⟩

theorem car_eq_of_cells_sub (c c2 : Car) (hn : c.name = c2.name)
    (h1 : ∀ p ∈ c.cells, p ∈ c2.cells) (h2 : ∀ p ∈ c2.cells, p ∈ c.cells) :
    c = c2 := by
  obtain ⟨nm, o, st⟩ := c
  obtain ⟨nm2, o2, st2⟩ := c2
  dsimp only at hn
  subst hn
  have h2le := car_size_two (Car.mk nm o st)
  cases o with
  | H =>
    cases o2 with
    | H =>
      have ha : (st.1, st.2 + ((0 : Nat) : Int)) ∈ (Car.mk nm .H st).cells :=
        (mem_cells_H nm st _).mpr ⟨0, by omega, rfl⟩
      have hb : (st2.1, st2.2 + ((0 : Nat) : Int)) ∈ (Car.mk nm .H st2).cells :=
        (mem_cells_H nm st2 _).mpr ⟨0, by have := car_size_two (Car.mk nm .H st2); omega, rfl⟩
      obtain ⟨i, hi, hpi⟩ := (mem_cells_H nm st2 _).mp (h1 _ ha)
      obtain ⟨j, hj, hpj⟩ := (mem_cells_H nm st _).mp (h2 _ hb)
      injection hpi with e1 e2
      injection hpj with e3 e4
      have e5 : st = st2 := by
        refine Prod.ext e1 ?_
        omega
      rw [e5]
    | V =>
      have ha : (st.1, st.2 + ((0 : Nat) : Int)) ∈ (Car.mk nm .H st).cells :=
        (mem_cells_H nm st _).mpr ⟨0, by omega, rfl⟩
      have hb : (st.1, st.2 + ((1 : Nat) : Int)) ∈ (Car.mk nm .H st).cells :=
        (mem_cells_H nm st _).mpr ⟨1, by omega, rfl⟩
      obtain ⟨i, hi, hpi⟩ := (mem_cells_V nm st2 _).mp (h1 _ ha)
      obtain ⟨j, hj, hpj⟩ := (mem_cells_V nm st2 _).mp (h1 _ hb)
      injection hpi with e1 e2
      injection hpj with e3 e4
      exfalso
      omega
  | V =>
    cases o2 with
    | H =>
      have ha : (st.1 + ((0 : Nat) : Int), st.2) ∈ (Car.mk nm .V st).cells :=
        (mem_cells_V nm st _).mpr ⟨0, by omega, rfl⟩
      have hb : (st.1 + ((1 : Nat) : Int), st.2) ∈ (Car.mk nm .V st).cells :=
        (mem_cells_V nm st _).mpr ⟨1, by omega, rfl⟩
      obtain ⟨i, hi, hpi⟩ := (mem_cells_H nm st2 _).mp (h1 _ ha)
      obtain ⟨j, hj, hpj⟩ := (mem_cells_H nm st2 _).mp (h1 _ hb)
      injection hpi with e1 e2
      injection hpj with e3 e4
      exfalso
      omega
    | V =>
      have ha : (st.1 + ((0 : Nat) : Int), st.2) ∈ (Car.mk nm .V st).cells :=
        (mem_cells_V nm st _).mpr ⟨0, by omega, rfl⟩
      have hb : (st2.1 + ((0 : Nat) : Int), st2.2) ∈ (Car.mk nm .V st2).cells :=
        (mem_cells_V nm st2 _).mpr ⟨0, by have := car_size_two (Car.mk nm .V st2); omega, rfl⟩
      obtain ⟨i, hi, hpi⟩ := (mem_cells_V nm st2 _).mp (h1 _ ha)
      obtain ⟨j, hj, hpj⟩ := (mem_cells_V nm st _).mp (h2 _ hb)
      injection hpi with e1 e2
      injection hpj with e3 e4
      have e5 : st = st2 := by
        refine Prod.ext ?_ e2
        omega
      rw [e5]

theorem board_cells_eq (g : Game) (hc : Consistent g) (e : Nat × Car) (he : e ∈ g.cars)
    (p : Int × Int) (hp : inBoardPos p) :
    getCell g.board p = e.1 ↔ p ∈ e.2.cells := by
  obtain ⟨hlen, hcars, hcover, hnd⟩ := hc
  obtain ⟨hname, hk1, hk16, hib, hmarks⟩ := hcars e he
  constructor
  · intro hval
    have hlt := inBoardPos_cellIdx_lt p hp
    have hgd : g.board.getD (cellIdx p) 0 = e.1 := by
      rw [getD_as_getCell g.board (cellIdx p) hlt, posOfIdx_cellIdx p hp]
      exact hval
    obtain ⟨e2, he2, hval2, hcell2⟩ := hcover (cellIdx p) hlt (by omega)
    rw [posOfIdx_cellIdx p hp] at hcell2
    have hkeq : e2.1 = e.1 := by omega
    have : e2.2 = e.2 := by
      refine entry_unique g.cars hnd e.1 e2.2 e.2 ?_ ?_
      · rw [← hkeq]
        exact (Prod.mk.eta (p := e2)) ▸ he2
      · exact (Prod.mk.eta (p := e)) ▸ he
    rw [← this]
    exact hcell2
  · intro hmem
    exact hmarks p hmem

theorem carsGet_some_transfer (g g2 : Game) (hc : Consistent g) (hc2 : Consistent g2)
    (hb : g.board = g2.board) (nm : Nat) (car : Car)
    (h : carsGet g.cars nm = some car) : carsGet g2.cars nm = some car := by
  have hmem := carsGet_mem _ _ _ h
  obtain ⟨hlen, hcars, hcover, hnd⟩ := hc
  obtain ⟨hname, hk1, hk16, hib, hmarks⟩ := hcars _ hmem
  obtain ⟨hlen2, hcars2, hcover2, hnd2⟩ := hc2
  have hszpos : 0 < car.size := by
    have := car_size_two car
    omega
  obtain ⟨p0, hp0⟩ : ∃ p, p ∈ car.cells :=
    ⟨_, List.mem_map.mpr ⟨0, List.mem_range.mpr hszpos, rfl⟩⟩
  have hp0b : inBoardPos p0 := cells_in_board car hib p0 hp0
  have hval0 : getCell g2.board p0 = nm := by
    rw [← hb]
    exact hmarks p0 hp0
  have hlt := inBoardPos_cellIdx_lt p0 hp0b
  have hgd : g2.board.getD (cellIdx p0) 0 = nm := by
    rw [getD_as_getCell g2.board (cellIdx p0) hlt, posOfIdx_cellIdx p0 hp0b]
    exact hval0
  obtain ⟨e2, he2, hval2, hcell2⟩ := hcover2 (cellIdx p0) hlt (by omega)
  have hk2 : e2.1 = nm := by omega
  obtain ⟨hname2, _, _, hib2, hmarks2⟩ := hcars2 e2 he2
  have hcaeq : car = e2.2 := by
    refine car_eq_of_cells_sub car e2.2 (by rw [hname, hname2, hk2]) ?_ ?_
    · intro p hp
      have hpb : inBoardPos p := cells_in_board car hib p hp
      have hv : getCell g2.board p = e2.1 := by
        rw [← hb, hk2]
        exact hmarks p hp
      exact (board_cells_eq g2 ⟨hlen2, hcars2, hcover2, hnd2⟩ e2 he2 p hpb).mp hv
    · intro p hp
      have hpb : inBoardPos p := cells_in_board e2.2 hib2 p hp
      have hv : getCell g.board p = nm := by
        rw [hb, ← hk2]
        exact hmarks2 p hp
      exact (board_cells_eq g ⟨hlen, hcars, hcover, hnd⟩ (nm, car) hmem p hpb).mp hv
  have hmem2 : (nm, car) ∈ g2.cars := by
    rw [hcaeq, ← hk2]
    exact (Prod.mk.eta (p := e2)) ▸ he2
  exact carsGet_of_mem_nodup g2.cars nm car hnd2 hmem2

theorem carsGet_board_det (g g2 : Game) (hc : Consistent g) (hc2 : Consistent g2)
    (hb : g.board = g2.board) (nm : Nat) :
    carsGet g.cars nm = carsGet g2.cars nm := by
  cases h1 : carsGet g.cars nm with
  | some car => exact (carsGet_some_transfer g g2 hc hc2 hb nm car h1).symm
  | none =>
    cases h2 : carsGet g2.cars nm with
    | none => rfl
    | some car =>
      have := carsGet_some_transfer g2 g hc2 hc hb.symm nm car h2
      rw [this] at h1
      exact absurd h1 (by simp)

theorem obstacles_board_det (g g2 : Game) (hc : Consistent g) (hc2 : Consistent g2)
    (hb : g.board = g2.board) :
    obstacles_before_exit g = obstacles_before_exit g2 := by
  unfold obstacles_before_exit
  rw [carsGet_board_det g g2 hc hc2 hb 1, hb]

theorem is_solution_board_det (g g2 : Game) (hc : Consistent g) (hc2 : Consistent g2)
    (hb : g.board = g2.board) : is_solution g ↔ is_solution g2 := by
  unfold is_solution
  rw [obstacles_board_det g g2 hc hc2 hb]

theorem get_car_moves_board_det (g g2 : Game) (hb : g.board = g2.board) (car : Car) :
    get_car_moves g car = get_car_moves g2 car := by
  unfold get_car_moves
  rw [hb]

theorem possible_moves_intro (g : Game) (nm : Nat) (p n : Nat) (car : Car)
    (hmem : (nm, car) ∈ g.cars) (hgcm : get_car_moves g car = (p, n))
    (hpos : 0 < p ∨ 0 < n) :
    (nm, p, n) ∈ get_possible_moves g := by
  unfold get_possible_moves
  refine List.mem_filterMap.mpr ⟨(nm, car), hmem, ?_⟩
  dsimp only
  rw [hgcm]
  dsimp only
  rw [if_pos hpos]

theorem can_move_board_det (g g2 : Game) (hb : g.board = g2.board) (car : Car)
    (inc : Int) (h : can_move_car g car inc) : can_move_car g2 car inc := by
  unfold can_move_car at h ⊢
  rw [← hb]
  exact h

theorem EnumStep_transfer (g g2 s2 : Game) (mv : Nat × Int) (hc : Consistent g)
    (hc2 : Consistent g2) (hb : g.board = g2.board) (hstep : EnumStep g mv s2) :
    ∃ s3, EnumStep g2 mv s3 ∧ s3.board = s2.board ∧ Consistent s3 := by
  obtain ⟨p, n, car, hpm, hinc, hget, hmv⟩ := hstep
  have hget2 := carsGet_some_transfer g g2 hc hc2 hb mv.1 car hget
  obtain ⟨car0, hm0, hg0, hp0⟩ := mem_possible_moves g mv.1 p n hpm
  have hcar0 : car0 = car := by
    have := carsGet_of_mem_nodup g.cars mv.1 car0 hc.2.2.2 hm0
    rw [hget] at this
    injection this with h
    exact h.symm
  rw [hcar0] at hm0 hg0
  have hpm2 : (mv.1, p, n) ∈ get_possible_moves g2 :=
    possible_moves_intro g2 mv.1 p n car (carsGet_mem _ _ _ hget2)
      (by rw [← get_car_moves_board_det g g2 hb]; exact hg0) hp0
  obtain ⟨hcm, hs2⟩ := move_car_ok_inv g car mv.2 s2 hmv
  have hcm2 := can_move_board_det g g2 hb car mv.2 hcm
  have hmv2 := move_car_ok_of_can g2 car mv.2 hcm2
  have hname : car.name = mv.1 := (hc.2.1 _ (carsGet_mem _ _ _ hget)).1
  refine ⟨_, ⟨p, n, car, hpm2, hinc, hget2, hmv2⟩, ?_, ?_⟩
  · rw [hs2]
    dsimp only
    rw [hb]
  · exact consistent_move g2 car mv.2 _ hc2 (by rw [hname]; exact hget2) hmv2

theorem EnumStep_consistent (g s2 : Game) (mv : Nat × Int) (hc : Consistent g)
    (hstep : EnumStep g mv s2) : Consistent s2 := by
  obtain ⟨p, n, car, hpm, hinc, hget, hmv⟩ := hstep
  have hname : car.name = mv.1 := (hc.2.1 _ (carsGet_mem _ _ _ hget)).1
  exact consistent_move g car mv.2 s2 hc (by rw [hname]; exact hget) hmv

theorem EnumPath_consistent (g s : Game) (mvs : List (Nat × Int)) (hc : Consistent g)
    (hp : EnumPath g mvs s) : Consistent s := by
  induction mvs generalizing g with
  | nil =>
    unfold EnumPath at hp
    subst hp
    exact hc
  | cons mv rest ih =>
    obtain ⟨g1, hstep, hrest⟩ := hp
    exact ih g1 (EnumStep_consistent g g1 mv hc hstep) hrest

theorem EnumPath_transfer (tl : List (Nat × Int)) :
    ∀ s t s2, Consistent s → Consistent t → s.board = t.board →
      EnumPath s tl s2 → ∃ s3, EnumPath t tl s3 ∧ s3.board = s2.board := by
  induction tl with
  | nil =>
    intro s t s2 _ _ hb hp
    unfold EnumPath at hp
    subst hp
    exact ⟨t, rfl, hb.symm⟩
  | cons mv rest ih =>
    intro s t s2 hcs hct hb hp
    obtain ⟨s1, hstep, hrest⟩ := hp
    obtain ⟨t1, hstep2, hb1, hct1⟩ := EnumStep_transfer s t s1 mv hcs hct hb hstep
    obtain ⟨s3, hp3, hb3⟩ := ih s1 t1 s2 (EnumStep_consistent s s1 mv hcs hstep) hct1
      hb1.symm hrest
    exact ⟨s3, ⟨t1, hstep2, hp3⟩, hb3⟩

theorem exists_DistB (g0 : Game) (b : Board)
    (h : ∃ s mvs, EnumPath g0 mvs s ∧ s.board = b) : ∃ d, DistB g0 b d := by
  obtain ⟨s, mvs, hp, hb⟩ := h
  have hne : {j : Nat | ∃ s mvs, (mvs : List (Nat × Int)).length = j ∧
      EnumPath g0 mvs s ∧ s.board = b}.Nonempty := ⟨mvs.length, s, mvs, rfl, hp, hb⟩
  refine ⟨sInf {j : Nat | ∃ s mvs, (mvs : List (Nat × Int)).length = j ∧
      EnumPath g0 mvs s ∧ s.board = b}, Nat.sInf_mem hne, ?_⟩
  intro j s2 mvs2 hlen hp2 hb2
  exact Nat.sInf_le ⟨s2, mvs2, hlen, hp2, hb2⟩

theorem DistB_le_of_path (g0 : Game) (b : Board) (d : Nat) (hd : DistB g0 b d)
    (s : Game) (mvs : List (Nat × Int)) (hp : EnumPath g0 mvs s) (hb : s.board = b) :
    d ≤ mvs.length :=
  hd.2 mvs.length s mvs rfl hp hb

theorem DistB_succ (g0 : Game) (hc0 : Consistent g0) (b : Board) (d : Nat)
    (hd : DistB g0 b d) (sv : Game) (hcv : Consistent sv) (hbv : sv.board = b)
    (mv : Nat × Int) (s1 : Game) (hstep : EnumStep sv mv s1)
    (d1 : Nat) (hd1 : DistB g0 s1.board d1) : d1 ≤ d + 1 := by
  obtain ⟨⟨s, mvs, hlen, hp, hb⟩, _⟩ := hd
  have hcs : Consistent s := EnumPath_consistent g0 s mvs hc0 hp
  obtain ⟨s2, hstep2, hb2, _⟩ :=
    EnumStep_transfer sv s s1 mv hcv hcs (by rw [hbv, hb]) hstep
  have hp2 : EnumPath g0 (mvs ++ [mv]) s2 := EnumPath_snoc g0 s s2 mvs mv hp hstep2
  have := DistB_le_of_path g0 s1.board d1 hd1 s2 (mvs ++ [mv]) hp2 hb2
  simpa [hlen] using this

theorem valid_board_of_consistent (s : Game) (hc : Consistent s) :
    s.board.length = 36 ∧ ∀ i, i < 36 → s.board.getD i 0 < 17 := by
  obtain ⟨hlen, hcars, hcover, hnd⟩ := hc
  refine ⟨hlen, ?_⟩
  intro i hi
  by_cases h0 : s.board.getD i 0 = 0
  · omega
  · obtain ⟨e, he, hval, _⟩ := hcover i hi h0
    have := (hcars e he).2.2.1
    omega

theorem encB_lt (b : Board) (h : ∀ x ∈ b, x < 17) : encB b < 17 ^ b.length := by
  induction b with
  | nil => simp [encB]
  | cons d t ih =>
    have hd : d < 17 := h d (List.mem_cons_self ..)
    have ht := ih (fun x hx => h x (List.mem_cons_of_mem _ hx))
    unfold encB at ht ⊢
    rw [List.foldr_cons, List.length_cons, pow_succ]
    omega

theorem encB_inj (b1 : Board) :
    ∀ b2, b1.length = b2.length → (∀ x ∈ b1, x < 17) → (∀ x ∈ b2, x < 17) →
      encB b1 = encB b2 → b1 = b2 := by
  induction b1 with
  | nil =>
    intro b2 hlen _ _ _
    cases b2 with
    | nil => rfl
    | cons d t => exact absurd hlen (by simp)
  | cons d t ih =>
    intro b2 hlen h1 h2 henc
    cases b2 with
    | nil => exact absurd hlen (by simp)
    | cons d2 t2 =>
      have hd : d < 17 := h1 d (List.mem_cons_self ..)
      have hd2 : d2 < 17 := h2 d2 (List.mem_cons_self ..)
      unfold encB at henc
      rw [List.foldr_cons, List.foldr_cons] at henc
      have hde : d = d2 := by omega
      have hte : t.foldr (fun d acc => d + 17 * acc) 0 = t2.foldr (fun d acc => d + 17 * acc) 0 := by
        omega
      have := ih t2 (by simpa using hlen) (fun x hx => h1 x (List.mem_cons_of_mem _ hx))
        (fun x hx => h2 x (List.mem_cons_of_mem _ hx)) hte
      rw [hde, this]

theorem getD_lt_of_forall (b : Board) (h36 : b.length = 36)
    (h : ∀ i, i < 36 → b.getD i 0 < 17) : ∀ x ∈ b, x < 17 := by
  intro x hx
  obtain ⟨i, hi, hxi⟩ := List.mem_iff_getElem.mp hx
  have := h i (by omega)
  rw [List.getD_eq_getElem?_getD, List.getElem?_eq_getElem (by omega : i < b.length)] at this
  simpa [hxi] using this

theorem visited_length_le (visited : List Board) (hnd : visited.Nodup)
    (hv : ∀ b ∈ visited, b.length = 36 ∧ ∀ i, i < 36 → b.getD i 0 < 17) :
    visited.length ≤ 17 ^ 36 := by
  have hmapnd : (visited.map encB).Nodup := by
    refine List.Nodup.map_on ?_ hnd
    intro x hx y hy hxy
    obtain ⟨hx36, hxe⟩ := hv x hx
    obtain ⟨hy36, hye⟩ := hv y hy
    exact encB_inj x y (by omega) (getD_lt_of_forall x hx36 hxe)
      (getD_lt_of_forall y hy36 hye) hxy
  have hlt : ∀ n ∈ visited.map encB, n < 17 ^ 36 := by
    intro n hn
    obtain ⟨b, hb, rfl⟩ := List.mem_map.mp hn
    obtain ⟨hb36, hbe⟩ := hv b hb
    have := encB_lt b (getD_lt_of_forall b hb36 hbe)
    rw [hb36] at this
    exact this
  have hsub : (visited.map encB).toFinset ⊆ Finset.range (17 ^ 36) := by
    intro n hn
    rw [List.mem_toFinset] at hn
    exact Finset.mem_range.mpr (hlt n hn)
  have hcard := Finset.card_le_card hsub
  rw [List.toFinset_card_of_nodup hmapnd, Finset.card_range] at hcard
  simpa using hcard

theorem bfs_walk (g0 : Game) (hc0 : Consistent g0) (visited : List Board)
    (e : QEntry) (rest : List QEntry)
    (hQI : ∀ x ∈ e :: rest, QInv g0 x)
    (hVR : ∀ b ∈ visited, ∃ s mvs, EnumPath g0 mvs s ∧ s.board = b)
    (hVC : ∀ b ∈ visited, ∀ d, DistB g0 b d →
      ∀ s, Consistent s → s.board = b → ∀ mv s1, EnumStep s mv s1 →
        s1.board ∈ visited ∨ ∃ e2 ∈ e :: rest, e2.key = s1.board ∧
          e2.moves.length ≤ d + 1)
    (hekey : e.key ∈ visited) :
    ∀ tl sv s2, Consistent sv → sv.board ∈ visited → EnumPath sv tl s2 →
      ∀ c, (∀ d, DistB g0 sv.board d → d ≤ c) →
      s2.board ∈ visited ∨ ∃ e2 ∈ rest, ∃ tl2 s3,
        EnumPath (Game.mk e2.key e2.cars) tl2 s3 ∧ s3.board = s2.board ∧
        e2.moves.length + tl2.length ≤ c + tl.length := by
  intro tl
  induction tl with
  | nil =>
    intro sv s2 hcv hbv hp c hcb
    unfold EnumPath at hp
    subst hp
    exact Or.inl hbv
  | cons mv tl2 ih =>
    intro sv s2 hcv hbv hp c hcb
    obtain ⟨s1, hstep, hrest⟩ := hp
    obtain ⟨d, hd⟩ := exists_DistB g0 sv.board (hVR _ hbv)
    have hdc : d ≤ c := hcb d hd
    have hcs1 : Consistent s1 := EnumStep_consistent sv s1 mv hcv hstep
    have hd1b : ∀ d1, DistB g0 s1.board d1 → d1 ≤ c + 1 := by
      intro d1 hd1
      have := DistB_succ g0 hc0 sv.board d hd sv hcv rfl mv s1 hstep d1 hd1
      omega
    have hmain : s1.board ∈ visited ∨
        ∃ e2 ∈ rest, e2.key = s1.board ∧ e2.moves.length ≤ d + 1 := by
      rcases hVC sv.board hbv d hd sv hcv rfl mv s1 hstep with h1 | ⟨e2, he2, hk, hl⟩
      · exact Or.inl h1
      · rcases List.mem_cons.mp he2 with rfl | he2r
        · left
          rw [← hk]
          exact hekey
        · exact Or.inr ⟨e2, he2r, hk, hl⟩
    rcases hmain with h1 | ⟨e2, he2r, hk, hl⟩
    · rcases ih s1 s2 hcs1 h1 hrest (c + 1) hd1b with h2 | ⟨e3, he3, tl3, s3, hp3, hb3, hl3⟩
      · exact Or.inl h2
      · refine Or.inr ⟨e3, he3, tl3, s3, hp3, hb3, ?_⟩
        simp only [List.length_cons] at *
        omega
    · have hq2 := hQI e2 (List.mem_cons_of_mem _ he2r)
      obtain ⟨s3, hp3, hb3⟩ := EnumPath_transfer tl2 s1 (Game.mk e2.key e2.cars) s2
        hcs1 hq2.1 hk.symm hrest
      refine Or.inr ⟨e2, he2r, tl2, s3, hp3, hb3, ?_⟩
      simp only [List.length_cons]
      omega

theorem BfsInv_skip (g0 : Game) (hc0 : Consistent g0) (visited : List Board)
    (e : QEntry) (rest : List QEntry) (hInv : BfsInv g0 visited (e :: rest))
    (hekey : e.key ∈ visited) : BfsInv g0 visited rest := by
  obtain ⟨hQI, hSORT, hSPREAD, hVNS, hVR, hVC, hFR, hND, hVB⟩ := hInv
  refine ⟨fun x hx => hQI x (List.mem_cons_of_mem _ hx), hSORT.of_cons,
    fun a ha b hb => hSPREAD a (List.mem_cons_of_mem _ ha) b (List.mem_cons_of_mem _ hb),
    hVNS, hVR, ?_, ?_, hND, hVB⟩
  · intro b hb d hd s hcs hsb mv s1 hstep
    rcases hVC b hb d hd s hcs hsb mv s1 hstep with h1 | ⟨e2, he2, hk, hl⟩
    · exact Or.inl h1
    · rcases List.mem_cons.mp he2 with rfl | he2r
      · left
        rw [← hk]
        exact hekey
      · exact Or.inr ⟨e2, he2r, hk, hl⟩
  · intro s mvs hp
    rcases hFR s mvs hp with h1 | ⟨e2, he2, tl, s2, hptl, hb2, hlen⟩
    · exact Or.inl h1
    · rcases List.mem_cons.mp he2 with rfl | he2r
      · have hwc : ∀ d, DistB g0 (Game.mk e2.key e2.cars).board d →
            d ≤ e2.moves.length := by
          intro d hd
          obtain ⟨hcq, hrep, mvsq, hlenq, hpathq⟩ := hQI e2 (List.mem_cons_self ..)
          have := DistB_le_of_path g0 _ d hd (Game.mk e2.key e2.cars) mvsq hpathq rfl
          omega
        rcases bfs_walk g0 hc0 visited e2 rest hQI hVR hVC hekey tl
            (Game.mk e2.key e2.cars) s2 (hQI e2 (List.mem_cons_self ..)).1 hekey hptl
            e2.moves.length hwc with h2 | ⟨e3, he3, tl3, s3, hp3, hb3, hl3⟩
        · left
          rw [← hb2]
          exact h2
        · refine Or.inr ⟨e3, he3, tl3, s3, hp3, by rw [hb3, hb2], by omega⟩
      · exact Or.inr ⟨e2, he2r, tl, s2, hptl, hb2, hlen⟩

theorem BfsInv_init (g0 : Game) (hc0 : Consistent g0) :
    BfsInv g0 [] [⟨g0.board, [], g0.cars⟩] := by
  refine ⟨?_, ?_, ?_, by simp, by simp, by simp, ?_, List.nodup_nil, by simp⟩
  · intro e he
    rw [List.mem_singleton] at he
    subst he
    exact QInv_root g0 hc0
  · simp
  · intro e he e2 he2
    rw [List.mem_singleton] at he he2
    subst he
    subst he2
    omega
  · intro s mvs hp
    refine Or.inr ⟨⟨g0.board, [], g0.cars⟩, List.mem_singleton_self _, mvs, s, hp, rfl, ?_⟩
    simp

theorem BfsInv_expand (g0 : Game) (hc0 : Consistent g0) (visited : List Board)
    (e : QEntry) (rest : List QEntry) (es : List QEntry)
    (hInv : BfsInv g0 visited (e :: rest))
    (hsol : ¬ is_solution (Game.mk e.key e.cars))
    (hnv : e.key ∉ visited)
    (hsound : ∀ x ∈ es, ∃ mv g1, EnumStep (Game.mk e.key e.cars) mv g1 ∧
      x.key = g1.board ∧ x.cars = g1.cars ∧ x.moves = e.moves ++ [fmtMove mv.1 mv.2])
    (hcompl : ∀ mv g1, EnumStep (Game.mk e.key e.cars) mv g1 → ∃ x ∈ es,
      x.key = g1.board ∧ x.cars = g1.cars ∧ x.moves = e.moves ++ [fmtMove mv.1 mv.2]) :
    BfsInv g0 (e.key :: visited) (rest ++ es) := by
  obtain ⟨hQI, hSORT, hSPREAD, hVNS, hVR, hVC, hFR, hND, hVB⟩ := hInv
  have hqe := hQI e (List.mem_cons_self ..)
  have heslen : ∀ x ∈ es, x.moves.length = e.moves.length + 1 := by
    intro x hx
    obtain ⟨mv, g1, _, _, _, hm⟩ := hsound x hx
    rw [hm]
    simp
  have hheadle : ∀ x ∈ rest, e.moves.length ≤ x.moves.length :=
    (List.pairwise_cons.mp hSORT).1
  have hOPT : ∀ d, DistB g0 e.key d → e.moves.length ≤ d := by
    intro d hd
    obtain ⟨⟨s, mvs, hlen, hp, hb⟩, _⟩ := hd
    rcases hFR s mvs hp with h1 | ⟨e2, he2, tl, s2, hptl, hb2, hl⟩
    · rw [hb] at h1
      exact absurd h1 hnv
    · have hle : e.moves.length ≤ e2.moves.length := by
        rcases List.mem_cons.mp he2 with rfl | h
        · exact le_refl _
        · exact hheadle e2 h
      omega
  refine ⟨?_, ?_, ?_, ?_, ?_, ?_, ?_, List.nodup_cons.mpr ⟨hnv, hND⟩, ?_⟩
  · intro x hx
    rcases List.mem_append.mp hx with hx1 | hx2
    · exact hQI x (List.mem_cons_of_mem _ hx1)
    · obtain ⟨mv, g1, hstep, h1, h2, h3⟩ := hsound x hx2
      exact QInv_child g0 e x mv g1 hqe hstep h1 h2 h3
  · rw [List.pairwise_append]
    refine ⟨hSORT.of_cons, ?_, ?_⟩
    · refine List.pairwise_of_forall_mem_list ?_
      intro a ha b hb
      rw [heslen a ha, heslen b hb]
    · intro a ha b hb
      have h1 := hSPREAD a (List.mem_cons_of_mem _ ha) e (List.mem_cons_self ..)
      rw [heslen b hb]
      omega
  · intro a ha b hb
    rcases List.mem_append.mp ha with ha1 | ha2 <;>
      rcases List.mem_append.mp hb with hb1 | hb2
    · exact hSPREAD a (List.mem_cons_of_mem _ ha1) b (List.mem_cons_of_mem _ hb1)
    · have h1 := hSPREAD a (List.mem_cons_of_mem _ ha1) e (List.mem_cons_self ..)
      rw [heslen b hb2]
      omega
    · have h1 := hheadle b hb1
      rw [heslen a ha2]
      omega
    · rw [heslen a ha2, heslen b hb2]
      omega
  · intro b hb s hcs hsb
    rcases List.mem_cons.mp hb with rfl | hb2
    · intro hsols
      exact hsol ((is_solution_board_det s (Game.mk e.key e.cars) hcs hqe.1 hsb).mp hsols)
    · exact hVNS b hb2 s hcs hsb
  · intro b hb
    rcases List.mem_cons.mp hb with rfl | hb2
    · obtain ⟨hcq, hrep, mvsq, hlenq, hpathq⟩ := hqe
      exact ⟨Game.mk e.key e.cars, mvsq, hpathq, rfl⟩
    · exact hVR b hb2
  · intro b hb d hd s hcs hsb mv s1 hstep
    rcases List.mem_cons.mp hb with rfl | hb2
    · obtain ⟨s1t, hstept, hb1t, _⟩ :=
        EnumStep_transfer s (Game.mk e.key e.cars) s1 mv hcs hqe.1 hsb hstep
      obtain ⟨x, hx, hk, hcx, hmx⟩ := hcompl mv s1t hstept
      refine Or.inr ⟨x, List.mem_append.mpr (Or.inr hx), by rw [hk, hb1t], ?_⟩
      rw [heslen x hx]
      have := hOPT d hd
      omega
    · rcases hVC b hb2 d hd s hcs hsb mv s1 hstep with h1 | ⟨e2, he2, hk, hl⟩
      · exact Or.inl (List.mem_cons_of_mem _ h1)
      · rcases List.mem_cons.mp he2 with rfl | he2r
        · left
          rw [← hk]
          exact List.mem_cons_self ..
        · exact Or.inr ⟨e2, List.mem_append.mpr (Or.inl he2r), hk, hl⟩
  · intro s mvs hp
    rcases hFR s mvs hp with h1 | ⟨e2, he2, tl, s2, hptl, hb2, hlen⟩
    · exact Or.inl (List.mem_cons_of_mem _ h1)
    · rcases List.mem_cons.mp he2 with rfl | he2r
      · cases tl with
        | nil =>
          left
          unfold EnumPath at hptl
          subst hptl
          rw [← hb2]
          exact List.mem_cons_self ..
        | cons mv tl2 =>
          obtain ⟨s1, hstep, htl2⟩ := hptl
          obtain ⟨x, hx, hk, hcx, hmx⟩ := hcompl mv s1 hstep
          have hxs : Game.mk x.key x.cars = s1 := by
            rw [hk, hcx]
          refine Or.inr ⟨x, List.mem_append.mpr (Or.inr hx), tl2, s2, ?_, hb2, ?_⟩
          · rw [hxs]
            exact htl2
          · rw [heslen x hx]
            simp only [List.length_cons] at hlen
            omega
      · exact Or.inr ⟨e2, List.mem_append.mpr (Or.inl he2r), tl, s2, hptl, hb2, hlen⟩
  · intro b hb
    rcases List.mem_cons.mp hb with rfl | hb2
    · exact valid_board_of_consistent (Game.mk e.key e.cars) hqe.1
    · exact hVB b hb2

theorem bfsLoop_minimal (g0 : Game) (hc0 : Consistent g0) (k : Nat)
    (hsolv : SolvableIn g0 k) (hmin : ∀ j, SolvableIn g0 j → k ≤ j) (fuel : Nat) :
    ∀ visited queue nodes g mv n2 gf,
      BfsInv g0 visited queue →
      bfsLoop fuel visited queue nodes g = .ok (.found mv n2 gf) →
      mv.length = k := by
  induction fuel with
  | zero =>
    intro visited queue nodes g mv n2 gf _ h
    unfold bfsLoop at h
    injection h with h
    exact SearchOut.noConfusion h
  | succ fuel ih =>
    intro visited queue nodes g mv n2 gf hInv h
    cases queue with
    | nil =>
      unfold bfsLoop at h
      injection h with h
      exact SearchOut.noConfusion h
    | cons e rest =>
      unfold bfsLoop at h
      dsimp only at h
      split_ifs at h with hsol hvis
      · injection h with h
        injection h with ha hb hc2
        subst ha
        obtain ⟨hcq, hrep, mvsq, hlenq, hpathq⟩ := hInv.1 e (List.mem_cons_self ..)
        have hge : k ≤ e.moves.length :=
          hmin e.moves.length ⟨mvsq, Game.mk e.key e.cars, hlenq, hpathq, hsol⟩
        obtain ⟨mvso, so, hleno, hpo, hsolo⟩ := hsolv
        have hVNS := hInv.2.2.2.1
        have hFR := hInv.2.2.2.2.2.2.1
        rcases hFR so mvso hpo with h1 | ⟨e2, he2, tl, s2, hptl, hb2, hlb⟩
        · exact absurd hsolo
            (hVNS so.board h1 so (EnumPath_consistent g0 so mvso hc0 hpo) rfl)
        · have hhead : e.moves.length ≤ e2.moves.length := by
            rcases List.mem_cons.mp he2 with rfl | h2
            · exact le_refl _
            · exact (List.pairwise_cons.mp hInv.2.1).1 e2 h2
          omega
      · exact ih visited rest (nodes + 1) _ mv n2 gf
          (BfsInv_skip g0 hc0 visited e rest hInv hvis) h
      · obtain ⟨es, hrunX, hsound, hcompl⟩ :=
          expand_spec (Game.mk e.key e.cars) e.moves (hInv.1 e (List.mem_cons_self ..)).1
        rw [hrunX] at h
        dsimp only at h
        exact ih (e.key :: visited) (rest ++ es) (nodes + 1) _ mv n2 gf
          (BfsInv_expand g0 hc0 visited e rest es hInv hsol hvis hsound hcompl) h

theorem bfsLoop_finds (g0 : Game) (hc0 : Consistent g0) (k : Nat)
    (hsolv : SolvableIn g0 k) :
    ∀ va : Nat, ∀ visited : List Board, 17 ^ 36 + 1 - visited.length = va →
    ∀ qn : Nat, ∀ queue : List QEntry, queue.length = qn →
    ∀ nodes g, BfsInv g0 visited queue →
    ∃ fuel mv n2 gf, bfsLoop fuel visited queue nodes g = .ok (.found mv n2 gf) := by
  intro va
  induction va using Nat.strong_induction_on with
  | _ va iha =>
    intro visited hva qn
    induction qn using Nat.strong_induction_on with
    | _ qn ihb =>
      intro queue hqn nodes g hInv
      cases queue with
      | nil =>
        exfalso
        obtain ⟨mvso, so, hleno, hpo, hsolo⟩ := hsolv
        have hVNS := hInv.2.2.2.1
        have hFR := hInv.2.2.2.2.2.2.1
        rcases hFR so mvso hpo with h1 | ⟨e2, he2, _⟩
        · exact (hVNS so.board h1 so (EnumPath_consistent g0 so mvso hc0 hpo) rfl) hsolo
        · exact absurd he2 (List.not_mem_nil e2)
      | cons e rest =>
        by_cases hsol : is_solution (Game.mk e.key e.cars)
        · refine ⟨1, e.moves, nodes + 1, Game.mk e.key e.cars, ?_⟩
          unfold bfsLoop
          dsimp only
          rw [if_pos hsol]
        · by_cases hvis : e.key ∈ visited
          · have hInv2 := BfsInv_skip g0 hc0 visited e rest hInv hvis
            obtain ⟨fuel, mv, n2, gf, hrun⟩ := ihb rest.length
              (by rw [← hqn]; simp) rest rfl (nodes + 1) (Game.mk e.key e.cars) hInv2
            refine ⟨fuel + 1, mv, n2, gf, ?_⟩
            unfold bfsLoop
            dsimp only
            rw [if_neg hsol, if_pos hvis]
            exact hrun
          · have hqe := hInv.1 e (List.mem_cons_self ..)
            obtain ⟨es, hrunX, hsound, hcompl⟩ :=
              expand_spec (Game.mk e.key e.cars) e.moves hqe.1
            have hInv2 := BfsInv_expand g0 hc0 visited e rest es hInv hsol hvis hsound hcompl
            have hvb := visited_length_le visited hInv.2.2.2.2.2.2.2.1
              hInv.2.2.2.2.2.2.2.2
            have hlt : 17 ^ 36 + 1 - (e.key :: visited).length < va := by
              simp only [List.length_cons]
              omega
            obtain ⟨fuel, mv, n2, gf, hrun⟩ := iha _ hlt (e.key :: visited) rfl
              (rest ++ es).length (rest ++ es) rfl (nodes + 1) (Game.mk e.key e.cars) hInv2
            refine ⟨fuel + 1, mv, n2, gf, ?_⟩
            unfold bfsLoop
            dsimp only
            rw [if_neg hsol, if_neg hvis, hrunX]
            dsimp only
            exact hrun

/-- C1: for a valid (pairwise-distinct identities, successfully constructed)
solvable initial configuration, `bfs` terminates for sufficient fuel with a
move sequence that replays from the initial state to a solved state, and
whose length equals the minimum number of enumerated single-car slide moves
(each distinct increment one move) reaching any solved state. -/
theorem bfs_optimal (l : List String) (cars : List Car) (g0 : Game)
    (hp : parseAll l = some cars) (hnd : (cars.map Car.name).Nodup)
    (hok : gameFromStrings l = .ok g0)
    (k : Nat) (hsolv : SolvableIn g0 k) (hmin : ∀ j, SolvableIn g0 j → k ≤ j) :
    (∃ fuel mv n gf, bfs fuel g0 = .ok (.found mv n gf)) ∧
    (∀ fuel mv n gf, bfs fuel g0 = .ok (.found mv n gf) →
      move_sequence g0 mv = .ok gf ∧ is_solution gf ∧ mv.length = k) := by
  have hc0 := gameFromStrings_consistent l cars g0 hp hnd hok
  constructor
  · obtain ⟨fuel, mv, n2, gf, h⟩ := bfsLoop_finds g0 hc0 k hsolv _ [] rfl _
      [⟨g0.board, [], g0.cars⟩] rfl 0 g0 (BfsInv_init g0 hc0)
    exact ⟨fuel, mv, n2, gf, h⟩
  · intro fuel mv n gf h
    have h2 : bfsLoop fuel [] [⟨g0.board, [], g0.cars⟩] 0 g0 = .ok (.found mv n gf) := h
    have hs := bfsLoop_found_sound g0 fuel [] [⟨g0.board, [], g0.cars⟩] 0 g0 mv n gf
      (fun x hx => by
        rw [List.mem_singleton] at hx
        subst hx
        exact QInv_root g0 hc0) h2
    have hlen := bfsLoop_minimal g0 hc0 k hsolv hmin fuel [] [⟨g0.board, [], g0.cars⟩]
      0 g0 mv n gf (BfsInv_init g0 hc0) h2
    exact ⟨hs.2.1, hs.2.2.1, hlen⟩

theorem bfs_optimal_witness :
    SolvableIn gameXA 1 ∧
      (move_sequence gameXA ["A+2"] = .ok gameXAdone ∧ is_solution gameXAdone ∧
        (["A+2"] : List String).length = 1) := by
  have hstep : EnumStep gameXA (2, 2) gameXAdone :=
    ⟨3, 1, { name := 2, orientation := .V, start := (1, 4) }, by decide, by decide,
     by rfl, by rfl⟩
  have hsolv : SolvableIn gameXA 1 :=
    ⟨[(2, 2)], gameXAdone, rfl, ⟨gameXAdone, hstep, rfl⟩, by decide⟩
  have hmin : ∀ j, SolvableIn gameXA j → 1 ≤ j := by
    intro j hj
    by_contra hlt
    push_neg at hlt
    interval_cases j
    obtain ⟨mvs, g2, hl, hp2, hsol⟩ := hj
    rw [List.length_eq_zero] at hl
    subst hl
    unfold EnumPath at hp2
    subst hp2
    exact absurd hsol (by decide)
  exact ⟨hsolv,
    (bfs_optimal ["XH20", "AV14"]
      [{ name := 1, orientation := .H, start := (2, 0) },
       { name := 2, orientation := .V, start := (1, 4) }] gameXA
      (by decide) (by decide) (by rfl) 1 hsolv hmin).2 20 ["A+2"] 5 gameXAdone (by rfl)⟩

theorem endPos_bounds (c : Car) (h : c.in_board) :
    0 ≤ c.endPos.1 ∧ c.endPos.1 < 6 ∧ 0 ≤ c.endPos.2 ∧ c.endPos.2 < 6 ∧
      0 ≤ c.start.1 ∧ 0 ≤ c.start.2 ∧ c.start.1 ≤ c.endPos.1 ∧ c.start.2 ≤ c.endPos.2 := by
  obtain ⟨nm, o, st⟩ := c
  have hsz := car_size_two ⟨nm, o, st⟩
  obtain ⟨h1, h2, h3, h4⟩ := h
  rw [boardSize_int] at h3 h4
  cases o with
  | H =>
    dsimp only [Car.endPos] at *
    refine ⟨h1, ?_, ?_, ?_, h1, h2, ?_, ?_⟩ <;> omega
  | V =>
    dsimp only [Car.endPos] at *
    refine ⟨?_, ?_, h2, ?_, h1, h2, ?_, ?_⟩ <;> omega

theorem start_mem_cells (c : Car) : c.start ∈ c.cells := by
  obtain ⟨nm, o, st⟩ := c
  have hsz := car_size_two ⟨nm, o, st⟩
  cases o with
  | H =>
    refine (mem_cells_H nm st _).mpr ⟨0, by omega, ?_⟩
    refine Prod.ext rfl ?_
    simp
  | V =>
    refine (mem_cells_V nm st _).mpr ⟨0, by omega, ?_⟩
    refine Prod.ext ?_ rfl
    simp

theorem endPos_mem_cells (c : Car) : c.endPos ∈ c.cells := by
  obtain ⟨nm, o, st⟩ := c
  have hsz := car_size_two ⟨nm, o, st⟩
  cases o with
  | H =>
    refine (mem_cells_H nm st _).mpr ⟨(Car.mk nm .H st).size - 1, by omega, ?_⟩
    dsimp only [Car.endPos]
    refine Prod.ext rfl ?_
    dsimp only
    push_cast [Nat.cast_sub (by omega : 1 ≤ (Car.mk nm .H st).size)]
    ring
  | V =>
    refine (mem_cells_V nm st _).mpr ⟨(Car.mk nm .V st).size - 1, by omega, ?_⟩
    dsimp only [Car.endPos]
    refine Prod.ext ?_ rfl
    dsimp only
    push_cast [Nat.cast_sub (by omega : 1 ≤ (Car.mk nm .V st).size)]
    ring

theorem filter_drop_sum (l : List Nat) :
    ∀ lo, ((l.drop lo).filter (fun v => v ≠ 0)).length =
      ∑ j ∈ Finset.Ico lo l.length, (if l.getD j 0 ≠ 0 then 1 else 0) := by
  induction l with
  | nil =>
    intro lo
    simp
  | cons a t ih =>
    intro lo
    cases lo with
    | zero =>
      rw [List.drop_zero, List.filter_cons, List.length_cons, Nat.Ico_zero_eq_range,
        Finset.sum_range_succ']
      have hterm : ∀ i : Nat, (if (a :: t).getD (i + 1) 0 ≠ 0 then 1 else 0)
          = (if t.getD i 0 ≠ 0 then 1 else 0) := by
        intro i
        rw [List.getD_cons_succ]
      simp only [hterm, List.getD_cons_zero]
      have hbase := ih 0
      rw [List.drop_zero, Nat.Ico_zero_eq_range] at hbase
      by_cases ha : a = 0
      · rw [if_neg (by simp [ha]), hbase, if_neg (by simp [ha])]
        exact (Nat.add_zero _).symm
      · rw [if_pos (by simp [ha]), List.length_cons, hbase, if_pos ha]
    | succ lo2 =>
      rw [List.drop_succ_cons, ih lo2, List.length_cons,
        Finset.sum_Ico_eq_sum_range, Finset.sum_Ico_eq_sum_range]
      rw [show t.length + 1 - (lo2 + 1) = t.length - lo2 from by omega]
      refine Finset.sum_congr rfl ?_
      intro i _
      rw [show lo2 + 1 + i = (lo2 + i) + 1 from by omega, List.getD_cons_succ]

theorem obstacles_sum (g : Game) (hlen : g.board.length = 36) (xcar : Car)
    (hx : carsGet g.cars 1 = some xcar) (hib : xcar.in_board) :
    obstacles_before_exit g =
      ∑ j ∈ Finset.Ico (xcar.endPos.2 + 1).toNat 6,
        (if getCell g.board (xcar.endPos.1, (j : Int)) ≠ 0 then 1 else 0) := by
  obtain ⟨hb1, hb2, hb3, hb4, _, _, _, _⟩ := endPos_bounds xcar hib
  unfold obstacles_before_exit
  rw [hx]
  dsimp only
  rw [filter_drop_sum, boardRow_length g.board hlen _ (by omega)]
  refine Finset.sum_congr rfl ?_
  intro j hj
  rw [Finset.mem_Ico] at hj
  rw [boardRow_getD g.board hlen _ (by omega) j hj.2]
  unfold getCell cellIdx boardSize
  simp

theorem cellIdx_not_mem_map (q : Int × Int) (hq : inBoardPos q) (c : Car)
    (hcb : c.in_board) (h : q ∉ c.cells) : cellIdx q ∉ c.cells.map cellIdx := by
  intro hmem
  obtain ⟨p, hp, he⟩ := List.mem_map.mp hmem
  have := cellIdx_inj p q (cells_in_board c hcb p hp) hq he
  exact h (this ▸ hp)

theorem getCell_move_other (b : Board) (car : Car) (inc : Int) (q : Int × Int)
    (hq : inBoardPos q) (hcb : car.in_board) (hmb : (car.move_by inc).in_board)
    (h1 : q ∉ car.cells) (h2 : q ∉ (car.move_by inc).cells) :
    getCell (setCells (setCells b car.cells 0) (car.move_by inc).cells
      (car.move_by inc).name) q = getCell b q := by
  unfold getCell
  rw [getD_setCells_not_mem _ _ _ _ (cellIdx_not_mem_map q hq _ hmb h2),
    getD_setCells_not_mem _ _ _ _ (cellIdx_not_mem_map q hq _ hcb h1)]

theorem getCell_move_new (b : Board) (car : Car) (inc : Int) (q : Int × Int)
    (hlen : b.length = 36) (hmb : (car.move_by inc).in_board)
    (h2 : q ∈ (car.move_by inc).cells) :
    getCell (setCells (setCells b car.cells 0) (car.move_by inc).cells
      (car.move_by inc).name) q = car.name := by
  unfold getCell
  rw [getD_setCells_mem _ _ _ _ (List.mem_map.mpr ⟨q, h2, rfl⟩) ?_, move_by_name]
  rw [length_setCells, hlen]
  exact inBoardPos_cellIdx_lt q (cells_in_board _ hmb q h2)

theorem getCell_move_old (b : Board) (car : Car) (inc : Int) (q : Int × Int)
    (hlen : b.length = 36) (hcb : car.in_board) (hmb : (car.move_by inc).in_board)
    (h1 : q ∈ car.cells) (h2 : q ∉ (car.move_by inc).cells) :
    getCell (setCells (setCells b car.cells 0) (car.move_by inc).cells
      (car.move_by inc).name) q = 0 := by
  unfold getCell
  rw [getD_setCells_not_mem _ _ _ _ (cellIdx_not_mem_map q (cells_in_board _ hcb q h1) _ hmb h2),
    getD_setCells_mem _ _ _ _ (List.mem_map.mpr ⟨q, h1, rfl⟩) ?_]
  rw [hlen]
  exact inBoardPos_cellIdx_lt q (cells_in_board _ hcb q h1)

theorem Pers_not_solution (g : Game) (hc : Consistent g) (hp : Pers g) :
    ¬ is_solution g := by
  obtain ⟨hlen, hcars, hcover, hnd⟩ := hc
  obtain ⟨xcar, hx, hxo, nm, car, hcg, hnm1, hco, hr, hlt⟩ := hp
  have hmemc := carsGet_mem _ _ _ hcg
  obtain ⟨hname, hk1, hk16, hib, hmarks⟩ := hcars _ hmemc
  have hibx := (hcars _ (carsGet_mem _ _ _ hx)).2.2.2.1
  have hval : getCell g.board car.start = nm := hmarks _ (start_mem_cells car)
  obtain ⟨hx1, hx2, hx3, hx4, _, _, _, _⟩ := endPos_bounds xcar hibx
  obtain ⟨_, _, _, _, hc1, hc2, _, hc4⟩ := endPos_bounds car hib
  have hcend := (endPos_bounds car hib).2.2.2.1
  intro hsol
  unfold is_solution at hsol
  rw [obstacles_sum g hlen xcar hx hibx] at hsol
  rw [Finset.sum_eq_zero_iff] at hsol
  have hj0 := hsol car.start.2.toNat ?_
  · have hcast : ((car.start.2.toNat : Nat) : Int) = car.start.2 := Int.toNat_of_nonneg hc2
    rw [hcast] at hj0
    rw [show (xcar.endPos.1, car.start.2) = car.start from by rw [← hr]] at hj0
    rw [hval] at hj0
    simp at hj0
    omega
  · rw [Finset.mem_Ico]
    constructor <;> omega

theorem mem_cells_H_iff (c : Car) (hH : c.orientation = .H) (q : Int × Int) :
    q ∈ c.cells ↔ q.1 = c.start.1 ∧ c.start.2 ≤ q.2 ∧ q.2 ≤ c.endPos.2 := by
  obtain ⟨nm, o, st⟩ := c
  dsimp only at hH
  subst hH
  have hsz := car_size_two (Car.mk nm .H st)
  rw [mem_cells_H]
  constructor
  · rintro ⟨i, hi, rfl⟩
    dsimp only [Car.endPos]
    refine ⟨rfl, by omega, by omega⟩
  · rintro ⟨h1, h2, h3⟩
    dsimp only [Car.endPos] at h1 h2 h3
    refine ⟨(q.2 - st.2).toNat, by omega, ?_⟩
    rw [← h1]
    refine Prod.ext rfl ?_
    dsimp only
    omega

theorem mem_cells_V_iff (c : Car) (hV : c.orientation = .V) (q : Int × Int) :
    q ∈ c.cells ↔ q.2 = c.start.2 ∧ c.start.1 ≤ q.1 ∧ q.1 ≤ c.endPos.1 := by
  obtain ⟨nm, o, st⟩ := c
  dsimp only at hV
  subst hV
  have hsz := car_size_two (Car.mk nm .V st)
  rw [mem_cells_V]
  constructor
  · rintro ⟨i, hi, rfl⟩
    dsimp only [Car.endPos]
    refine ⟨rfl, by omega, by omega⟩
  · rintro ⟨h1, h2, h3⟩
    dsimp only [Car.endPos] at h1 h2 h3
    refine ⟨(q.1 - st.1).toNat, by omega, ?_⟩
    rw [← h1]
    refine Prod.ext ?_ rfl
    dsimp only
    omega

theorem XH_transfer (g g2 : Game) (hc : Consistent g) (hc2 : Consistent g2)
    (hb : g.board = g2.board) (hxh : XH g) : XH g2 := by
  obtain ⟨xcar, hx, hxo⟩ := hxh
  exact ⟨xcar, carsGet_some_transfer g g2 hc hc2 hb 1 xcar hx, hxo⟩

theorem XH_step (g s1 : Game) (hc : Consistent g) (hxh : XH g) (mv : Nat × Int)
    (hstep : EnumStep g mv s1) : XH s1 := by
  obtain ⟨xcar, hx, hxo⟩ := hxh
  obtain ⟨p, n, car, hpm, hinc, hget, hmv⟩ := hstep
  obtain ⟨hcm, hs1⟩ := move_car_ok_inv g car mv.2 s1 hmv
  have hname : car.name = mv.1 := (hc.2.1 _ (carsGet_mem _ _ _ hget)).1
  subst hs1
  by_cases h1 : (car.move_by mv.2).name = 1
  · refine ⟨car.move_by mv.2, ?_, ?_⟩
    · rw [show (1 : Nat) = (car.move_by mv.2).name from h1.symm]
      exact carsGet_carsSet_self g.cars _ _
    · rw [move_by_orient]
      have hc1 : car.name = 1 := by rw [← move_by_name car mv.2]; exact h1
      have hcx : car = xcar := by
        rw [hc1] at hname
        rw [← hname] at hget
        rw [hget] at hx
        injection hx
      rw [hcx]
      exact hxo
  · refine ⟨xcar, ?_, hxo⟩
    exact (carsGet_carsSet_other g.cars ((car.move_by mv.2).name) 1 (car.move_by mv.2)
      (fun he => h1 he.symm)).trans hx

theorem enum_slide_zeros (g : Game) (hc : Consistent g) (mv : Nat × Int) (s1 : Game)
    (car : Car) (hstep : EnumStep g mv s1) (hget : carsGet g.cars mv.1 = some car) :
    (car.orientation = .H →
      ∀ j : Int, ((0 < mv.2 ∧ car.endPos.2 < j ∧ j ≤ car.endPos.2 + mv.2) ∨
          (mv.2 < 0 ∧ car.start.2 + mv.2 ≤ j ∧ j < car.start.2)) →
        getCell g.board (car.start.1, j) = 0) ∧
    (car.orientation = .V →
      ∀ j : Int, ((0 < mv.2 ∧ car.endPos.1 < j ∧ j ≤ car.endPos.1 + mv.2) ∨
          (mv.2 < 0 ∧ car.start.1 + mv.2 ≤ j ∧ j < car.start.1)) →
        getCell g.board (j, car.start.2) = 0) := by
  obtain ⟨p, n, car2, hpm, hinc, hget2, hmv⟩ := hstep
  rw [hget] at hget2
  injection hget2 with he
  obtain ⟨car3, hm3, hg3, _⟩ := mem_possible_moves g mv.1 p n hpm
  have hc3 : car3 = car := by
    have h2 := carsGet_of_mem_nodup g.cars mv.1 car3 hc.2.2.2 hm3
    rw [hget] at h2
    injection h2 with h
    exact h.symm
  rw [hc3] at hg3
  have hib : car.in_board := (hc.2.1 _ (carsGet_mem _ _ _ hget)).2.2.2.1
  have hspec := ((get_car_moves_spec g hc.1).1 car hib)
  rw [mem_incList] at hinc
  constructor
  · intro hH j hj
    obtain ⟨hfwd, hbwd⟩ := hspec.1 hH
    rw [hg3] at hfwd hbwd
    dsimp only at hfwd hbwd
    rcases hj with ⟨hpos, hj1, hj2⟩ | ⟨hneg, hj1, hj2⟩
    · have hincp : mv.2 ≤ (p : Int) := by
        rcases hinc with ⟨a, b⟩ | ⟨a, b⟩ <;> omega
      have h := (hfwd.1 (j - car.endPos.2).toNat (by omega) (by omega)).2.2
      rw [show car.endPos.2 + 1 * (((j - car.endPos.2).toNat : Nat) : Int) = j from by
        omega] at h
      exact h
    · have hincn : -(n : Int) ≤ mv.2 := by
        rcases hinc with ⟨a, b⟩ | ⟨a, b⟩ <;> omega
      have h := (hbwd.1 (car.start.2 - j).toNat (by omega) (by omega)).2.2
      rw [show car.start.2 + (-1) * (((car.start.2 - j).toNat : Nat) : Int) = j from by
        omega] at h
      exact h
  · intro hV j hj
    obtain ⟨hfwd, hbwd⟩ := hspec.2 hV
    rw [hg3] at hfwd hbwd
    dsimp only at hfwd hbwd
    rcases hj with ⟨hpos, hj1, hj2⟩ | ⟨hneg, hj1, hj2⟩
    · have hincp : mv.2 ≤ (p : Int) := by
        rcases hinc with ⟨a, b⟩ | ⟨a, b⟩ <;> omega
      have h := (hfwd.1 (j - car.endPos.1).toNat (by omega) (by omega)).2.2
      rw [show car.endPos.1 + 1 * (((j - car.endPos.1).toNat : Nat) : Int) = j from by
        omega] at h
      exact h
    · have hincn : -(n : Int) ≤ mv.2 := by
        rcases hinc with ⟨a, b⟩ | ⟨a, b⟩ <;> omega
      have h := (hbwd.1 (car.start.1 - j).toNat (by omega) (by omega)).2.2
      rw [show car.start.1 + (-1) * (((car.start.1 - j).toNat : Nat) : Int) = j from by
        omega] at h
      exact h

theorem endPos_fst_H (c : Car) (hH : c.orientation = .H) : c.endPos.1 = c.start.1 := by
  obtain ⟨nm, o, st⟩ := c
  dsimp only at hH
  subst hH
  rfl

theorem move_by_start_H (c : Car) (hH : c.orientation = .H) (inc : Int) :
    (c.move_by inc).start = (c.start.1, c.start.2 + inc) := by
  obtain ⟨nm, o, st⟩ := c
  dsimp only at hH
  subst hH
  rfl

theorem move_by_endPos_H (c : Car) (hH : c.orientation = .H) (inc : Int) :
    (c.move_by inc).endPos = (c.endPos.1, c.endPos.2 + inc) := by
  obtain ⟨nm, o, st⟩ := c
  dsimp only at hH
  subst hH
  dsimp only [Car.move_by, Car.endPos, Car.size]
  refine Prod.ext rfl ?_
  dsimp only
  ring

theorem move_by_start_V (c : Car) (hV : c.orientation = .V) (inc : Int) :
    (c.move_by inc).start = (c.start.1 + inc, c.start.2) := by
  obtain ⟨nm, o, st⟩ := c
  dsimp only at hV
  subst hV
  rfl

theorem move_by_endPos_V (c : Car) (hV : c.orientation = .V) (inc : Int) :
    (c.move_by inc).endPos = (c.endPos.1 + inc, c.endPos.2) := by
  obtain ⟨nm, o, st⟩ := c
  dsimp only at hV
  subst hV
  dsimp only [Car.move_by, Car.endPos, Car.size]
  refine Prod.ext ?_ rfl
  dsimp only
  ring

theorem Pers_step (g s1 : Game) (hc : Consistent g) (hp : Pers g) (mv : Nat × Int)
    (hstep : EnumStep g mv s1) : Pers s1 := by
  obtain ⟨xcar, hx, hxo, nm, car, hcg, hnm1, hco, hr, hlt⟩ := hp
  have hstep2 := hstep
  obtain ⟨p, n, mcar, hpm, hinc, hget, hmv⟩ := hstep2
  obtain ⟨hcm, hs1⟩ := move_car_ok_inv g mcar mv.2 s1 hmv
  have hz := enum_slide_zeros g hc mv s1 mcar hstep hget
  obtain ⟨hlen, hcars, hcover, hnd⟩ := hc
  have hmfacts := hcars _ (carsGet_mem _ _ _ hget)
  have hmname : mcar.name = mv.1 := hmfacts.1
  have hkm : (mcar.move_by mv.2).name = mv.1 := by rw [move_by_name]; exact hmname
  have hbfacts := hcars _ (carsGet_mem _ _ _ hcg)
  have hxfacts := hcars _ (carsGet_mem _ _ _ hx)
  have hinc0 : mv.2 ≠ 0 := (enum_inc_range g mv.1 p n mv.2 hpm hinc).1
  subst hs1
  by_cases hx1 : mv.1 = 1
  · have hmx : mcar = xcar := by
      rw [hx1] at hget
      rw [hget] at hx
      injection hx
    refine ⟨mcar.move_by mv.2, ?_, ?_, nm, car, ?_, hnm1, hco, ?_, ?_⟩
    · show carsGet (carsSet g.cars (mcar.move_by mv.2).name (mcar.move_by mv.2)) 1
        = some (mcar.move_by mv.2)
      rw [show (1 : Nat) = (mcar.move_by mv.2).name from by rw [hkm, hx1]]
      exact carsGet_carsSet_self g.cars _ _
    · rw [move_by_orient, hmx]
      exact hxo
    · show carsGet (carsSet g.cars (mcar.move_by mv.2).name (mcar.move_by mv.2)) nm = some car
      rw [carsGet_carsSet_other g.cars _ nm _ (by rw [hkm, hx1]; exact hnm1)]
      exact hcg
    · rw [move_by_endPos_H mcar (by rw [hmx]; exact hxo) mv.2]
      dsimp only
      rw [hmx, hr]
    · rw [move_by_endPos_H mcar (by rw [hmx]; exact hxo) mv.2]
      dsimp only
      rw [hmx]
      rcases lt_or_le 0 mv.2 with hpos | hneg
      · by_contra hle
        push_neg at hle
        have hzz := (hz.1 (by rw [hmx]; exact hxo)) car.start.2
          (Or.inl ⟨hpos, by rw [hmx]; exact hlt, by rw [hmx]; omega⟩)
        have hval : getCell g.board car.start = nm := hbfacts.2.2.2.2 _ (start_mem_cells car)
        rw [show (mcar.start.1, car.start.2) = car.start from by
          refine Prod.ext ?_ rfl
          dsimp only
          rw [hmx, ← endPos_fst_H xcar hxo, ← hr]] at hzz
        rw [hval] at hzz
        omega
      · have : mv.2 < 0 := by omega
        omega
  · have hget1 : carsGet (carsSet g.cars (mcar.move_by mv.2).name (mcar.move_by mv.2)) 1
        = some xcar := by
      rw [carsGet_carsSet_other g.cars _ 1 _ (by rw [hkm]; exact fun he => hx1 he.symm)]
      exact hx
    by_cases hxnm : mv.1 = nm
    · have hmc : mcar = car := by
        rw [hxnm] at hget
        rw [hget] at hcg
        injection hcg
      refine ⟨xcar, hget1, hxo, nm, mcar.move_by mv.2, ?_, hnm1, ?_, ?_, ?_⟩
      · show carsGet (carsSet g.cars (mcar.move_by mv.2).name (mcar.move_by mv.2)) nm
          = some (mcar.move_by mv.2)
        rw [show nm = (mcar.move_by mv.2).name from by rw [hkm, hxnm]]
        exact carsGet_carsSet_self g.cars _ _
      · rw [move_by_orient, hmc]
        exact hco
      · rw [move_by_start_H mcar (by rw [hmc]; exact hco) mv.2]
        dsimp only
        rw [hmc]
        exact hr
      · rw [move_by_start_H mcar (by rw [hmc]; exact hco) mv.2]
        dsimp only
        rw [hmc]
        rcases lt_or_le 0 mv.2 with hpos | hneg
        · omega
        · have hneg2 : mv.2 < 0 := by omega
          by_contra hle
          push_neg at hle
          have hzz := (hz.1 (by rw [hmc]; exact hco)) xcar.endPos.2
            (Or.inr ⟨hneg2, by rw [hmc]; omega, by rw [hmc]; exact hlt⟩)
          have hval : getCell g.board xcar.endPos = 1 :=
            hxfacts.2.2.2.2 _ (endPos_mem_cells xcar)
          rw [show (mcar.start.1, xcar.endPos.2) = xcar.endPos from by
            refine Prod.ext ?_ rfl
            dsimp only
            rw [hmc, hr]] at hzz
          rw [hval] at hzz
          omega
    · refine ⟨xcar, hget1, hxo, nm, car, ?_, hnm1, hco, hr, hlt⟩
      show carsGet (carsSet g.cars (mcar.move_by mv.2).name (mcar.move_by mv.2)) nm = some car
      rw [carsGet_carsSet_other g.cars _ nm _ (by rw [hkm]; exact fun he => hxnm he.symm)]
      exact hcg

theorem inBoardPos_mk (a b : Int) (h1 : 0 ≤ a) (h2 : a < 6) (h3 : 0 ≤ b) (h4 : b < 6) :
    inBoardPos (a, b) := by
  unfold inBoardPos
  dsimp only
  rw [boardSize_int]
  exact ⟨h1, h2, h3, h4⟩

theorem heuristic_step (g s1 : Game) (hc : Consistent g) (hxh : XH g) (hnp : ¬ Pers g)
    (mv : Nat × Int) (hstep : EnumStep g mv s1) :
    obstacles_before_exit g ≤ obstacles_before_exit s1 + 1 := by
  obtain ⟨xcar, hx, hxo⟩ := hxh
  have hstep2 := hstep
  obtain ⟨p, n, mcar, hpm, hinc, hget, hmv⟩ := hstep2
  obtain ⟨hcm, hs1⟩ := move_car_ok_inv g mcar mv.2 s1 hmv
  have hz := enum_slide_zeros g hc mv s1 mcar hstep hget
  have hc1 : Consistent s1 := EnumStep_consistent g s1 mv hc hstep
  have hlen : g.board.length = 36 := hc.1
  have hlen1 : s1.board.length = 36 := hc1.1
  have hmfacts := hc.2.1 _ (carsGet_mem _ _ _ hget)
  have hxfacts := hc.2.1 _ (carsGet_mem _ _ _ hx)
  have hmname : mcar.name = mv.1 := hmfacts.1
  have hkm : (mcar.move_by mv.2).name = mv.1 := by rw [move_by_name]; exact hmname
  have hmib : mcar.in_board := hmfacts.2.2.2.1
  have hxib : xcar.in_board := hxfacts.2.2.2.1
  have hmb : (mcar.move_by mv.2).in_board := hcm.1
  obtain ⟨hxb1, hxb2, hxb3, hxb4, _, _, _, _⟩ := endPos_bounds xcar hxib
  have hinc0 : mv.2 ≠ 0 := (enum_inc_range g mv.1 p n mv.2 hpm hinc).1
  have hog := obstacles_sum g hlen xcar hx hxib
  by_cases hx1 : mv.1 = 1
  · -- the target car itself moves
    have hmx : mcar = xcar := by
      rw [hx1] at hget
      rw [hget] at hx
      injection hx
    rw [← hmx] at hxo hxb1 hxb2 hxb3 hxb4 hog
    have hxget1 : carsGet s1.cars 1 = some (mcar.move_by mv.2) := by
      rw [hs1]
      dsimp only
      rw [show (1 : Nat) = (mcar.move_by mv.2).name from by rw [hkm, hx1]]
      exact carsGet_carsSet_self g.cars _ _
    have hxend := move_by_endPos_H mcar hxo mv.2
    have hos1 := obstacles_sum s1 hlen1 (mcar.move_by mv.2) hxget1 hmb
    rw [hxend] at hos1
    dsimp only at hos1
    obtain ⟨hmb1, hmb2, hmb3, hmb4, _, _, _, _⟩ := endPos_bounds (mcar.move_by mv.2) hmb
    rw [hxend] at hmb1 hmb2 hmb3 hmb4
    dsimp only at hmb1 hmb2 hmb3 hmb4
    have hcellout : ∀ j : Nat, mcar.endPos.2 < (j : Int) → mcar.endPos.2 + mv.2 < (j : Int) →
        (j : Int) < 6 →
        getCell s1.board (mcar.endPos.1, (j : Int)) =
          getCell g.board (mcar.endPos.1, (j : Int)) := by
      intro j hj1 hj2 hj6
      rw [hs1]
      dsimp only
      refine getCell_move_other g.board mcar mv.2 _
        (inBoardPos_mk _ _ hxb1 hxb2 (by omega) hj6) hmib hmb ?_ ?_
      · rw [mem_cells_H_iff mcar hxo]
        push_neg
        intro _ _
        omega
      · rw [mem_cells_H_iff (mcar.move_by mv.2) (by rw [move_by_orient]; exact hxo),
          move_by_start_H mcar hxo, hxend]
        push_neg
        dsimp only
        intro _ _
        omega
    rcases lt_or_le 0 mv.2 with hpos | hneg
    · have hsplit :
          (∑ j ∈ Finset.Ico (mcar.endPos.2 + 1).toNat (mcar.endPos.2 + mv.2 + 1).toNat,
            if getCell g.board (mcar.endPos.1, (j : Int)) ≠ 0 then 1 else 0) +
          (∑ j ∈ Finset.Ico (mcar.endPos.2 + mv.2 + 1).toNat 6,
            if getCell g.board (mcar.endPos.1, (j : Int)) ≠ 0 then 1 else 0) =
          ∑ j ∈ Finset.Ico (mcar.endPos.2 + 1).toNat 6,
            if getCell g.board (mcar.endPos.1, (j : Int)) ≠ 0 then 1 else 0 :=
        Finset.sum_Ico_consecutive _ (by omega) (by omega)
      have hzero :
          (∑ j ∈ Finset.Ico (mcar.endPos.2 + 1).toNat (mcar.endPos.2 + mv.2 + 1).toNat,
            if getCell g.board (mcar.endPos.1, (j : Int)) ≠ 0 then 1 else 0) = 0 := by
        refine Finset.sum_eq_zero ?_
        intro j hj
        rw [Finset.mem_Ico] at hj
        obtain ⟨hja, hjb⟩ := hj
        have hzz := hz.1 hxo (j : Int) (Or.inl ⟨hpos, by omega, by omega⟩)
        rw [show (mcar.start.1, (j : Int)) = (mcar.endPos.1, (j : Int)) from by
          rw [endPos_fst_H mcar hxo]] at hzz
        rw [hzz]
        simp
      have heq2 :
          (∑ j ∈ Finset.Ico (mcar.endPos.2 + mv.2 + 1).toNat 6,
            if getCell g.board (mcar.endPos.1, (j : Int)) ≠ 0 then 1 else 0) =
          ∑ j ∈ Finset.Ico (mcar.endPos.2 + mv.2 + 1).toNat 6,
            if getCell s1.board (mcar.endPos.1, (j : Int)) ≠ 0 then 1 else 0 := by
        refine Finset.sum_congr rfl ?_
        intro j hj
        rw [Finset.mem_Ico] at hj
        obtain ⟨hja, hjb⟩ := hj
        rw [hcellout j (by omega) (by omega) (by omega)]
      omega
    · have hneg2 : mv.2 < 0 := by omega
      have heq2 :
          (∑ j ∈ Finset.Ico (mcar.endPos.2 + 1).toNat 6,
            if getCell g.board (mcar.endPos.1, (j : Int)) ≠ 0 then 1 else 0) =
          ∑ j ∈ Finset.Ico (mcar.endPos.2 + 1).toNat 6,
            if getCell s1.board (mcar.endPos.1, (j : Int)) ≠ 0 then 1 else 0 := by
        refine Finset.sum_congr rfl ?_
        intro j hj
        rw [Finset.mem_Ico] at hj
        obtain ⟨hja, hjb⟩ := hj
        rw [hcellout j (by omega) (by omega) (by omega)]
      have hsub :
          (∑ j ∈ Finset.Ico (mcar.endPos.2 + 1).toNat 6,
            if getCell s1.board (mcar.endPos.1, (j : Int)) ≠ 0 then 1 else 0) ≤
          ∑ j ∈ Finset.Ico (mcar.endPos.2 + mv.2 + 1).toNat 6,
            if getCell s1.board (mcar.endPos.1, (j : Int)) ≠ 0 then 1 else 0 := by
        refine Finset.sum_le_sum_of_subset ?_
        refine Finset.Ico_subset_Ico ?_ (le_refl 6)
        omega
      omega
  · -- a non-target car moves
    have hxget1 : carsGet s1.cars 1 = some xcar := by
      rw [hs1]
      dsimp only
      rw [carsGet_carsSet_other g.cars _ 1 _ (by rw [hkm]; exact fun he => hx1 he.symm)]
      exact hx
    have hos1 := obstacles_sum s1 hlen1 xcar hxget1 hxib
    have hname1 : 1 ≤ mv.1 := hmfacts.2.1
    obtain ⟨j0, hj0⟩ : ∃ j0 : Nat, ∀ j : Nat, xcar.endPos.2 < (j : Int) → (j : Int) < 6 →
        j ≠ j0 → (xcar.endPos.1, (j : Int)) ∉ mcar.cells := by
      by_cases hor : mcar.orientation = .V
      · refine ⟨mcar.start.2.toNat, ?_⟩
        intro j h1 h2 h3 hmem
        rw [mem_cells_V_iff mcar hor] at hmem
        obtain ⟨he1, _, _⟩ := hmem
        dsimp only at he1
        have hms : 0 ≤ mcar.start.2 := hmib.2.1
        exact h3 (by omega)
      · have horH : mcar.orientation = .H := by
          cases horient : mcar.orientation
          · rfl
          · exact absurd horient hor
        refine ⟨0, ?_⟩
        intro j h1 h2 h3 hmem
        rw [mem_cells_H_iff mcar horH] at hmem
        obtain ⟨he1, he2, he3⟩ := hmem
        dsimp only at he1 he2 he3
        have hms2 : mcar.start.2 ≤ xcar.endPos.2 := by
          by_contra hgt
          push_neg at hgt
          exact hnp ⟨xcar, hx, hxo, mv.1, mcar, hget, hx1, horH, he1.symm, hgt⟩
        have hxe_mem : xcar.endPos ∈ mcar.cells := by
          rw [mem_cells_H_iff mcar horH]
          refine ⟨he1 ▸ rfl, hms2, by omega⟩
        have hv1 : getCell g.board xcar.endPos = 1 :=
          hxfacts.2.2.2.2 _ (endPos_mem_cells xcar)
        have hv2 : getCell g.board xcar.endPos = mv.1 := hmfacts.2.2.2.2 _ hxe_mem
        rw [hv1] at hv2
        exact hx1 hv2.symm
    have hpoint : ∀ j : Nat, xcar.endPos.2 < (j : Int) → (j : Int) < 6 → j ≠ j0 →
        (if getCell g.board (xcar.endPos.1, (j : Int)) ≠ 0 then 1 else 0) ≤
        (if getCell s1.board (xcar.endPos.1, (j : Int)) ≠ 0 then 1 else 0 : Nat) := by
      intro j h1 h2 h3
      by_cases hmem2 : (xcar.endPos.1, (j : Int)) ∈ (mcar.move_by mv.2).cells
      · rw [hs1]
        dsimp only
        rw [getCell_move_new g.board mcar mv.2 _ hlen hmb hmem2, hmname,
          if_pos (by omega : mv.1 ≠ 0)]
        split_ifs <;> omega
      · rw [hs1]
        dsimp only
        rw [getCell_move_other g.board mcar mv.2 _
          (inBoardPos_mk _ _ hxb1 hxb2 (by omega) h2) hmib hmb (hj0 j h1 h2 h3) hmem2]
    rw [hog, hos1]
    by_cases hj0W : j0 ∈ Finset.Ico (xcar.endPos.2 + 1).toNat 6
    · have hsplitW :
          (∑ j ∈ (Finset.Ico (xcar.endPos.2 + 1).toNat 6).erase j0,
            if getCell g.board (xcar.endPos.1, (j : Int)) ≠ 0 then 1 else 0) +
          (if getCell g.board (xcar.endPos.1, ((j0 : Nat) : Int)) ≠ 0 then 1 else 0) =
          ∑ j ∈ Finset.Ico (xcar.endPos.2 + 1).toNat 6,
            if getCell g.board (xcar.endPos.1, (j : Int)) ≠ 0 then 1 else 0 :=
        Finset.sum_erase_add _ _ hj0W
      have hbound1 :
          (∑ j ∈ (Finset.Ico (xcar.endPos.2 + 1).toNat 6).erase j0,
            if getCell g.board (xcar.endPos.1, (j : Int)) ≠ 0 then 1 else 0) ≤
          ∑ j ∈ (Finset.Ico (xcar.endPos.2 + 1).toNat 6).erase j0,
            if getCell s1.board (xcar.endPos.1, (j : Int)) ≠ 0 then 1 else 0 := by
        refine Finset.sum_le_sum ?_
        intro j hj
        rw [Finset.mem_erase, Finset.mem_Ico] at hj
        exact hpoint j (by omega) (by omega) hj.1
      have hbound2 :
          (∑ j ∈ (Finset.Ico (xcar.endPos.2 + 1).toNat 6).erase j0,
            if getCell s1.board (xcar.endPos.1, (j : Int)) ≠ 0 then 1 else 0) ≤
          ∑ j ∈ Finset.Ico (xcar.endPos.2 + 1).toNat 6,
            if getCell s1.board (xcar.endPos.1, (j : Int)) ≠ 0 then 1 else 0 :=
        Finset.sum_le_sum_of_subset (Finset.erase_subset _ _)
      have hf0 : (if getCell g.board (xcar.endPos.1, ((j0 : Nat) : Int)) ≠ 0
          then 1 else 0 : Nat) ≤ 1 := by
        split_ifs <;> omega
      omega
    · have hall :
          (∑ j ∈ Finset.Ico (xcar.endPos.2 + 1).toNat 6,
            if getCell g.board (xcar.endPos.1, (j : Int)) ≠ 0 then 1 else 0) ≤
          ∑ j ∈ Finset.Ico (xcar.endPos.2 + 1).toNat 6,
            if getCell s1.board (xcar.endPos.1, (j : Int)) ≠ 0 then 1 else 0 := by
        refine Finset.sum_le_sum ?_
        intro j hj
        rw [Finset.mem_Ico] at hj
        refine hpoint j (by omega) (by omega) ?_
        intro he
        exact hj0W (he ▸ (Finset.mem_Ico.mpr hj))
      omega

theorem path_not_Pers : ∀ (tl : List (Nat × Int)) (s ssol : Game), Consistent s →
    EnumPath s tl ssol → is_solution ssol → Pers s → False := by
  intro tl
  induction tl with
  | nil =>
    intro s ssol hc hp hsol hpers
    unfold EnumPath at hp
    subst hp
    exact Pers_not_solution ssol hc hpers hsol
  | cons mv tl2 ih =>
    intro s ssol hc hp hsol hpers
    obtain ⟨s1, hstep, hrest⟩ := hp
    exact ih s1 ssol (EnumStep_consistent s s1 mv hc hstep) hrest hsol
      (Pers_step s s1 hc hpers mv hstep)

theorem heuristic_admissible : ∀ (tl : List (Nat × Int)) (s ssol : Game), Consistent s →
    XH s → EnumPath s tl ssol → is_solution ssol → heuristic s ≤ tl.length := by
  intro tl
  induction tl with
  | nil =>
    intro s ssol hc hxh hp hsol
    unfold EnumPath at hp
    subst hp
    unfold heuristic
    unfold is_solution at hsol
    omega
  | cons mv tl2 ih =>
    intro s ssol hc hxh hp hsol
    obtain ⟨s1, hstep, hrest⟩ := hp
    have hnp : ¬ Pers s := fun hpr =>
      path_not_Pers (mv :: tl2) s ssol hc ⟨s1, hstep, hrest⟩ hsol hpr
    have h1 := heuristic_step s s1 hc hxh hnp mv hstep
    have h2 := ih s1 ssol (EnumStep_consistent s s1 mv hc hstep)
      (XH_step s s1 hc hxh mv hstep) hrest hsol
    unfold heuristic at h1 h2 ⊢
    simp only [List.length_cons]
    omega

theorem buildGame_X_H (l : List String) : ∀ (g0 g : Game),
    buildGame g0 l = .ok g →
    (∀ xcar, carsGet g0.cars 1 = some xcar → xcar.orientation = .H) →
    ∀ xcar, carsGet g.cars 1 = some xcar → xcar.orientation = .H := by
  induction l with
  | nil =>
    intro g0 g hb h0
    unfold buildGame at hb
    injection hb with hb
    subst hb
    exact h0
  | cons cs rest ih =>
    intro g0 g hb h0
    unfold buildGame at hb
    cases hps : parseCarStr cs with
    | none =>
      rw [hps] at hb
      exact absurd hb (by simp)
    | some c =>
      rw [hps] at hb
      dsimp only at hb
      split_ifs at hb with hxchk
      unfold add_car at hb
      split_ifs at hb with hcp
      dsimp only at hb
      refine ih (place_car g0 c) g hb ?_
      intro xcar hxc
      unfold place_car at hxc
      dsimp only at hxc
      by_cases hcn : c.name = 1
      · rw [hcn] at hxc
        rw [carsGet_carsSet_self] at hxc
        injection hxc with he
        push_neg at hxchk
        rw [← he]
        exact (hxchk hcn).1
      · rw [carsGet_carsSet_other _ _ _ _ (fun he => hcn he.symm)] at hxc
        exact h0 xcar hxc

theorem gameFromStrings_X_H (l : List String) (g : Game)
    (hok : gameFromStrings l = .ok g) : XH g := by
  unfold gameFromStrings at hok
  cases hb : buildGame { board := emptyBoard, cars := [] } l with
  | error e =>
    rw [hb] at hok
    exact absurd hok (by simp)
  | ok g2 =>
    rw [hb] at hok
    dsimp only at hok
    split_ifs at hok with hcont
    injection hok with hok
    subst hok
    have hH := buildGame_X_H l { board := emptyBoard, cars := [] } g2 hb
      (fun xcar hxc => absurd hxc (by simp [carsGet]))
    cases hx : carsGet g2.cars 1 with
    | none =>
      exfalso
      unfold carsContains at hcont
      rw [hx] at hcont
      exact absurd hcont (by simp)
    | some xcar => exact ⟨xcar, hx, hH xcar hx⟩

theorem costsGet_costsSet_self (m : List (Board × Nat)) (k : Board) (v : Nat) :
    costsGet (costsSet m k v) k = some v := by
  induction m with
  | nil => simp [costsSet, costsGet, List.find?]
  | cons e rest ih =>
    by_cases h : e.1 = k
    · simp [costsSet, h, costsGet, List.find?]
    · unfold costsSet
      rw [if_neg h]
      unfold costsGet
      rw [List.find?_cons_of_neg _ (by simpa using h)]
      exact ih

theorem costsGet_costsSet_other (m : List (Board × Nat)) (k k2 : Board) (v : Nat)
    (h : k2 ≠ k) : costsGet (costsSet m k v) k2 = costsGet m k2 := by
  have hkk : (k == k2) = false := by simpa using Ne.symm h
  induction m with
  | nil => simp [costsSet, costsGet, List.find?, hkk]
  | cons e rest ih =>
    by_cases he : e.1 = k
    · subst he
      unfold costsSet
      rw [if_pos rfl]
      unfold costsGet
      rw [List.find?_cons_of_neg _ (by simpa using Ne.symm h),
        List.find?_cons_of_neg _ (by simpa using Ne.symm h)]
    · unfold costsSet
      rw [if_neg he]
      unfold costsGet at ih ⊢
      by_cases he2 : e.1 = k2
      · rw [List.find?_cons_of_pos _ (by simpa using he2),
          List.find?_cons_of_pos _ (by simpa using he2)]
      · rw [List.find?_cons_of_neg _ (by simpa using he2),
          List.find?_cons_of_neg _ (by simpa using he2)]
        exact ih

theorem entryLt_fsc_le (a b : AEntry) (h : entryLt a b = true) : a.fsc ≤ b.fsc := by
  by_cases h1 : a.fsc = b.fsc
  · omega
  · unfold entryLt at h
    rw [if_pos h1] at h
    simp at h
    omega

theorem not_entryLt_fsc_le (a b : AEntry) (h : entryLt a b = false) : b.fsc ≤ a.fsc := by
  by_cases h1 : a.fsc = b.fsc
  · omega
  · unfold entryLt at h
    rw [if_pos h1] at h
    simp at h
    omega

theorem heapPush_sorted (h : List AEntry) (e : AEntry)
    (hs : List.Pairwise (fun a b => a.fsc ≤ b.fsc) h) :
    List.Pairwise (fun a b => a.fsc ≤ b.fsc) (heapPush h e) := by
  induction h with
  | nil => simp [heapPush]
  | cons a rest ih =>
    rw [List.pairwise_cons] at hs
    unfold heapPush
    split_ifs with hlt
    · rw [List.pairwise_cons]
      refine ⟨?_, List.pairwise_cons.mpr hs⟩
      intro b hb
      have hea := entryLt_fsc_le e a hlt
      rcases List.mem_cons.mp hb with rfl | hb2
      · exact hea
      · exact le_trans hea (hs.1 b hb2)
    · rw [List.pairwise_cons]
      refine ⟨?_, ih hs.2⟩
      intro b hb
      rcases (mem_heapPush rest e b).mp hb with hb2 | hbe
      · exact hs.1 b hb2
      · rw [hbe]
        exact not_entryLt_fsc_le e a (by simpa using hlt)

theorem ClosedOK_mono (gcosts gc2 : List (Board × Nat)) (b : Board) (c : Nat)
    (hmono : ∀ b2 c2, costsGet gcosts b2 = some c2 →
      ∃ c3, costsGet gc2 b2 = some c3 ∧ c3 ≤ c2)
    (h : ClosedOK gcosts b c) : ClosedOK gc2 b c := by
  refine ⟨h.1, ?_⟩
  intro s hcs hsb mv s1 hstep
  obtain ⟨c1, hc1, hle⟩ := h.2 s hcs hsb mv s1 hstep
  obtain ⟨c3, hc3, hle3⟩ := hmono s1.board c1 hc1
  exact ⟨c3, hc3, by omega⟩

theorem improvesB_true (gcosts : List (Board × Nat)) (b : Board) (c : Nat)
    (h : improvesB gcosts b c = true) :
    ∀ c2, costsGet gcosts b = some c2 → c < c2 := by
  intro c2 hc2
  unfold improvesB at h
  rw [hc2] at h
  simpa using h

theorem improvesB_false (gcosts : List (Board × Nat)) (b : Board) (c : Nat)
    (h : improvesB gcosts b c = false) :
    ∃ c2, costsGet gcosts b = some c2 ∧ c2 ≤ c := by
  unfold improvesB at h
  cases hg : costsGet gcosts b with
  | none =>
    rw [hg] at h
    simp at h
  | some c2 =>
    rw [hg] at h
    simp at h
    exact ⟨c2, rfl, h⟩

theorem push_step (g0 : Game) (bexc : Board) (gcosts : List (Board × Nat))
    (heap : List AEntry) (y : AEntry) (hL : AStarLocal g0 bexc gcosts heap)
    (himp : improvesB gcosts y.key y.cost = true) (hyA : AInv g0 y) :
    AStarLocal g0 bexc (costsSet gcosts y.key y.cost) (heapPush heap y) ∧
    (∀ b c, costsGet gcosts b = some c →
      ∃ c2, costsGet (costsSet gcosts y.key y.cost) b = some c2 ∧ c2 ≤ c) ∧
    (∀ b c, costsGet gcosts b = some c → c ≤ y.cost →
      costsGet (costsSet gcosts y.key y.cost) b = some c) := by
  obtain ⟨hIA, hS, hA3, hA5, hA1⟩ := hL
  have hmono : ∀ b c, costsGet gcosts b = some c →
      ∃ c2, costsGet (costsSet gcosts y.key y.cost) b = some c2 ∧ c2 ≤ c := by
    intro b c hbc
    by_cases hb : b = y.key
    · subst hb
      have := improvesB_true gcosts y.key y.cost himp c hbc
      exact ⟨y.cost, costsGet_costsSet_self _ _ _, by omega⟩
    · exact ⟨c, by rw [costsGet_costsSet_other _ _ _ _ hb]; exact hbc, le_refl c⟩
  have hstable : ∀ b c, costsGet gcosts b = some c → c ≤ y.cost →
      costsGet (costsSet gcosts y.key y.cost) b = some c := by
    intro b c hbc hcy
    by_cases hb : b = y.key
    · subst hb
      have := improvesB_true gcosts y.key y.cost himp c hbc
      omega
    · rw [costsGet_costsSet_other _ _ _ _ hb]
      exact hbc
  refine ⟨⟨?_, heapPush_sorted heap y hS, ?_, ?_, ?_⟩, hmono, hstable⟩
  · intro x hx
    rcases (mem_heapPush heap y x).mp hx with hx2 | hxe
    · exact hIA x hx2
    · rw [hxe]
      exact hyA
  · intro x hx
    rcases (mem_heapPush heap y x).mp hx with hx2 | hxe
    · obtain ⟨cx, hcx, hle⟩ := hA3 x hx2
      obtain ⟨c2, hc2, hle2⟩ := hmono x.key cx hcx
      exact ⟨c2, hc2, by omega⟩
    · rw [hxe]
      exact ⟨y.cost, costsGet_costsSet_self _ _ _, le_refl _⟩
  · by_cases hb : g0.board = y.key
    · exfalso
      have := improvesB_true gcosts y.key y.cost himp 0 (hb ▸ hA5)
      omega
    · rw [costsGet_costsSet_other _ _ _ _ hb]
      exact hA5
  · intro b c hbc hbexc
    by_cases hb : b = y.key
    · subst hb
      rw [costsGet_costsSet_self] at hbc
      injection hbc with he
      exact Or.inl ⟨y, (mem_heapPush heap y y).mpr (Or.inr rfl), rfl, he⟩
    · rw [costsGet_costsSet_other _ _ _ _ hb] at hbc
      rcases hA1 b c hbc hbexc with ⟨x, hx, hk, hcst⟩ | hcl
      · exact Or.inl ⟨x, (mem_heapPush heap y x).mpr (Or.inl hx), hk, hcst⟩
      · exact Or.inr (ClosedOK_mono gcosts _ b c hmono hcl)

theorem aStarExpandIncs_strong (g0 : Game) (bexc : Board) (g : Game) (nm : Nat)
    (car : Car) (seq : List String) (cost : Nat) (incs : List Int)
    (hc : Consistent g) (hmem : carsGet g.cars nm = some car)
    (hleg : ∀ inc ∈ incs, can_move_car g car inc)
    (hAI : ∀ inc ∈ incs, ∀ g1, move_car g car inc = .ok g1 →
      AInv g0 ⟨cost + 1 + heuristic g1, cost + 1, g1.board,
               seq ++ [fmtMove nm inc], g1.cars⟩) :
    ∀ gcosts heap, AStarLocal g0 bexc gcosts heap →
      ∃ gc2 h2, aStarExpandIncs nm car seq cost gcosts heap g incs = .ok (gc2, h2, g) ∧
        AStarLocal g0 bexc gc2 h2 ∧
        (∀ b c, costsGet gcosts b = some c →
          ∃ c2, costsGet gc2 b = some c2 ∧ c2 ≤ c) ∧
        (∀ b c, costsGet gcosts b = some c → c ≤ cost + 1 → costsGet gc2 b = some c) ∧
        (∀ inc ∈ incs, ∀ g1, move_car g car inc = .ok g1 →
          ∃ c1, costsGet gc2 g1.board = some c1 ∧ c1 ≤ cost + 1) := by
  have hname : car.name = nm := by
    obtain ⟨_, hcars, _, _⟩ := hc
    exact (hcars _ (carsGet_mem _ _ _ hmem)).1
  induction incs with
  | nil =>
    intro gcosts heap hL
    exact ⟨gcosts, heap, rfl, hL, fun b c h => ⟨c, h, le_refl c⟩, fun b c h _ => h,
      by simp⟩
  | cons inc rest ih =>
    intro gcosts heap hL
    have hleg0 := hleg inc (List.mem_cons_self ..)
    obtain ⟨g1, hmv, hback⟩ := move_car_roundtrip g car inc hc (hname ▸ hmem) hleg0
    have hget1 : carsGet g1.cars nm = some (car.move_by inc) := by
      obtain ⟨hcm1, hg1eq⟩ := move_car_ok_inv g car inc g1 hmv
      rw [hg1eq]
      dsimp only
      rw [show (car.move_by inc).name = nm from by rw [move_by_name]; exact hname]
      exact carsGet_carsSet_self _ _ _
    by_cases himp : improvesB gcosts g1.board (cost + 1) = true
    · obtain ⟨hL2, hmono1, hstable1⟩ := push_step g0 bexc gcosts heap
        ⟨cost + 1 + heuristic g1, cost + 1, g1.board, seq ++ [fmtMove nm inc], g1.cars⟩
        hL himp (hAI inc (List.mem_cons_self ..) g1 hmv)
      obtain ⟨gc2, h2, hrun, hL3, hmono2, hstable2, hsucc2⟩ :=
        ih (fun i hi => hleg i (List.mem_cons_of_mem _ hi))
          (fun i hi => hAI i (List.mem_cons_of_mem _ hi)) _ _ hL2
      refine ⟨gc2, h2, ?_, hL3, ?_, ?_, ?_⟩
      · unfold aStarExpandIncs
        rw [hmv]
        dsimp only
        rw [if_pos himp, hget1]
        dsimp only
        rw [hback]
        dsimp only
        exact hrun
      · intro b c hbc
        obtain ⟨c2, hc2, hle2⟩ := hmono1 b c hbc
        obtain ⟨c3, hc3, hle3⟩ := hmono2 b c2 hc2
        exact ⟨c3, hc3, by omega⟩
      · intro b c hbc hle
        exact hstable2 b c (hstable1 b c hbc hle) hle
      · intro i hi g2 hmv2
        rcases List.mem_cons.mp hi with rfl | hi2
        · rw [hmv] at hmv2
          injection hmv2 with he
          subst he
          have hself : costsGet (costsSet gcosts g1.board (cost + 1)) g1.board
              = some (cost + 1) := costsGet_costsSet_self _ _ _
          exact ⟨cost + 1, hstable2 g1.board (cost + 1) hself (le_refl _), le_refl _⟩
        · exact hsucc2 i hi2 g2 hmv2
    · have himpf : improvesB gcosts g1.board (cost + 1) = false := by
        simpa using himp
      obtain ⟨cb, hcb, hcble⟩ := improvesB_false gcosts g1.board (cost + 1) himpf
      obtain ⟨gc2, h2, hrun, hL3, hmono2, hstable2, hsucc2⟩ :=
        ih (fun i hi => hleg i (List.mem_cons_of_mem _ hi))
          (fun i hi => hAI i (List.mem_cons_of_mem _ hi)) gcosts heap hL
      refine ⟨gc2, h2, ?_, hL3, hmono2, hstable2, ?_⟩
      · unfold aStarExpandIncs
        rw [hmv]
        dsimp only
        rw [if_neg himp, hget1]
        dsimp only
        rw [hback]
        dsimp only
        exact hrun
      · intro i hi g2 hmv2
        rcases List.mem_cons.mp hi with rfl | hi2
        · rw [hmv] at hmv2
          injection hmv2 with he
          subst he
          exact ⟨cb, hstable2 g1.board cb hcb (by omega), hcble⟩
        · exact hsucc2 i hi2 g2 hmv2

theorem aStarExpandCars_strong (g0 : Game) (bexc : Board) (g : Game)
    (seq : List String) (cost : Nat) (pm : List (Nat × Nat × Nat))
    (hc : Consistent g) (hpm : ∀ x ∈ pm, x ∈ get_possible_moves g)
    (hAI : ∀ mv g1, EnumStep g mv g1 →
      AInv g0 ⟨cost + 1 + heuristic g1, cost + 1, g1.board,
               seq ++ [fmtMove mv.1 mv.2], g1.cars⟩) :
    ∀ gcosts heap, AStarLocal g0 bexc gcosts heap →
      ∃ gc2 h2, aStarExpandCars seq cost gcosts heap g pm = .ok (gc2, h2, g) ∧
        AStarLocal g0 bexc gc2 h2 ∧
        (∀ b c, costsGet gcosts b = some c →
          ∃ c2, costsGet gc2 b = some c2 ∧ c2 ≤ c) ∧
        (∀ b c, costsGet gcosts b = some c → c ≤ cost + 1 → costsGet gc2 b = some c) ∧
        (∀ x ∈ pm, ∀ inc ∈ incList x.2.1 x.2.2, ∀ car g1,
          carsGet g.cars x.1 = some car → move_car g car inc = .ok g1 →
          ∃ c1, costsGet gc2 g1.board = some c1 ∧ c1 ≤ cost + 1) := by
  induction pm with
  | nil =>
    intro gcosts heap hL
    exact ⟨gcosts, heap, rfl, hL, fun b c h => ⟨c, h, le_refl c⟩, fun b c h _ => h,
      by simp⟩
  | cons pmx pm2 ih =>
    intro gcosts heap hL
    obtain ⟨nm, p, n⟩ := pmx
    have hxmem := hpm _ (List.mem_cons_self ..)
    obtain ⟨hlen, hcars2, hcover2, hnd2⟩ := hc
    obtain ⟨car, hcarm, hgcm, hpos⟩ := mem_possible_moves g nm p n hxmem
    have hget : carsGet g.cars nm = some car :=
      carsGet_of_mem_nodup g.cars nm car hnd2 hcarm
    have hleg : ∀ inc ∈ incList p n, can_move_car g car inc := by
      intro inc hinc
      obtain ⟨car2, hget2, hcm2⟩ :=
        enum_move_legal g ⟨hlen, hcars2, hcover2, hnd2⟩ nm p n inc hxmem hinc
      rw [hget] at hget2
      injection hget2 with h
      subst h
      exact hcm2
    obtain ⟨gc1, h1, hrun1, hL1, hmono1, hstable1, hsucc1⟩ :=
      aStarExpandIncs_strong g0 bexc g nm car seq cost (incList p n)
        ⟨hlen, hcars2, hcover2, hnd2⟩ hget hleg
        (fun inc hinc g1 hmv => hAI (nm, inc) g1 ⟨p, n, car, hxmem, hinc, hget, hmv⟩)
        gcosts heap hL
    obtain ⟨gc2, h2, hrun2, hL2, hmono2, hstable2, hsucc2⟩ :=
      ih (fun y hy => hpm y (List.mem_cons_of_mem _ hy)) gc1 h1 hL1
    refine ⟨gc2, h2, ?_, hL2, ?_, ?_, ?_⟩
    · unfold aStarExpandCars
      rw [hget]
      dsimp only
      rw [hrun1]
      dsimp only
      exact hrun2
    · intro b c hbc
      obtain ⟨c2, hc2, hle2⟩ := hmono1 b c hbc
      obtain ⟨c3, hc3, hle3⟩ := hmono2 b c2 hc2
      exact ⟨c3, hc3, by omega⟩
    · intro b c hbc hle
      exact hstable2 b c (hstable1 b c hbc hle) hle
    · intro y hy inc hinc car2 g1 hget2 hmv2
      rcases List.mem_cons.mp hy with rfl | hy2
      · rw [hget] at hget2
        injection hget2 with he
        subst he
        obtain ⟨c1, hc1, hle1⟩ := hsucc1 inc hinc g1 hmv2
        obtain ⟨c2, hc2, hle2⟩ := hmono2 g1.board c1 hc1
        exact ⟨c2, hc2, by omega⟩
      · exact hsucc2 y hy2 inc hinc car2 g1 hget2 hmv2

theorem astar_chase_entry (g0 : Game) (x : AEntry) (hxA : AInv g0 x)
    (tl : List (Nat × Int)) (s ssol : Game) (hcs : Consistent s) (hxh : XH s)
    (hkey : x.key = s.board) (hp : EnumPath s tl ssol) (hsol : is_solution ssol) :
    x.fsc ≤ x.cost + tl.length := by
  obtain ⟨hcx, _, _, _, hfsc⟩ := hxA
  obtain ⟨ssol2, hp2, hb2⟩ :=
    EnumPath_transfer tl s (Game.mk x.key x.cars) ssol hcs hcx hkey.symm hp
  have hcsol : Consistent ssol := EnumPath_consistent s ssol tl hcs hp
  have hcsol2 : Consistent ssol2 := EnumPath_consistent _ ssol2 tl hcx hp2
  have hsol2 : is_solution ssol2 :=
    (is_solution_board_det ssol2 ssol hcsol2 hcsol hb2).mpr hsol
  have hxh2 : XH (Game.mk x.key x.cars) := XH_transfer s _ hcs hcx hkey.symm hxh
  have hadm := heuristic_admissible tl (Game.mk x.key x.cars) ssol2 hcx hxh2 hp2 hsol2
  omega

theorem astar_chase (g0 : Game) (gcosts : List (Board × Nat)) (heap : List AEntry)
    (hIA : ∀ x ∈ heap, AInv g0 x)
    (hA1 : ∀ b c, costsGet gcosts b = some c →
      (∃ x ∈ heap, x.key = b ∧ x.cost = c) ∨ ClosedOK gcosts b c)
    (F : Nat) (hF : ∀ x ∈ heap, F ≤ x.fsc) :
    ∀ (tl : List (Nat × Int)) (s ssol : Game) (ci : Nat), Consistent s → XH s →
      costsGet gcosts s.board = some ci → EnumPath s tl ssol → is_solution ssol →
      F ≤ ci + tl.length := by
  intro tl
  induction tl with
  | nil =>
    intro s ssol ci hcs hxh hci hp hsol
    rcases hA1 s.board ci hci with ⟨x, hx, hkey, hcost⟩ | ⟨hnosol, _⟩
    · have h1 := astar_chase_entry g0 x (hIA x hx) [] s ssol hcs hxh hkey hp hsol
      have h2 := hF x hx
      simp only [List.length_nil] at h1 ⊢
      omega
    · exfalso
      unfold EnumPath at hp
      subst hp
      exact hnosol ssol hcs rfl hsol
  | cons mv tl2 ih =>
    intro s ssol ci hcs hxh hci hp hsol
    rcases hA1 s.board ci hci with ⟨x, hx, hkey, hcost⟩ | ⟨hnosol, hsucc⟩
    · have h1 := astar_chase_entry g0 x (hIA x hx) (mv :: tl2) s ssol hcs hxh hkey hp hsol
      have h2 := hF x hx
      omega
    · obtain ⟨s1, hstep, hrest⟩ := hp
      obtain ⟨c1, hc1, hle⟩ := hsucc s hcs rfl mv s1 hstep
      have h3 := ih s1 ssol c1 (EnumStep_consistent s s1 mv hcs hstep)
        (XH_step s s1 hcs hxh mv hstep) hc1 hrest hsol
      simp only [List.length_cons]
      omega

theorem aStarLoop_minimal (g0 : Game) (hc0 : Consistent g0) (hxh0 : XH g0) (k : Nat)
    (hsolv : SolvableIn g0 k) (hmin : ∀ j, SolvableIn g0 j → k ≤ j) (fuel : Nat) :
    ∀ gcosts heap nodes g mv n2 gf,
      AStarInv g0 gcosts heap →
      aStarLoop fuel gcosts heap nodes g = .ok (.found mv n2 gf) →
      mv.length = k := by
  induction fuel with
  | zero =>
    intro gcosts heap nodes g mv n2 gf _ h
    unfold aStarLoop at h
    injection h with h
    exact SearchOut.noConfusion h
  | succ fuel ih =>
    intro gcosts heap nodes g mv n2 gf hInv h
    cases heap with
    | nil =>
      unfold aStarLoop at h
      injection h with h
      exact SearchOut.noConfusion h
    | cons e rest =>
      obtain ⟨hIA, hS, hA3, hA5, hA1⟩ := hInv
      unfold aStarLoop at h
      dsimp only at h
      split_ifs at h with hstale hsol
      · refine ih gcosts rest (nodes + 1) g mv n2 gf
          ⟨fun x hx => hIA x (List.mem_cons_of_mem _ hx), hS.of_cons,
           fun x hx => hA3 x (List.mem_cons_of_mem _ hx), hA5, ?_⟩ h
        intro b c hbc
        rcases hA1 b c hbc with ⟨x, hx, hk, hcst⟩ | hcl
        · rcases List.mem_cons.mp hx with rfl | hx2
          · exfalso
            unfold staleB at hstale
            rw [hk, hbc] at hstale
            simp at hstale
            omega
          · exact Or.inl ⟨x, hx2, hk, hcst⟩
        · exact Or.inr hcl
      · injection h with h
        injection h with ha hb hcq
        subst ha
        have hqe := hIA e (List.mem_cons_self ..)
        obtain ⟨hce, hrep, ⟨mvsq, hlenq, hpathq⟩, hcost, hfsc⟩ := hqe
        have hge : k ≤ e.moves.length :=
          hmin _ ⟨mvsq, Game.mk e.key e.cars, hlenq, hpathq, hsol⟩
        obtain ⟨mvso, so, hleno, hpo, hsolo⟩ := hsolv
        have hchase := astar_chase g0 gcosts (e :: rest) hIA hA1 e.fsc
          (fun x hx => by
            rcases List.mem_cons.mp hx with rfl | hx2
            · exact le_refl _
            · exact (List.pairwise_cons.mp hS).1 x hx2)
          mvso g0 so 0 hc0 hxh0 hA5 hpo hsolo
        have hh0 : heuristic (Game.mk e.key e.cars) = 0 := hsol
        rw [hh0] at hfsc
        omega
      · have hqe := hIA e (List.mem_cons_self ..)
        have hL : AStarLocal g0 e.key gcosts rest := by
          refine ⟨fun x hx => hIA x (List.mem_cons_of_mem _ hx), hS.of_cons,
            fun x hx => hA3 x (List.mem_cons_of_mem _ hx), hA5, ?_⟩
          intro b c hbc hbne
          rcases hA1 b c hbc with ⟨x, hx, hk, hcst⟩ | hcl
          · rcases List.mem_cons.mp hx with rfl | hx2
            · exact absurd hk.symm hbne
            · exact Or.inl ⟨x, hx2, hk, hcst⟩
          · exact Or.inr hcl
        obtain ⟨gc2, h2, hrun, hL2, hmono, hstable, hsucc⟩ :=
          aStarExpandCars_strong g0 e.key (Game.mk e.key e.cars) e.moves e.cost
            (get_possible_moves (Game.mk e.key e.cars)) hqe.1 (fun x hx => hx)
            (fun mv2 g1 hstep => AInv_child g0 e mv2 g1 hqe hstep)
            gcosts rest hL
        rw [hrun] at h
        dsimp only at h
        have hold : costsGet gcosts e.key = some e.cost := by
          obtain ⟨cx, hcx, hlex⟩ := hA3 e (List.mem_cons_self ..)
          unfold staleB at hstale
          rw [hcx] at hstale
          simp at hstale
          rw [hcx]
          have : cx = e.cost := by omega
          rw [this]
        refine ih gc2 h2 (nodes + 1) _ mv n2 gf
          ⟨hL2.1, hL2.2.1, hL2.2.2.1, hL2.2.2.2.1, ?_⟩ h
        intro b c hbc
        by_cases hbe : b = e.key
        · subst hbe
          have hkeep := hstable e.key e.cost hold (by omega)
          rw [hkeep] at hbc
          injection hbc with hceq
          refine Or.inr ⟨?_, ?_⟩
          · intro s hcs hsb hsols
            exact hsol ((is_solution_board_det s (Game.mk e.key e.cars)
              hcs hqe.1 hsb).mp hsols)
          · intro s hcs hsb mv2 s1 hstep
            obtain ⟨s1t, hstept, hb1t, _⟩ :=
              EnumStep_transfer s (Game.mk e.key e.cars) s1 mv2 hcs hqe.1 hsb hstep
            obtain ⟨p, n, car, hxm, hinc, hget2, hmv2⟩ := hstept
            obtain ⟨c1, hc1, hle1⟩ := hsucc (mv2.1, p, n) hxm mv2.2 hinc car s1t hget2 hmv2
            refine ⟨c1, ?_, by omega⟩
            rw [← hb1t]
            exact hc1
        · exact hL2.2.2.2.2 b c hbc hbe

theorem AStarInv_init (g0 : Game) (hc0 : Consistent g0) :
    AStarInv g0 [(g0.board, 0)] [⟨heuristic g0, 0, g0.board, [], g0.cars⟩] := by
  have hget : costsGet [(g0.board, 0)] g0.board = some 0 := by
    unfold costsGet
    rw [List.find?_cons_of_pos _ (by simp)]
    rfl
  refine ⟨?_, ?_, ?_, hget, ?_⟩
  · intro x hx
    rw [List.mem_singleton] at hx
    subst hx
    exact AInv_root g0 hc0
  · simp
  · intro x hx
    rw [List.mem_singleton] at hx
    subst hx
    exact ⟨0, hget, le_refl 0⟩
  · intro b c hbc
    by_cases hb : g0.board = b
    · subst hb
      rw [hget] at hbc
      injection hbc with hc
      exact Or.inl ⟨⟨heuristic g0, 0, g0.board, [], g0.cars⟩,
        List.mem_singleton_self _, rfl, hc⟩
    · exfalso
      unfold costsGet at hbc
      rw [List.find?_cons_of_neg _ (by simpa using hb)] at hbc
      simp [List.find?] at hbc

/-- C2: on a valid initial configuration (pairwise-distinct identities,
successful construction), whenever both solvers return a move sequence, the
length of the sequence returned by `a_star` equals the length of the one
returned by `bfs`: both compute a minimum-length solution (A* because the
obstacle-count heuristic never exceeds the true remaining move count along
any solution path). -/
theorem a_star_matches_bfs (l : List String) (cars : List Car) (g0 : Game)
    (hp : parseAll l = some cars) (hnd : (cars.map Car.name).Nodup)
    (hok : gameFromStrings l = .ok g0)
    (fuel1 : Nat) (mv1 : List String) (n1 : Nat) (gf1 : Game)
    (fuel2 : Nat) (mv2 : List String) (n2 : Nat) (gf2 : Game)
    (h1 : bfs fuel1 g0 = .ok (.found mv1 n1 gf1))
    (h2 : a_star fuel2 g0 = .ok (.found mv2 n2 gf2)) :
    mv2.length = mv1.length := by
  have hc0 := gameFromStrings_consistent l cars g0 hp hnd hok
  have hxh0 := gameFromStrings_X_H l g0 hok
  have h1L : bfsLoop fuel1 [] [⟨g0.board, [], g0.cars⟩] 0 g0
      = .ok (.found mv1 n1 gf1) := h1
  have h2L : aStarLoop fuel2 [(g0.board, 0)]
      [⟨heuristic g0, 0, g0.board, [], g0.cars⟩] 0 g0 = .ok (.found mv2 n2 gf2) := h2
  have hsound := bfsLoop_found_sound g0 fuel1 [] [⟨g0.board, [], g0.cars⟩] 0 g0 mv1 n1 gf1
    (fun x hx => by
      rw [List.mem_singleton] at hx
      subst hx
      exact QInv_root g0 hc0) h1L
  obtain ⟨hcf, hrepf, hsolf, mvsf, hlenf, hpathf⟩ := hsound
  have hne : {j : Nat | SolvableIn g0 j}.Nonempty :=
    ⟨mv1.length, mvsf, gf1, hlenf, hpathf, hsolf⟩
  have hsolv : SolvableIn g0 (sInf {j : Nat | SolvableIn g0 j}) := Nat.sInf_mem hne
  have hmin : ∀ j, SolvableIn g0 j → sInf {j : Nat | SolvableIn g0 j} ≤ j :=
    fun j hj => Nat.sInf_le hj
  have hb := bfsLoop_minimal g0 hc0 _ hsolv hmin fuel1 [] [⟨g0.board, [], g0.cars⟩]
    0 g0 mv1 n1 gf1 (BfsInv_init g0 hc0) h1L
  have ha := aStarLoop_minimal g0 hc0 hxh0 _ hsolv hmin fuel2 [(g0.board, 0)]
    [⟨heuristic g0, 0, g0.board, [], g0.cars⟩] 0 g0 mv2 n2 gf2
    (AStarInv_init g0 hc0) h2L
  rw [ha, hb]

theorem a_star_matches_bfs_witness :
    bfs 20 gameXA = .ok (.found ["A+2"] 5 gameXAdone) ∧
      a_star 20 gameXA = .ok (.found ["A+3"] 2 gameXAdone3) ∧
      (["A+3"] : List String).length = (["A+2"] : List String).length :=
  ⟨by rfl, by rfl,
   a_star_matches_bfs ["XH20", "AV14"]
     [{ name := 1, orientation := .H, start := (2, 0) },
      { name := 2, orientation := .V, start := (1, 4) }] gameXA
     (by decide) (by decide) (by rfl) 20 ["A+2"] 5 gameXAdone 20 ["A+3"] 2 gameXAdone3
     (by rfl) (by rfl)⟩

end RushHour
